import Mathlib

/-!
trash-guard: a verification development of `cli/main.go`

The program moves files and directories to the system trash.  This file embeds
the functions of `cli/main.go` over an explicit model of the operating system's
file primitives and proves properties of them.

Layout:

* `Str`, `Clean`, `Join`, `Base`, `Dir`, `Ext`, `Abs`, `Itoa`: the functions of Go's
  `path/filepath` and `strconv` that the program calls (Unix flavour);
* `FS` and the primitives `Stat`, `Lstat`, `ReadFile`, `WriteFile`, `Remove`, `Rename`,
  `MkdirAll`, `ReadDir`: a deterministic model of the file system;
* `uniquePath`, `copyFileAndDelete`, `copyDirAndDelete`, `copyAndDelete`, `trashMacOS`,
  `trashLinux`, `moveToTrash`, `main`: the program, function by function;
* the theorems.

What the model of the operating system covers and what it leaves out:

* the file tree holds directories and regular files; there are no symbolic links and no
  hard links, so `Stat` and `Lstat` agree;
* a path is resolved lexically (`resolve`).  This is what the kernel does for a clean path,
  and the program hands only clean paths to the primitives: each is a result of
  `filepath.Abs` or of `filepath.Join`.  For a path that is not clean the kernel can report
  an error where the lexical resolution finds a node (a `..` after a directory that does
  not exist, a trailing separator after a regular file);
* the process owns every node and is not privileged; the owner write bit of a directory
  decides whether entries can be made, removed or renamed in it, the owner read and write
  bits of a regular file whether it can be read or overwritten; search and read permission
  on directories and limits on the length of names are not modelled, and the umask of the
  process is taken to be 0, so that a file or directory is made with the permission bits
  asked for;
* a rename across mount points fails with `EXDEV`;
* a primitive either takes effect as a whole or fails and changes nothing, except
  `MkdirAll`, which keeps the directories it has made before it fails; in particular
  `WriteFile` fails only when the file cannot be opened, and a write that breaks off after
  the file has been opened and truncated (a full disk, an input/output error) is not
  modelled;
* `ReadDir` gives the entries sorted by file name, and `entry.Info()` never fails;
* the environment (`runtime.GOOS`, `$HOME`, `$XDG_DATA_HOME`, the clock) is a parameter;
* loops and recursions that the source does not bound (`uniquePath`,
  `copyDirAndDelete`) take a number of rounds `fuel` and give `none` when it runs out; the
  counter of `uniquePath` is a natural number, and the theorem on `uniquePath` bounds it by
  the number of nodes, far below the range of Go's `int`.
-/

namespace TrashGuard

/-! ## Strings and `path/filepath` -/

/-- Go strings are modelled as lists of characters. -/
abbrev Str := List Char

/-- The components of a path: the pieces between the `/` separators, empty pieces included
(`"/a//b"` has the components `""`, `"a"`, `""`, `"b"`). -/
def splitSlash : Str → List Str
  | [] => [[]]
  | c :: cs =>
    if c = '/' then [] :: splitSlash cs
    else match splitSlash cs with
      | [] => [[c]]
      | h :: t => (c :: h) :: t

/-- Components glued back together with one `/` between neighbours. -/
def joinSlash : List Str → Str
  | [] => []
  | [a] => a
  | a :: b :: t => a ++ '/' :: joinSlash (b :: t)

/-- One step of `filepath.Clean`, on the stack of components kept so far (most recent first):
empty components and `.` are dropped, `..` removes the component before it, a `..` that
would climb above the root of a rooted path is dropped, and a `..` that cannot be resolved
in a relative path is kept. -/
def cleanStep (rooted : Bool) (st : List Str) (c : Str) : List Str :=
  if c = [] ∨ c = ['.'] then st
  else if c = ['.', '.'] then
    match st with
    | [] => if rooted then [] else [c]
    | t :: r => if t = ['.', '.'] then c :: st else r
  else c :: st

/-- `filepath.IsAbs` on Unix: the path starts with a separator. -/
def IsAbs (p : Str) : Bool :=
  match p with
  | '/' :: _ => true
  | _ => false

/-- `filepath.Clean`: the shortest path name equivalent to `p` by purely lexical processing.
The empty result of a relative path is `"."`. -/
def Clean (p : Str) : Str :=
  let st := (splitSlash p).foldl (cleanStep (IsAbs p)) []
  if IsAbs p then '/' :: joinSlash st.reverse
  else if st = [] then ['.'] else joinSlash st.reverse

/-- `filepath.Join`: leading empty elements are ignored, the rest is joined with `/` and
cleaned; the result of joining nothing is the empty string. -/
def Join : List Str → Str
  | [] => []
  | e :: es => if e = [] then Join es else Clean (joinSlash (e :: es))

/-- The path with its trailing separators removed. -/
def stripTrailingSlashes (p : Str) : Str :=
  (p.reverse.dropWhile (fun c => c = '/')).reverse

/-- The part of a path after its last separator (the whole path if there is none). -/
def lastElement (p : Str) : Str :=
  (p.reverse.takeWhile (fun c => c ≠ '/')).reverse

/-- `filepath.Base`: the last element of the path, trailing separators removed first;
`"."` for the empty path and `"/"` for a path of separators only. -/
def Base (p : Str) : Str :=
  if p = [] then ['.']
  else
    let q := lastElement (stripTrailingSlashes p)
    if q = [] then ['/'] else q

/-- `filepath.Dir`: all but the last element of the path, cleaned. -/
def Dir (p : Str) : Str :=
  Clean (p.reverse.dropWhile (fun c => c ≠ '/')).reverse

/-- The backwards scan of `filepath.Ext`: `r` is the unread part of the path, last character
first, `acc` the characters already passed. -/
def extScan : Str → Str → Str
  | [], _ => []
  | c :: r, acc =>
    if c = '/' then []
    else if c = '.' then '.' :: acc
    else extScan r (c :: acc)

/-- `filepath.Ext`: the suffix beginning at the final dot in the final element of the path,
empty if there is no dot. -/
def Ext (p : Str) : Str := extScan p.reverse []

/-- The digit loop of `strconv.Itoa` for a non-negative number. -/
def itoaLoop : Nat → Nat → Str → Str
  | 0, _, acc => acc
  | fuel + 1, n, acc =>
    let acc1 := Char.ofNat (48 + n % 10) :: acc
    if n / 10 = 0 then acc1 else itoaLoop fuel (n / 10) acc1

/-- `strconv.Itoa` on a non-negative number: its decimal digits. -/
def Itoa (n : Nat) : Str := itoaLoop (n + 1) n []

/-! ## The file system -/

/-- A location in the file tree: the names on the way from the root directory. -/
abbrev Loc := List Str

/-- What a location holds: a regular file with its permission bits and content, or a
directory with its permission bits.  Symbolic links and hard links are not modelled, so a
status query that follows links and one that does not agree. -/
inductive Node where
  | file (perm : Nat) (data : Str)
  | dir (perm : Nat)
deriving DecidableEq, Repr

/-- The error numbers the modelled primitives report. -/
inductive Errno where
  | ENOENT | ENOTDIR | EISDIR | EACCES | EEXIST | ENOTEMPTY | EXDEV | EINVAL | EBUSY
deriving DecidableEq, Repr

/-- The state of the file system: the nodes by location (the first entry for a location
counts), the working directory of the process (`none` when it cannot be determined) and the
mount points, which split the tree into devices.  The process owns every node and is not
privileged: the owner permission bits decide what it may do. -/
structure FS where
  nodes : List (Loc × Node)
  cwd : Option Loc
  mounts : List Loc
deriving DecidableEq

/-- The node at a location, if any. -/
def FS.get (fs : FS) (l : Loc) : Option Node :=
  (fs.nodes.find? (fun e => decide (e.1 = l))).map (fun e => e.2)

/-- The state with the node at `l` set to `n`. -/
def FS.insert (fs : FS) (l : Loc) (n : Node) : FS :=
  { fs with nodes := (l, n) :: fs.nodes.filter (fun e => decide (e.1 ≠ l)) }

/-- The state with the node at `l` removed. -/
def FS.erase (fs : FS) (l : Loc) : FS :=
  { fs with nodes := fs.nodes.filter (fun e => decide (e.1 ≠ l)) }

/-- Owner read permission (`0400`). -/
def canRead (perm : Nat) : Bool := perm / 256 % 2 = 1

/-- Owner write permission (`0200`). -/
def canWrite (perm : Nat) : Bool := perm / 128 % 2 = 1

/-- A name a directory entry can have: not empty, not `.` or `..`, without a separator. -/
def validName (n : Str) : Bool :=
  decide (n ≠ []) && decide (n ≠ ['.']) && decide (n ≠ ['.', '.']) && decide ('/' ∉ n)

/-- One step of path resolution, on the location reached so far (innermost name first):
empty components and `.` stay, `..` goes to the parent, a name goes down. -/
def resolveStep (cur : List Str) (c : Str) : List Str :=
  if c = [] ∨ c = ['.'] then cur
  else if c = ['.', '.'] then cur.tail
  else c :: cur

/-- The location a path names: an absolute path is resolved from the root, a relative one
from the working directory; the empty path names nothing.  Resolution is lexical: it does
not look at the nodes.  In a tree without symbolic links the kernel comes to the same
location for every clean path (all the paths the program passes to a primitive are clean,
being results of `filepath.Abs` or `filepath.Join`), and for any other path when the
directories named before a `.`, a `..` or a trailing separator exist; otherwise the kernel
reports an error where this function gives a location. -/
def resolve (fs : FS) (p : Str) : Option Loc :=
  if p = [] then none
  else if IsAbs p then some ((splitSlash p).foldl resolveStep []).reverse
  else fs.cwd.map (fun w => ((splitSlash p).foldl resolveStep w.reverse).reverse)

/-- The node at the nearest location above `l` that holds one; `r` is `l` with the
innermost name first. -/
def nearestAbove (fs : FS) : List Str → Option Node
  | [] => none
  | _ :: r =>
    match fs.get r.reverse with
    | some n => some n
    | none => nearestAbove fs r

/-- The error number for a location that holds nothing: `ENOTDIR` when the nearest node above
it is a regular file, `ENOENT` otherwise. -/
def missingErr (fs : FS) (l : Loc) : Errno :=
  match nearestAbove fs l.reverse with
  | some (.file _ _) => .ENOTDIR
  | _ => .ENOENT

/-- Whether some location strictly below `l` holds a node. -/
def hasChildren (fs : FS) (l : Loc) : Bool :=
  fs.nodes.any (fun e => decide (l <+: e.1) && decide (e.1 ≠ l))

/-- The device of a location: the longest mount point above or at it (its length; 0 is the
root device when no mount point applies). -/
def deviceOf (fs : FS) (l : Loc) : Loc :=
  (fs.mounts.filter (fun m => decide (m <+: l))).foldl
    (fun best m => if best.length < m.length then m else best) []

/-- Go's `error` values as the program produces them: an error of an operating-system
primitive (`*PathError`, `*LinkError`), a message made by `fmt.Errorf` without a cause, and a
message wrapping a cause (`fmt.Errorf("...: %w", err)`). -/
inductive GoError where
  | sys (op : Str) (path : Str) (e : Errno)
  | text (msg : Str)
  | wrap (msg : Str) (cause : GoError)
deriving DecidableEq, Repr

/-- The text of an error number. -/
def Errno.text : Errno → Str
  | .ENOENT => "no such file or directory".toList
  | .ENOTDIR => "not a directory".toList
  | .EISDIR => "is a directory".toList
  | .EACCES => "permission denied".toList
  | .EEXIST => "file exists".toList
  | .ENOTEMPTY => "directory not empty".toList
  | .EXDEV => "invalid cross-device link".toList
  | .EINVAL => "invalid argument".toList
  | .EBUSY => "device or resource busy".toList

deriving instance DecidableEq for Except

/-- The message of an error (`err.Error()`). -/
def GoError.Error : GoError → Str
  | .sys op path e => op ++ " ".toList ++ path ++ ": ".toList ++ e.text
  | .text msg => msg
  | .wrap msg cause => msg ++ ": ".toList ++ cause.Error

/-- `os.IsNotExist`: the error is an operating-system error with number `ENOENT` (errors
wrapped by `fmt.Errorf` are not looked into). -/
def IsNotExist : GoError → Bool
  | .sys _ _ Errno.ENOENT => true
  | _ => false

/-- The result of a status query (`os.FileInfo`): the base name, whether the node is a
directory, and its permission bits. -/
structure FileInfo where
  name : Str
  isDir : Bool
  perm : Nat
deriving DecidableEq, Repr

/-- The status record of a node. -/
def Node.info (name : Str) : Node → FileInfo
  | .file perm _ => { name := name, isDir := false, perm := perm }
  | .dir perm => { name := name, isDir := true, perm := perm }

/-- Whether a node is a directory. -/
def Node.isDir : Node → Bool
  | .file _ _ => false
  | .dir _ => true

/-- The status query shared by `os.Stat` and `os.Lstat`. -/
def statWith (op : Str) (fs : FS) (p : Str) : Except GoError FileInfo :=
  match resolve fs p with
  | none => .error (.sys op p .ENOENT)
  | some l =>
    match fs.get l with
    | some n => .ok (n.info (Base p))
    | none => .error (.sys op p (missingErr fs l))

/-- `os.Stat`. -/
def Stat (fs : FS) (p : Str) : Except GoError FileInfo := statWith "stat".toList fs p

/-- `os.Lstat`. -/
def Lstat (fs : FS) (p : Str) : Except GoError FileInfo := statWith "lstat".toList fs p

/-- `os.ReadFile`: the content of a readable regular file.  Nothing changes. -/
def ReadFile (fs : FS) (p : Str) : Except GoError Str :=
  match resolve fs p with
  | none => .error (.sys "open".toList p .ENOENT)
  | some l =>
    match fs.get l with
    | none => .error (.sys "open".toList p (missingErr fs l))
    | some (.dir _) => .error (.sys "read".toList p .EISDIR)
    | some (.file perm data) =>
      if canRead perm then .ok data else .error (.sys "open".toList p .EACCES)

/-- `os.WriteFile`: an existing writable regular file gets the new content and keeps its
permission bits; a missing file is created with the given bits (the umask is taken to be
0) in a writable directory.  The failures modelled are those of opening the file, which
leave the state as it was; a write that breaks off after the file has been truncated is
not modelled. -/
def WriteFile (fs : FS) (p : Str) (data : Str) (perm : Nat) : Option GoError × FS :=
  match resolve fs p with
  | none => (some (.sys "open".toList p .ENOENT), fs)
  | some l =>
    match fs.get l with
    | some (.dir _) => (some (.sys "open".toList p .EISDIR), fs)
    | some (.file fperm _) =>
      if canWrite fperm then (none, fs.insert l (.file fperm data))
      else (some (.sys "open".toList p .EACCES), fs)
    | none =>
      match fs.get l.dropLast with
      | some (.dir dperm) =>
        if l ≠ [] ∧ canWrite dperm then (none, fs.insert l (.file (perm % 512) data))
        else (some (.sys "open".toList p .EACCES), fs)
      | some (.file _ _) => (some (.sys "open".toList p .ENOTDIR), fs)
      | none => (some (.sys "open".toList p (missingErr fs l)), fs)

/-- `os.Remove`: removes a file or an empty directory from a writable directory. -/
def Remove (fs : FS) (p : Str) : Option GoError × FS :=
  match resolve fs p with
  | none => (some (.sys "remove".toList p .ENOENT), fs)
  | some l =>
    match fs.get l with
    | none => (some (.sys "remove".toList p (missingErr fs l)), fs)
    | some n =>
      if l = [] then (some (.sys "remove".toList p .EBUSY), fs)
      else match fs.get l.dropLast with
        | some (.dir dperm) =>
          if !canWrite dperm then (some (.sys "remove".toList p .EACCES), fs)
          else if n.isDir && hasChildren fs l then (some (.sys "remove".toList p .ENOTEMPTY), fs)
          else (none, fs.erase l)
        | _ => (some (.sys "remove".toList p .ENOTDIR), fs)

/-- Whether the directory above `l` exists and is writable. -/
def parentWritable (fs : FS) (l : Loc) : Bool :=
  match fs.get l.dropLast with
  | some (.dir dperm) => decide (l ≠ []) && canWrite dperm
  | _ => false

/-- The error number of a rename of the node `n` at `s` to `d`, if it is refused.  A
directory cannot move into itself; the test for a destination above the source is never
met in a tree, where such a destination is an existing directory. -/
def renameCheck (fs : FS) (sameName : Bool) (s d : Loc) (n : Node) : Option Errno :=
  match fs.get d with
  | some (.dir _) => if sameName || decide (s ≠ d) then some .EEXIST else none
  | some (.file _ _) =>
    if s = d then none
    else if n.isDir then some .ENOTDIR
    else if s <+: d ∨ d <+: s then some .EINVAL
    else if !parentWritable fs s || !parentWritable fs d then some .EACCES
    else if deviceOf fs s ≠ deviceOf fs d then some .EXDEV
    else none
  | none =>
    if s = [] then some .EBUSY
    else if s <+: d ∨ d <+: s then some .EINVAL
    else match fs.get d.dropLast with
      | none => some (missingErr fs d)
      | some (.file _ _) => some .ENOTDIR
      | some (.dir _) =>
        if !parentWritable fs s || !parentWritable fs d then some .EACCES
        else if deviceOf fs s ≠ deviceOf fs d then some .EXDEV
        else none

/-- The nodes after the tree at `s` has moved to `d`. -/
def moveNodes (nodes : List (Loc × Node)) (s d : Loc) : List (Loc × Node) :=
  (nodes.filter (fun e => decide (e.1 ≠ d))).map
    (fun e => if s <+: e.1 then (d ++ e.1.drop s.length, e.2) else e)

/-- `os.Rename`: moves a node, with everything below it, to a new location on the same
device; a destination that is a directory is refused, a destination that is a regular file
is replaced by a regular file, and a rename of a node to itself does nothing. -/
def Rename (fs : FS) (old new : Str) : Option GoError × FS :=
  match resolve fs old, resolve fs new with
  | some s, some d =>
    match fs.get s with
    | none => (some (.sys "rename".toList old (missingErr fs s)), fs)
    | some n =>
      match renameCheck fs (decide (old = new)) s d n with
      | some e => (some (.sys "rename".toList old e), fs)
      | none => if s = d then (none, fs) else (none, { fs with nodes := moveNodes fs.nodes s d })
  | _, _ => (some (.sys "rename".toList old .ENOENT), fs)

/-- The path `p` without its last `below` elements: the path that an error of `os.MkdirAll`
names when it is about a directory `below` levels above the one asked for. -/
def pathAbove (p : Str) (below : Nat) : Str :=
  joinSlash ((splitSlash p).take ((splitSlash p).length - below))

/-- The descent of `os.MkdirAll` below `cur`: every missing directory on the way is made in
its (writable) parent with the given permission bits; directories made before a failure
stay.  An error names the directory that could not be made or is not a directory, not the
whole path. -/
def mkdirAllFrom (p : Str) (perm : Nat) : FS → Loc → List Str → Option GoError × FS
  | fs, _, [] => (none, fs)
  | fs, cur, c :: rest =>
    match fs.get (cur ++ [c]) with
    | some (.dir _) => mkdirAllFrom p perm fs (cur ++ [c]) rest
    | some (.file _ _) => (some (.sys "mkdir".toList (pathAbove p rest.length) .ENOTDIR), fs)
    | none =>
      match fs.get cur with
      | some (.dir dperm) =>
        if canWrite dperm then
          mkdirAllFrom p perm (fs.insert (cur ++ [c]) (.dir (perm % 512))) (cur ++ [c]) rest
        else (some (.sys "mkdir".toList (pathAbove p rest.length) .EACCES), fs)
      | some (.file _ _) => (some (.sys "mkdir".toList (pathAbove p rest.length) .ENOTDIR), fs)
      | none =>
        (some (.sys "mkdir".toList (pathAbove p rest.length) (missingErr fs (cur ++ [c]))), fs)

/-- `os.MkdirAll`: makes the directory and every missing parent; nothing is made for the
root, which has to be a directory. -/
def MkdirAll (fs : FS) (p : Str) (perm : Nat) : Option GoError × FS :=
  match resolve fs p with
  | none => (some (.sys "mkdir".toList p .ENOENT), fs)
  | some [] =>
    match fs.get [] with
    | some (.dir _) => (none, fs)
    | some (.file _ _) => (some (.sys "mkdir".toList p .ENOTDIR), fs)
    | none => (some (.sys "mkdir".toList p .ENOENT), fs)
  | some (c :: rest) => mkdirAllFrom p perm fs [] (c :: rest)

/-- The names of the entries of the directory at `l`, each once, sorted by name as
`os.ReadDir` returns them (the order of strings by their bytes is the order of the lists of
their characters).  A listing holds names that an entry can have. -/
def childNames (fs : FS) (l : Loc) : List Str :=
  (((fs.nodes.filterMap (fun e => if e.1.dropLast = l then e.1.getLast? else none)).filter
    validName).dedup).insertionSort (fun a b => a ≤ b)

/-- `os.ReadDir`: the entries of a directory, sorted by file name, each with the status
record that `entry.Info()` gives.  The directory is opened as a directory, so that a path
that names a regular file fails in `open`. -/
def ReadDir (fs : FS) (p : Str) : Except GoError (List FileInfo) :=
  match resolve fs p with
  | none => .error (.sys "open".toList p .ENOENT)
  | some l =>
    match fs.get l with
    | none => .error (.sys "open".toList p (missingErr fs l))
    | some (.file _ _) => .error (.sys "open".toList p .ENOTDIR)
    | some (.dir _) =>
      .ok ((childNames fs l).filterMap (fun n => (fs.get (l ++ [n])).map (Node.info n)))

/-- `os.Getwd`. -/
def Getwd (fs : FS) : Except GoError Str :=
  match fs.cwd with
  | none => .error (.sys "getwd".toList [] .ENOENT)
  | some w => .ok ('/' :: joinSlash w)

/-- `filepath.Abs`: an absolute path is cleaned, a relative one is joined to the working
directory. -/
def Abs (fs : FS) (p : Str) : Except GoError Str :=
  if IsAbs p then .ok (Clean p)
  else match Getwd fs with
    | .error e => .error e
    | .ok wd => .ok (Join [wd, p])

/-- What the process reads from its environment besides the file system: the operating
system identifier (`runtime.GOOS`), the value of `$HOME` (`none` when it is not set),
`$XDG_DATA_HOME` (empty when not set) and the formatted local time
(`time.Now().Format("2006-01-02T15:04:05")`). -/
structure Env where
  goos : Str
  home : Option Str
  xdgDataHome : Str
  now : Str

/-- `os.UserHomeDir` on Unix: the value of `$HOME`, and an error when the variable is not
set or is empty. -/
def UserHomeDir (env : Env) : Except GoError Str :=
  match env.home with
  | none => .error (.text "$HOME is not defined".toList)
  | some h => if h = [] then .error (.text "$HOME is not defined".toList) else .ok h

/-! ## The program (`cli/main.go`) -/

/-- The build-time `version` constant. -/
def version : Str := "1.0.0".toList

/-- The test of `uniquePath`: `_, err := os.Stat(path); os.IsNotExist(err)`. -/
def statNotExist (fs : FS) (p : Str) : Bool :=
  match Stat fs p with
  | .error e => IsNotExist e
  | .ok _ => false

/-- The path `uniquePath` tries for the counter `i`. -/
def candidate (dir name ext : Str) (i : Nat) : Str :=
  Join [dir, name ++ " ".toList ++ Itoa i ++ ext]

/-- The loop `for i := 1; ; i++` of `uniquePath`, from counter `i`, for at most `fuel`
rounds. -/
def uniquePathLoop (fs : FS) (dir name ext : Str) : Nat → Nat → Option Str
  | 0, _ => none
  | fuel + 1, i =>
    if statNotExist fs (candidate dir name ext i) then some (candidate dir name ext i)
    else uniquePathLoop fs dir name ext fuel (i + 1)

/-- `uniquePath`: the path itself when the status query reports that it does not exist,
otherwise the first free path with a counter inserted before the extension.  `none` when
the loop has not ended after `fuel` rounds. -/
def uniquePath (fuel : Nat) (fs : FS) (path : Str) : Option Str :=
  if statNotExist fs path then some path
  else
    let dir := Dir path
    let ext := Ext path
    let base := Base path
    let name := base.take (base.length - ext.length)
    uniquePathLoop fs dir name ext fuel 1

/-- `copyFileAndDelete`: read the source, write the destination with the source's mode,
remove the source. -/
def copyFileAndDelete (fs : FS) (src dst : Str) (info : FileInfo) : Option GoError × FS :=
  match ReadFile fs src with
  | .error e => (some e, fs)
  | .ok data =>
    match WriteFile fs dst data info.perm with
    | (some e, fs1) => (some e, fs1)
    | (none, fs1) => Remove fs1 src

/-- The `for _, entry := range entries` loop with its early return: `body` is run on the
entries in turn and the first error ends the loop. -/
def forEntries (body : FS → FileInfo → Option (Option GoError × FS)) :
    FS → List FileInfo → Option (Option GoError × FS)
  | fs, [] => some (none, fs)
  | fs, e :: es =>
    match body fs e with
    | none => none
    | some (some err, fs1) => some (some err, fs1)
    | some (none, fs1) => forEntries body fs1 es

/-- The body of the loop of `copyDirAndDelete` for one entry: a directory is copied by the
recursive call `recur`, anything else by `copyFileAndDelete`. -/
def copyEntry (recur : FS → Str → Str → Option (Option GoError × FS)) (src dst : Str)
    (st : FS) (entry : FileInfo) : Option (Option GoError × FS) :=
  if entry.isDir then recur st (Join [src, entry.name]) (Join [dst, entry.name])
  else some (copyFileAndDelete st (Join [src, entry.name]) (Join [dst, entry.name]) entry)

/-- `copyDirAndDelete`: make the destination directory, copy every entry of the source
(directories by recursion, the rest as files), remove the source directory.  `none` when
the recursion is deeper than `fuel`. -/
def copyDirAndDelete : Nat → FS → Str → Str → Option (Option GoError × FS)
  | 0, _, _, _ => none
  | fuel + 1, fs, src, dst =>
    match Stat fs src with
    | .error e => some (some e, fs)
    | .ok srcInfo =>
      match MkdirAll fs dst srcInfo.perm with
      | (some e, fs1) => some (some e, fs1)
      | (none, fs1) =>
        match ReadDir fs1 src with
        | .error e => some (some e, fs1)
        | .ok entries =>
          match forEntries (copyEntry (copyDirAndDelete fuel) src dst) fs1 entries with
          | none => none
          | some (some e, fs2) => some (some e, fs2)
          | some (none, fs2) => some (Remove fs2 src)

/-- `copyAndDelete`: a directory is copied recursively, anything else as a file. -/
def copyAndDelete (fuel : Nat) (fs : FS) (src dst : Str) (info : FileInfo) :
    Option (Option GoError × FS) :=
  if info.isDir then copyDirAndDelete fuel fs src dst
  else some (copyFileAndDelete fs src dst info)

/-- The text `printUsage` prints. -/
def usageText : String :=
  "trash - Move files to system Trash instead of permanent deletion\n" ++
  "\n" ++
  "Usage:\n" ++
  "    trash <file1> [file2] [file3...]\n" ++
  "    trash --help\n" ++
  "    trash --version\n" ++
  "\n" ++
  "Description:\n" ++
  "    Moves files and folders to the system Trash, allowing recovery if needed.\n" ++
  "    \n" ++
  "    On macOS: Uses ~/.Trash\n" ++
  "    On Linux: Uses freedesktop.org trash spec (~/.local/share/Trash)\n" ++
  "\n" ++
  "Examples:\n" ++
  "    trash file.txt           Move a single file to trash\n" ++
  "    trash folder/            Move a folder to trash\n" ++
  "    trash a.txt b.txt c/     Move multiple items to trash\n" ++
  "\n" ++
  "Options:\n" ++
  "    -h, --help      Show this help message\n" ++
  "    -v, --version   Show version information"

/-- `printUsage`: the line written to standard output (`fmt.Println`). -/
def printUsage : Str := usageText.toList ++ ['\n']

/-- The Linux trash directory: `$XDG_DATA_HOME/Trash`, or `<home>/.local/share/Trash` when
the variable is empty. -/
def linuxTrashDir (env : Env) (homeDir : Str) : Str :=
  Join [if env.xdgDataHome = [] then Join [homeDir, ".local".toList, "share".toList]
        else env.xdgDataHome, "Trash".toList]

/-- The directory of the trashed content. -/
def linuxFilesDir (env : Env) (homeDir : Str) : Str :=
  Join [linuxTrashDir env homeDir, "files".toList]

/-- The directory of the metadata records. -/
def linuxInfoDir (env : Env) (homeDir : Str) : Str :=
  Join [linuxTrashDir env homeDir, "info".toList]

/-- The path of the metadata record of the trash entry `destPath`. -/
def trashInfoPathOf (env : Env) (homeDir destPath : Str) : Str :=
  Join [linuxInfoDir env homeDir, Base destPath ++ ".trashinfo".toList]

/-- The text of a metadata record. -/
def trashInfoContent (env : Env) (absPath : Str) : Str :=
  "[Trash Info]\nPath=".toList ++ absPath ++ "\nDeletionDate=".toList ++ env.now ++ ['\n']

/-- `trashMacOS`. -/
def trashMacOS (fuel : Nat) (env : Env) (fs : FS) (absPath : Str) (info : FileInfo) :
    Option (Option GoError × FS) :=
  match UserHomeDir env with
  | .error e => some (some (.wrap "cannot find home directory".toList e), fs)
  | .ok homeDir =>
    let trashDir := Join [homeDir, ".Trash".toList]
    match MkdirAll fs trashDir 448 with
    | (some e, fs1) => some (some (.wrap "cannot create trash directory".toList e), fs1)
    | (none, fs1) =>
      match uniquePath fuel fs1 (Join [trashDir, Base absPath]) with
      | none => none
      | some destPath =>
        match Rename fs1 absPath destPath with
        | (none, fs2) => some (none, fs2)
        | (some _, fs2) =>
          match copyAndDelete fuel fs2 absPath destPath info with
          | none => none
          | some (none, fs3) => some (none, fs3)
          | some (some e, fs3) => some (some (.wrap "cannot move to trash".toList e), fs3)

/-- The last part of `trashLinux`, once the destination is chosen: write the metadata
record, rename, fall back to copy and delete, and remove the record when that fails too. -/
def trashLinuxMove (fuel : Nat) (env : Env) (fs : FS) (absPath : Str) (info : FileInfo)
    (homeDir destPath : Str) : Option (Option GoError × FS) :=
  let trashInfoPath := trashInfoPathOf env homeDir destPath
  match WriteFile fs trashInfoPath (trashInfoContent env absPath) 384 with
  | (some e, fs1) => some (some (.wrap "cannot create trash info file".toList e), fs1)
  | (none, fs1) =>
    match Rename fs1 absPath destPath with
    | (none, fs2) => some (none, fs2)
    | (some _, fs2) =>
      match copyAndDelete fuel fs2 absPath destPath info with
      | none => none
      | some (none, fs3) => some (none, fs3)
      | some (some e, fs3) =>
        some (some (.wrap "cannot move to trash".toList e), (Remove fs3 trashInfoPath).2)

/-- The first part of `trashLinux`: the two trash directories are made and the destination
is chosen.  The result is the state reached and either the error returned or the
destination. -/
def trashLinuxPrepare (fuel : Nat) (env : Env) (fs : FS) (absPath homeDir : Str) :
    Option (FS × Except GoError Str) :=
  match MkdirAll fs (linuxFilesDir env homeDir) 448 with
  | (some e, fs1) => some (fs1, .error (.wrap "cannot create trash files directory".toList e))
  | (none, fs1) =>
    match MkdirAll fs1 (linuxInfoDir env homeDir) 448 with
    | (some e, fs2) => some (fs2, .error (.wrap "cannot create trash info directory".toList e))
    | (none, fs2) =>
      match uniquePath fuel fs2 (Join [linuxFilesDir env homeDir, Base absPath]) with
      | none => none
      | some destPath => some (fs2, .ok destPath)

/-- `trashLinux`. -/
def trashLinux (fuel : Nat) (env : Env) (fs : FS) (absPath : Str) (info : FileInfo) :
    Option (Option GoError × FS) :=
  match UserHomeDir env with
  | .error e => some (some (.wrap "cannot find home directory".toList e), fs)
  | .ok homeDir =>
    match trashLinuxPrepare fuel env fs absPath homeDir with
    | none => none
    | some (fs2, .error e) => some (some e, fs2)
    | some (fs2, .ok destPath) => trashLinuxMove fuel env fs2 absPath info homeDir destPath

/-- `moveToTrash`. -/
def moveToTrash (fuel : Nat) (env : Env) (fs : FS) (path : Str) :
    Option (Option GoError × FS) :=
  match Abs fs path with
  | .error e => some (some (.wrap "cannot resolve path".toList e), fs)
  | .ok absPath =>
    match Lstat fs absPath with
    | .error e =>
      if IsNotExist e then some (some (.text "no such file or directory".toList), fs)
      else some (some (.wrap "cannot access".toList e), fs)
    | .ok info =>
      if env.goos = "darwin".toList then trashMacOS fuel env fs absPath info
      else if env.goos = "linux".toList then trashLinux fuel env fs absPath info
      else some (some (.text ("unsupported operating system: ".toList ++ env.goos)), fs)

/-- What a run of the program leaves behind: the lines written to standard output and to
standard error, the exit status, and the file system. -/
structure Outcome where
  stdout : List Str
  stderr : List Str
  status : Nat
  fs : FS
deriving DecidableEq

/-- The state of the loop of `main`: the file system, `hasErrors`, and the lines written so
far. -/
structure LoopState where
  fs : FS
  hasErrors : Bool
  stdout : List Str
  stderr : List Str

/-- The line `'<path>' moved to trash`. -/
def movedLine (path : Str) : Str := "'".toList ++ path ++ "' moved to trash\n".toList

/-- The line `trash: <path>: <error>`. -/
def errorLine (path : Str) (err : GoError) : Str :=
  "trash: ".toList ++ path ++ ": ".toList ++ err.Error ++ ['\n']

/-- One round of the loop of `main`. -/
def mainStep (fuel : Nat) (env : Env) (st : LoopState) (path : Str) : Option LoopState :=
  match moveToTrash fuel env st.fs path with
  | none => none
  | some (some err, fs1) =>
    some { fs := fs1, hasErrors := true, stdout := st.stdout,
           stderr := st.stderr ++ [errorLine path err] }
  | some (none, fs1) =>
    some { fs := fs1, hasErrors := st.hasErrors, stdout := st.stdout ++ [movedLine path],
           stderr := st.stderr }

/-- The loop `for _, path := range os.Args[1:]` of `main`. -/
def mainLoop (fuel : Nat) (env : Env) : LoopState → List Str → Option LoopState
  | st, [] => some st
  | st, path :: rest =>
    match mainStep fuel env st path with
    | none => none
    | some st1 => mainLoop fuel env st1 rest

/-- `main`, on the arguments after the program name (`os.Args[1:]`). -/
def main (fuel : Nat) (env : Env) (fs : FS) (args : List Str) : Option Outcome :=
  match args with
  | [] => some { stdout := [printUsage], stderr := [], status := 1, fs := fs }
  | first :: _ =>
    if first = "--help".toList ∨ first = "-h".toList then
      some { stdout := [printUsage], stderr := [], status := 0, fs := fs }
    else if first = "--version".toList ∨ first = "-v".toList then
      some { stdout := ["trash v".toList ++ version ++ ['\n']], stderr := [], status := 0,
             fs := fs }
    else
      match mainLoop fuel env { fs := fs, hasErrors := false, stdout := [], stderr := [] }
          args with
      | none => none
      | some st =>
        some { stdout := st.stdout, stderr := st.stderr,
               status := if st.hasErrors then 1 else 0, fs := st.fs }

/-! ## Definitions used to state the properties -/

/-- The invocations of `moveToTrash` on the given paths, one after the other in the order
given, each on the file system the one before left: the paths with their results, and the
final file system.  A failed invocation does not end the sequence. -/
def invokeAll (fuel : Nat) (env : Env) : FS → List Str → Option (List (Str × Option GoError) × FS)
  | fs, [] => some ([], fs)
  | fs, p :: ps =>
    match moveToTrash fuel env fs p with
    | none => none
    | some (r, fs1) =>
      match invokeAll fuel env fs1 ps with
      | none => none
      | some (rs, fs2) => some ((p, r) :: rs, fs2)

/-- The lines `main` writes to standard output for a sequence of results. -/
def stdoutOf : List (Str × Option GoError) → List Str
  | [] => []
  | (p, none) :: rs => movedLine p :: stdoutOf rs
  | (_, some _) :: rs => stdoutOf rs

/-- The lines `main` writes to standard error for a sequence of results. -/
def stderrOf : List (Str × Option GoError) → List Str
  | [] => []
  | (_, none) :: rs => stderrOf rs
  | (p, some e) :: rs => errorLine p e :: stderrOf rs

/-- The outcome of `main` for a sequence of results: the exit status is 1 when some result
is an error and 0 otherwise. -/
def outcomeOf (rs : List (Str × Option GoError)) (fs : FS) : Outcome :=
  { stdout := stdoutOf rs, stderr := stderrOf rs,
    status := if rs.any (fun r => r.2.isSome) then 1 else 0, fs := fs }

/-- A component that `Clean` keeps: neither empty nor `.`. -/
def keptComp (c : Str) : Prop := c ≠ [] ∧ c ≠ ['.']

/-- Whether a node exists at the location a path names. -/
def existsAt (fs : FS) (p : Str) : Bool :=
  match resolve fs p with
  | some l => (fs.get l).isSome
  | none => false

/-- The base name without the extension, as `uniquePath` computes it
(`base[:len(base)-len(ext)]`). -/
def nameOf (path : Str) : Str := (Base path).take ((Base path).length - (Ext path).length)

/-- The example directory of the test of `uniquePath`: `/t` with `multi.txt`, `multi 1.txt`,
`multi 2.txt` and `noextension`. -/
def multiFS : FS :=
  { nodes := [([], .dir 493), (["t".toList], .dir 493),
      (["t".toList, "multi.txt".toList], .file 420 []),
      (["t".toList, "multi 1.txt".toList], .file 420 []),
      (["t".toList, "multi 2.txt".toList], .file 420 []),
      (["t".toList, "noextension".toList], .file 420 [])],
    cwd := some [], mounts := [] }

/-- Whether `m` holds a copy of the node `n`: a regular file with the same content for a
regular file, a directory for a directory. -/
def copiedTo (n : Node) (m : Option Node) : Bool :=
  match n, m with
  | .file _ c, some (.file _ c2) => decide (c = c2)
  | .dir _, some (.dir _) => true
  | _, _ => false

/-- Whether the nodes form a tree: every node but the root lies in a directory. -/
def FS.isTree (fs : FS) : Bool :=
  fs.nodes.all (fun e => decide (e.1 = []) ||
    match fs.get e.1.dropLast with
    | some (.dir _) => true
    | _ => false)

/-- Whether an argument is one of the four flags. -/
def isFlag (a : Str) : Bool :=
  decide (a = "--help".toList) || decide (a = "-h".toList) ||
  decide (a = "--version".toList) || decide (a = "-v".toList)

/-- A small file system for the examples: `/home/u` and a world-writable `/tmp` that holds
`a.txt` and the directory `d` with `f1.txt` and `sub/f2.txt`. -/
def exampleNodes : List (Loc × Node) :=
  [([], .dir 493), (["home".toList], .dir 493), (["home".toList, "u".toList], .dir 493),
   (["tmp".toList], .dir 511), (["tmp".toList, "a.txt".toList], .file 420 "hello".toList),
   (["tmp".toList, "d".toList], .dir 493),
   (["tmp".toList, "d".toList, "f1.txt".toList], .file 420 "file1".toList),
   (["tmp".toList, "d".toList, "sub".toList], .dir 493),
   (["tmp".toList, "d".toList, "sub".toList, "f2.txt".toList], .file 420 "file2".toList)]

/-- The example file system, with `/tmp` as working directory and a single device. -/
def exampleFS : FS := { nodes := exampleNodes, cwd := some ["tmp".toList], mounts := [] }

/-- The example file system with `/tmp` on a device of its own. -/
def exampleFSMounted : FS :=
  { nodes := exampleNodes, cwd := some ["tmp".toList], mounts := [["tmp".toList]] }

/-- The file system of a result, `dflt` when there is none. -/
def resultFS (r : Option (Option GoError × FS)) (dflt : FS) : FS :=
  match r with
  | some (_, fs) => fs
  | none => dflt

/-- The error of a result, if any. -/
def resultError (r : Option (Option GoError × FS)) : Option GoError :=
  match r with
  | some (e, _) => e
  | none => none

/-- The example file system with a directory `/ro` that its owner may read but not change
(mode `0555`), holding the readable file `a.txt`. -/
def readOnlyDirFS : FS :=
  { nodes := exampleNodes ++ [(["ro".toList], .dir 365),
      (["ro".toList, "a.txt".toList], .file 420 "hello".toList)],
    cwd := some ["tmp".toList], mounts := [] }

/-- A file system in which the trash exists, its `info` directory cannot be changed (mode
`0500`) and holds a record `a.txt.trashinfo` left over from earlier, and the file
`/ro/a.txt`, in a directory that cannot be changed, cannot be read (mode `0000`). -/
def staleRecordFS : FS :=
  { nodes := [([], .dir 493), (["home".toList], .dir 493), (["home".toList, "u".toList], .dir 493),
      (["home".toList, "u".toList, ".local".toList], .dir 448),
      (["home".toList, "u".toList, ".local".toList, "share".toList], .dir 448),
      (["home".toList, "u".toList, ".local".toList, "share".toList, "Trash".toList], .dir 448),
      (["home".toList, "u".toList, ".local".toList, "share".toList, "Trash".toList,
        "files".toList], .dir 448),
      (["home".toList, "u".toList, ".local".toList, "share".toList, "Trash".toList,
        "info".toList], .dir 320),
      (["home".toList, "u".toList, ".local".toList, "share".toList, "Trash".toList,
        "info".toList, "a.txt.trashinfo".toList], .file 384 "old".toList),
      (["ro".toList], .dir 365), (["ro".toList, "a.txt".toList], .file 0 "hello".toList)],
    cwd := some [], mounts := [] }

/-- A Linux environment with home directory `/home/u`. -/
def exampleEnv : Env :=
  { goos := "linux".toList, home := some "/home/u".toList, xdgDataHome := [],
    now := "2024-01-01T00:00:00".toList }

/-- The example file system once the trash of `/home/u` is in use: the trash directory
exists with its `files` and `info` directories (mode `0700`). -/
def trashInUseFS : FS :=
  { nodes := exampleNodes ++
      [(["home".toList, "u".toList, ".local".toList], .dir 448),
       (["home".toList, "u".toList, ".local".toList, "share".toList], .dir 448),
       (["home".toList, "u".toList, ".local".toList, "share".toList, "Trash".toList], .dir 448),
       (["home".toList, "u".toList, ".local".toList, "share".toList, "Trash".toList,
         "files".toList], .dir 448),
       (["home".toList, "u".toList, ".local".toList, "share".toList, "Trash".toList,
         "info".toList], .dir 448)],
    cwd := some ["tmp".toList], mounts := [] }

/-- The state that `trashLinux` reaches from `readOnlyDirFS` once the two trash directories
are made. -/
def readOnlyPrepared : FS :=
  (MkdirAll (MkdirAll readOnlyDirFS "/home/u/.local/share/Trash/files".toList 448).2
    "/home/u/.local/share/Trash/info".toList 448).2

/-- The state that `trashLinux` on `/ro/a.txt` reaches from `readOnlyPrepared` once the
record is written. -/
def readOnlyWritten : FS :=
  (WriteFile readOnlyPrepared "/home/u/.local/share/Trash/info/a.txt.trashinfo".toList
    (trashInfoContent exampleEnv "/ro/a.txt".toList) 384).2

/-- The state that the copy and delete of `/ro/a.txt` leaves when it fails in
`readOnlyWritten`: the copy is written and the source could not be removed. -/
def readOnlyCopied : FS :=
  (copyFileAndDelete readOnlyWritten "/ro/a.txt".toList
    "/home/u/.local/share/Trash/files/a.txt".toList ⟨"a.txt".toList, false, 420⟩).2

/-! ## Lemmas on paths -/

theorem splitSlash_ne_nil (p : Str) : splitSlash p ≠ [] := by
  cases p with
  | nil => simp [splitSlash]
  | cons c cs =>
    simp only [splitSlash]
    split
    · simp
    · split <;> simp

theorem splitSlash_of_no_slash (n : Str) (h : '/' ∉ n) : splitSlash n = [n] := by
  induction n with
  | nil => rfl
  | cons c cs ih =>
    have hc : c ≠ '/' := fun e => h (by simp [e])
    have hcs : '/' ∉ cs := fun e => h (by simp [e])
    simp only [splitSlash, hc, if_false, ih hcs]

theorem splitSlash_append (a b : Str) :
    splitSlash (a ++ '/' :: b) = splitSlash a ++ splitSlash b := by
  induction a with
  | nil => simp [splitSlash]
  | cons c cs ih =>
    show splitSlash (c :: (cs ++ '/' :: b)) = splitSlash (c :: cs) ++ splitSlash b
    by_cases hc : c = '/'
    · simp only [splitSlash, hc, if_true]
      rw [ih]; rfl
    · simp only [splitSlash, hc, if_false]
      rw [ih]
      cases hs : splitSlash cs with
      | nil => exact absurd hs (splitSlash_ne_nil cs)
      | cons h t => rfl

theorem splitSlash_no_slash (p : Str) : ∀ c ∈ splitSlash p, '/' ∉ c := by
  induction p with
  | nil => simp [splitSlash]
  | cons x xs ih =>
    by_cases hx : x = '/'
    · simp only [splitSlash, hx, if_true, List.mem_cons]
      rintro c (rfl | hc)
      · simp
      · exact ih c hc
    · simp only [splitSlash, hx, if_false]
      cases hs : splitSlash xs with
      | nil => exact absurd hs (splitSlash_ne_nil xs)
      | cons h t =>
        rw [hs] at ih
        simp only [List.mem_cons]
        rintro c (rfl | hc)
        · have := ih h (by simp)
          simp only [List.mem_cons, not_or]
          exact ⟨fun e => hx e.symm, this⟩
        · exact ih c (by simp [hc])

theorem splitSlash_joinSlash (cs : List Str) (hne : cs ≠ []) (h : ∀ c ∈ cs, '/' ∉ c) :
    splitSlash (joinSlash cs) = cs := by
  induction cs with
  | nil => exact absurd rfl hne
  | cons a t ih =>
    cases t with
    | nil => simpa [joinSlash] using splitSlash_of_no_slash a (h a (by simp))
    | cons b t2 =>
      simp only [joinSlash]
      rw [splitSlash_append, splitSlash_of_no_slash a (h a (by simp)),
        ih (by simp) (fun c hc => h c (by simp [hc]))]
      rfl

theorem cleanStep_kept (r : Bool) (st : List Str) (c : Str) (h : ∀ t ∈ st, keptComp t) :
    ∀ t ∈ cleanStep r st c, keptComp t := by
  unfold cleanStep
  split
  · exact h
  · rename_i hc
    have hk : keptComp c := by
      unfold keptComp
      exact ⟨fun e => hc (Or.inl e), fun e => hc (Or.inr e)⟩
    split
    · cases st with
      | nil =>
        cases r
        · intro t ht; simp at ht; rw [ht]; exact hk
        · intro t ht; simp at ht
      | cons t0 r0 =>
        simp only
        split
        · intro t ht
          simp only [List.mem_cons] at ht
          rcases ht with rfl | ht
          · exact hk
          · exact h t (by simpa using ht)
        · intro t ht; exact h t (by simp [ht])
    · intro t ht
      simp only [List.mem_cons] at ht
      rcases ht with rfl | ht
      · exact hk
      · exact h t ht

theorem cleanStep_rooted_no_dotdot (st : List Str) (c : Str) (h : ∀ t ∈ st, t ≠ ['.', '.']) :
    ∀ t ∈ cleanStep true st c, t ≠ ['.', '.'] := by
  unfold cleanStep
  split
  · exact h
  · split
    · cases st with
      | nil => intro t ht; simp at ht
      | cons t0 r0 =>
        simp only
        rw [if_neg (h t0 (by simp))]
        intro t ht; exact h t (by simp [ht])
    · rename_i hc
      intro t ht
      simp only [List.mem_cons] at ht
      rcases ht with rfl | ht
      · exact hc
      · exact h t ht

theorem resolveStep_kept (cur : List Str) (t : Str) (hk : keptComp t) (hd : t ≠ ['.', '.']) :
    resolveStep cur t = t :: cur := by
  unfold resolveStep
  rw [if_neg (fun e => e.elim hk.1 hk.2), if_neg hd]

theorem resolve_cleanStep (r : Bool) (cur0 : List Str) (hr : r = true → cur0 = [])
    (st : List Str) (c : Str) (hk : ∀ t ∈ st, keptComp t)
    (hd : r = true → ∀ t ∈ st, t ≠ ['.', '.']) :
    (cleanStep r st c).reverse.foldl resolveStep cur0 =
      resolveStep (st.reverse.foldl resolveStep cur0) c := by
  by_cases h1 : c = [] ∨ c = ['.']
  · simp only [cleanStep, resolveStep, if_pos h1]
  · by_cases h2 : c = ['.', '.']
    · subst h2
      cases st with
      | nil =>
        cases r
        · simp [cleanStep, resolveStep]
        · simp [cleanStep, resolveStep, hr rfl]
      | cons t r0 =>
        by_cases h3 : t = ['.', '.']
        · simp only [cleanStep, if_neg h1, if_true, if_pos h3, List.reverse_cons,
            List.foldl_append, List.foldl_cons, List.foldl_nil]
        · simp only [cleanStep, if_neg h1, if_true, if_neg h3, List.reverse_cons,
            List.foldl_append, List.foldl_cons, List.foldl_nil]
          rw [resolveStep_kept _ t (hk t (by simp)) h3]
          simp [resolveStep]
    · simp only [cleanStep, if_neg h1, if_neg h2, List.reverse_cons, List.foldl_append,
        List.foldl_cons, List.foldl_nil]

theorem resolve_clean_foldl (r : Bool) (cur0 : List Str) (hr : r = true → cur0 = [])
    (comps : List Str) :
    ∀ st : List Str, (∀ t ∈ st, keptComp t) → (r = true → ∀ t ∈ st, t ≠ ['.', '.']) →
      (comps.foldl (cleanStep r) st).reverse.foldl resolveStep cur0 =
        comps.foldl resolveStep (st.reverse.foldl resolveStep cur0) := by
  induction comps with
  | nil => intro st _ _; rfl
  | cons c cs ih =>
    intro st hk hd
    simp only [List.foldl_cons]
    rw [ih (cleanStep r st c) (cleanStep_kept r st c hk)
      (fun e => by subst e; exact cleanStep_rooted_no_dotdot st c (hd rfl)),
      resolve_cleanStep r cur0 hr st c hk hd]

theorem cleanStep_mem (r : Bool) (st : List Str) (c t : Str) (h : t ∈ cleanStep r st c) :
    t ∈ st ∨ t = c := by
  unfold cleanStep at h
  split at h
  · exact Or.inl h
  · split at h
    · cases st with
      | nil =>
        cases r
        · simp at h; exact Or.inr h
        · simp at h
      | cons t0 r0 =>
        simp only at h
        split at h
        · simp only [List.mem_cons] at h
          rcases h with h | h
          · exact Or.inr h
          · exact Or.inl (by simpa using h)
        · exact Or.inl (by simp [h])
    · simp only [List.mem_cons] at h
      rcases h with h | h
      · exact Or.inr h
      · exact Or.inl h

theorem clean_foldl_mem (r : Bool) (comps : List Str) :
    ∀ (st : List Str) (t : Str), t ∈ comps.foldl (cleanStep r) st → t ∈ st ∨ t ∈ comps := by
  induction comps with
  | nil => intro st t h; exact Or.inl h
  | cons c cs ih =>
    intro st t h
    simp only [List.foldl_cons] at h
    rcases ih _ t h with h1 | h1
    · rcases cleanStep_mem r st c t h1 with h2 | h2
      · exact Or.inl h2
      · exact Or.inr (by simp [h2])
    · exact Or.inr (by simp [h1])

theorem clean_foldl_kept (r : Bool) (comps : List Str) :
    ∀ st : List Str, (∀ t ∈ st, keptComp t) → ∀ t ∈ comps.foldl (cleanStep r) st, keptComp t := by
  induction comps with
  | nil => intro st h; exact h
  | cons c cs ih =>
    intro st h
    simp only [List.foldl_cons]
    exact ih _ (cleanStep_kept r st c h)

theorem joinSlash_ne_nil (cs : List Str) (hne : cs ≠ []) (h : ∀ c ∈ cs, c ≠ []) :
    joinSlash cs ≠ [] := by
  cases cs with
  | nil => exact absurd rfl hne
  | cons a t =>
    cases t with
    | nil => simpa [joinSlash] using h a (by simp)
    | cons b t2 =>
      simp only [joinSlash]
      intro e
      have := h a (by simp)
      cases a with
      | nil => exact this rfl
      | cons x xs => simp at e

theorem IsAbs_joinSlash (cs : List Str) (h : ∀ c ∈ cs, c ≠ [] ∧ '/' ∉ c) :
    IsAbs (joinSlash cs) = false := by
  cases cs with
  | nil => rfl
  | cons a t =>
    obtain ⟨hne, hns⟩ := h a (by simp)
    cases a with
    | nil => exact absurd rfl hne
    | cons x xs =>
      have hx : x ≠ '/' := fun e => hns (by simp [e])
      cases t with
      | nil =>
        simp only [joinSlash, IsAbs]
        split
        · rename_i heq; simp only [List.cons.injEq] at heq; exact absurd heq.1 hx
        · rfl
      | cons b t2 =>
        simp only [joinSlash, IsAbs, List.cons_append]
        split
        · rename_i heq; simp only [List.cons.injEq] at heq; exact absurd heq.1 hx
        · rfl

theorem foldl_resolve_split_join (cur0 : List Str) (cs : List Str) (h : ∀ c ∈ cs, '/' ∉ c) :
    (splitSlash (joinSlash cs)).foldl resolveStep cur0 = cs.foldl resolveStep cur0 := by
  by_cases hne : cs = []
  · subst hne; simp [joinSlash, splitSlash, resolveStep]
  · rw [splitSlash_joinSlash cs hne h]

theorem Clean_ne_nil (p : Str) : Clean p ≠ [] := by
  unfold Clean
  simp only
  split
  · simp
  · split
    · simp
    · rename_i hst
      apply joinSlash_ne_nil
      · simpa using hst
      · intro c hc
        have := clean_foldl_kept (IsAbs p) (splitSlash p) [] (by simp) c (by simpa using hc)
        exact this.1

theorem Clean_comps (p : Str) :
    ∀ c ∈ ((splitSlash p).foldl (cleanStep (IsAbs p)) []).reverse, c ≠ [] ∧ '/' ∉ c := by
  intro c hc
  have hc2 : c ∈ (splitSlash p).foldl (cleanStep (IsAbs p)) [] := by simpa using hc
  refine ⟨(clean_foldl_kept (IsAbs p) (splitSlash p) [] (by simp) c hc2).1, ?_⟩
  rcases clean_foldl_mem (IsAbs p) (splitSlash p) [] c hc2 with h | h
  · simp at h
  · exact splitSlash_no_slash p c h

theorem IsAbs_Clean (p : Str) : IsAbs (Clean p) = IsAbs p := by
  unfold Clean
  simp only
  cases hp : IsAbs p
  · simp only [Bool.false_eq_true, if_false]
    split
    · rfl
    · exact IsAbs_joinSlash _ (Clean_comps p |> fun h => by rw [hp] at h; exact h)
  · simp [IsAbs]

/-- Cleaning a path does not change the location it names. -/
theorem resolve_Clean (fs : FS) (p : Str) (hp : p ≠ []) :
    resolve fs (Clean p) = resolve fs p := by
  have key : ∀ cur0 : List Str, (IsAbs p = true → cur0 = []) →
      (splitSlash (Clean p)).foldl resolveStep cur0 = (splitSlash p).foldl resolveStep cur0 := by
    intro cur0 hcur
    have h4 := resolve_clean_foldl (IsAbs p) cur0 hcur (splitSlash p) [] (by simp) (by simp)
    simp only [List.reverse_nil, List.foldl_nil] at h4
    rw [← h4]
    unfold Clean
    simp only
    cases hab : IsAbs p
    · simp only [Bool.false_eq_true, if_false]
      split
      · rename_i hst; rw [hst]; simp [splitSlash, resolveStep]
      · exact foldl_resolve_split_join cur0 _
          (fun c hc => ((Clean_comps p) c (by rw [hab]; exact hc)).2)
    · simp only [if_true]
      have : splitSlash ('/' :: joinSlash
          ((splitSlash p).foldl (cleanStep true) []).reverse) =
          [] :: splitSlash (joinSlash ((splitSlash p).foldl (cleanStep true) []).reverse) := by
        simp [splitSlash]
      rw [this, List.foldl_cons]
      have h0 : resolveStep cur0 [] = cur0 := by simp [resolveStep]
      rw [h0]
      exact foldl_resolve_split_join cur0 _
        (fun c hc => ((Clean_comps p) c (by rw [hab]; exact hc)).2)
  unfold resolve
  rw [if_neg (Clean_ne_nil p), if_neg hp, IsAbs_Clean]
  cases hab : IsAbs p
  · simp only [Bool.false_eq_true, if_false]
    cases fs.cwd with
    | none => rfl
    | some w => simp only [Option.map_some']; rw [key w.reverse (by simp [hab])]
  · simp only [if_true]
    rw [key [] (fun _ => rfl)]

theorem validName_iff (n : Str) :
    validName n = true ↔ n ≠ [] ∧ n ≠ ['.'] ∧ n ≠ ['.', '.'] ∧ '/' ∉ n := by
  simp [validName, and_assoc]

theorem IsAbs_cons (x : Char) (xs : Str) : IsAbs (x :: xs) = decide (x = '/') := by
  unfold IsAbs
  split
  · rename_i heq; simp only [List.cons.injEq] at heq; simp [heq.1]
  · rename_i hne
    by_cases hx : x = '/'
    · subst hx; exact absurd rfl (hne xs)
    · simp [hx]

theorem IsAbs_append (d e : Str) (hd : d ≠ []) : IsAbs (d ++ e) = IsAbs d := by
  cases d with
  | nil => exact absurd rfl hd
  | cons x xs => rw [List.cons_append, IsAbs_cons, IsAbs_cons]

/-- The location of a joined path: the second element is resolved from the location of the
first. -/
theorem resolve_Join (fs : FS) (d e : Str) (l : Loc) (hd : d ≠ [])
    (hl : resolve fs d = some l) :
    resolve fs (Join [d, e]) = some ((splitSlash e).foldl resolveStep l.reverse).reverse := by
  have hj : Join [d, e] = Clean (d ++ '/' :: e) := by
    simp only [Join, if_neg hd, joinSlash]
  have hne : d ++ '/' :: e ≠ [] := by simp
  rw [hj, resolve_Clean fs _ hne]
  unfold resolve at hl ⊢
  rw [if_neg hd] at hl
  rw [if_neg hne, IsAbs_append d _ hd, splitSlash_append]
  simp only [List.foldl_append]
  cases hab : IsAbs d
  · simp only [hab, Bool.false_eq_true, if_false] at hl ⊢
    cases hw : fs.cwd with
    | none => simp [hw] at hl
    | some w =>
      simp only [hw, Option.map_some', Option.some.injEq] at hl ⊢
      rw [← hl, List.reverse_reverse]
  · simp only [hab, if_true, Option.some.injEq] at hl ⊢
    rw [← hl, List.reverse_reverse]

/-- The location of `filepath.Join(d, n)` for a name `n` is the entry `n` of the location
of `d`. -/
theorem resolve_Join_child (fs : FS) (d n : Str) (l : Loc) (hd : d ≠ [])
    (hl : resolve fs d = some l) (hn : validName n = true) :
    resolve fs (Join [d, n]) = some (l ++ [n]) := by
  rw [resolve_Join fs d n l hd hl]
  obtain ⟨h1, h2, h3, h4⟩ := (validName_iff n).1 hn
  rw [splitSlash_of_no_slash n h4]
  simp only [List.foldl_cons, List.foldl_nil]
  rw [resolveStep_kept _ n ⟨h1, h2⟩ h3]
  simp

theorem resolve_ne_nil (fs : FS) (p : Str) (l : Loc) (h : resolve fs p = some l) : p ≠ [] := by
  intro e
  subst e
  simp [resolve] at h

/-! ### `strconv.Itoa` -/

theorem itoaLoop_digits (f : Nat) : ∀ (n : Nat) (acc : Str), 0 < n → n ≤ f →
    itoaLoop f n acc = ((Nat.digits 10 n).reverse.map (fun d => Char.ofNat (48 + d))) ++ acc := by
  induction f with
  | zero => intro n acc h1 h2; omega
  | succ f ih =>
    intro n acc h1 h2
    rw [Nat.digits_def' (by norm_num) h1]
    simp only [itoaLoop]
    by_cases h0 : n / 10 = 0
    · simp [h0]
    · rw [if_neg h0, ih (n / 10) _ (Nat.pos_of_ne_zero h0) (by omega)]
      simp

theorem digit_decode (d : Nat) (h : d < 10) : (Char.ofNat (48 + d)).toNat - 48 = d := by
  interval_cases d <;> rfl

theorem Itoa_injective (i j : Nat) (hi : 0 < i) (hj : 0 < j) (h : Itoa i = Itoa j) : i = j := by
  unfold Itoa at h
  rw [itoaLoop_digits _ i [] hi (by omega), itoaLoop_digits _ j [] hj (by omega)] at h
  simp only [List.append_nil] at h
  have dec : ∀ n : Nat, ((Nat.digits 10 n).reverse.map (fun d => Char.ofNat (48 + d))).map
      (fun c => c.toNat - 48) = (Nat.digits 10 n).reverse := by
    intro n
    rw [List.map_map]
    conv_rhs => rw [← List.map_id (Nat.digits 10 n).reverse]
    apply List.map_congr_left
    intro d hd
    exact digit_decode d (Nat.digits_lt_base (by norm_num) (by simpa using hd))
  have h2 := congrArg (List.map (fun c : Char => c.toNat - 48)) h
  rw [dec i, dec j] at h2
  exact Nat.digits.injective 10 (List.reverse_injective h2)

theorem Itoa_no_slash (i : Nat) (hi : 0 < i) : '/' ∉ Itoa i := by
  unfold Itoa
  rw [itoaLoop_digits _ i [] hi (by omega)]
  simp only [List.append_nil, List.mem_map, List.mem_reverse, not_exists, not_and]
  intro d hd
  have : d < 10 := Nat.digits_lt_base (by norm_num) hd
  interval_cases d <;> decide

/-! ### `filepath.Ext` -/

theorem extScan_no_slash (r : Str) : ∀ acc : Str, '/' ∉ acc → '/' ∉ extScan r acc := by
  induction r with
  | nil => intro acc _; simp [extScan]
  | cons c r ih =>
    intro acc hacc
    simp only [extScan]
    split
    · simp
    · rename_i hc
      split
      · simp only [List.mem_cons, not_or]
        exact ⟨by decide, hacc⟩
      · apply ih
        simp only [List.mem_cons, not_or]
        exact ⟨fun e => hc e.symm, hacc⟩

theorem Ext_no_slash (p : Str) : '/' ∉ Ext p := extScan_no_slash _ _ (by simp)

/-! ### The paths `uniquePath` tries -/

theorem splitSlash_append_tail (a : Str) :
    ∃ (init : List Str) (lst : Str), splitSlash a = init ++ [lst] ∧
      ∀ b : Str, '/' ∉ b → splitSlash (a ++ b) = init ++ [lst ++ b] := by
  induction a with
  | nil =>
    refine ⟨[], [], rfl, ?_⟩
    intro b hb
    simpa using splitSlash_of_no_slash b hb
  | cons c cs ih =>
    obtain ⟨init, lst, h1, h2⟩ := ih
    by_cases hc : c = '/'
    · refine ⟨[] :: init, lst, ?_, ?_⟩
      · simp only [splitSlash, hc, if_true, h1]; rfl
      · intro b hb
        show splitSlash (c :: (cs ++ b)) = _
        simp only [splitSlash, hc, if_true, h2 b hb]; rfl
    · cases init with
      | nil =>
        refine ⟨[], c :: lst, ?_, ?_⟩
        · simp only [splitSlash, hc, if_false, h1]; rfl
        · intro b hb
          show splitSlash (c :: (cs ++ b)) = _
          simp only [splitSlash, hc, if_false, h2 b hb]; rfl
      | cons h t =>
        refine ⟨(c :: h) :: t, lst, ?_, ?_⟩
        · simp only [splitSlash, hc, if_false, h1]; rfl
        · intro b hb
          show splitSlash (c :: (cs ++ b)) = _
          simp only [splitSlash, hc, if_false, h2 b hb]; rfl

theorem counter_suffix_no_slash (i : Nat) (hi : 0 < i) (ext : Str) (hext : '/' ∉ ext) :
    '/' ∉ ' ' :: (Itoa i ++ ext) := by
  simp only [List.mem_cons, List.mem_append, not_or]
  exact ⟨by decide, Itoa_no_slash i hi, hext⟩

theorem with_space_kept (lst rest : Str) :
    keptComp (lst ++ ' ' :: rest) ∧ lst ++ ' ' :: rest ≠ ['.', '.'] := by
  have hmem : ' ' ∈ lst ++ ' ' :: rest := by simp
  refine ⟨⟨?_, ?_⟩, ?_⟩
  · intro e; rw [e] at hmem; simp at hmem
  · intro e; rw [e] at hmem; revert hmem; decide
  · intro e; rw [e] at hmem; revert hmem; decide

/-- The paths tried by `uniquePath` name entries of one directory, and the name of the entry
for the counter `i` ends in a space, the decimal digits of `i` and the extension. -/
theorem candidate_loc (fs : FS) (dir name ext : Str) (dl : Loc) (hd : dir ≠ [])
    (hres : resolve fs dir = some dl) (hext : '/' ∉ ext) :
    ∃ (base : Loc) (lst : Str), ∀ i, 0 < i →
      resolve fs (candidate dir name ext i) = some (base ++ [lst ++ ' ' :: (Itoa i ++ ext)]) := by
  obtain ⟨init, lst, -, h2⟩ := splitSlash_append_tail name
  refine ⟨(init.foldl resolveStep dl.reverse).reverse, lst, ?_⟩
  intro i hi
  have he : name ++ " ".toList ++ Itoa i ++ ext = name ++ ' ' :: (Itoa i ++ ext) := by
    simp
  unfold candidate
  rw [he, resolve_Join fs dir _ dl hd hres, h2 _ (counter_suffix_no_slash i hi ext hext),
    List.foldl_append]
  simp only [List.foldl_cons, List.foldl_nil]
  rw [resolveStep_kept _ _ (with_space_kept lst _).1 (with_space_kept lst _).2]
  simp

theorem get_some_mem_keys (fs : FS) (l : Loc) (h : fs.get l ≠ none) :
    l ∈ fs.nodes.map Prod.fst := by
  unfold FS.get at h
  cases hf : fs.nodes.find? (fun e => decide (e.1 = l)) with
  | none => simp [hf] at h
  | some e =>
    have h1 := List.mem_of_find?_eq_some hf
    have h2 := List.find?_some hf
    simp only [decide_eq_true_eq] at h2
    rw [← h2]
    exact List.mem_map_of_mem _ h1

/-- Among more distinct locations than the file system has nodes, one is free. -/
theorem exists_free_loc (fs : FS) (f : Nat → Loc)
    (hinj : ∀ i j, 0 < i → 0 < j → f i = f j → i = j) :
    ∃ k, 0 < k ∧ k ≤ fs.nodes.length + 1 ∧ fs.get (f k) = none := by
  by_contra hcon
  push_neg at hcon
  have hsub : ∀ a ∈ Finset.Icc 1 (fs.nodes.length + 1), f a ∈ (fs.nodes.map Prod.fst).toFinset := by
    intro a ha
    rw [Finset.mem_Icc] at ha
    rw [List.mem_toFinset]
    exact get_some_mem_keys fs (f a) (hcon a (by omega) ha.2)
  have hinj2 : Set.InjOn f (Finset.Icc 1 (fs.nodes.length + 1) : Set Nat) := by
    intro a ha b hb hab
    simp only [Finset.coe_Icc, Set.mem_Icc] at ha hb
    exact hinj a b (by omega) (by omega) hab
  have h1 := Finset.card_le_card_of_injOn f hsub hinj2
  have h2 : (fs.nodes.map Prod.fst).toFinset.card ≤ fs.nodes.length := by
    calc (fs.nodes.map Prod.fst).toFinset.card ≤ (fs.nodes.map Prod.fst).length :=
          List.toFinset_card_le _
      _ = fs.nodes.length := by simp
  simp only [Nat.card_Icc] at h1
  omega

/-! ## Lemmas on the file system -/

theorem find_filter_ne (es : List (Loc × Node)) (l q : Loc) (h : q ≠ l) :
    (es.filter (fun e => decide (e.1 ≠ l))).find? (fun e => decide (e.1 = q)) =
      es.find? (fun e => decide (e.1 = q)) := by
  rw [List.find?_filter]
  congr 1
  funext a
  by_cases ha : a.1 = q
  · have : a.1 ≠ l := by rw [ha]; exact h
    simp [ha, h]
  · simp [ha]

theorem get_insert (fs : FS) (l : Loc) (n : Node) (q : Loc) :
    (fs.insert l n).get q = if q = l then some n else fs.get q := by
  unfold FS.get FS.insert
  by_cases h : q = l
  · subst h; simp
  · have h2 : ¬ l = q := fun e => h e.symm
    simp only [List.find?_cons, h2, decide_False, h, if_false]
    rw [find_filter_ne _ _ _ h]

theorem get_erase (fs : FS) (l q : Loc) :
    (fs.erase l).get q = if q = l then none else fs.get q := by
  unfold FS.get FS.erase
  by_cases h : q = l
  · subst h
    simp only [if_true, Option.map_eq_none']
    rw [List.find?_eq_none]
    intro e he
    simp only [List.mem_filter, decide_eq_true_eq] at he
    simpa using he.2
  · simp only [h, if_false]
    rw [find_filter_ne _ _ _ h]

theorem resolve_cwd (fs1 fs2 : FS) (p : Str) (h : fs1.cwd = fs2.cwd) :
    resolve fs1 p = resolve fs2 p := by
  unfold resolve
  rw [h]

theorem resolve_insert (fs : FS) (l : Loc) (n : Node) (p : Str) :
    resolve (fs.insert l n) p = resolve fs p := rfl

theorem resolve_erase (fs : FS) (l : Loc) (p : Str) :
    resolve (fs.erase l) p = resolve fs p := rfl

/-- A write that reports an error leaves the state as it was. -/
theorem WriteFile_error (fs fs1 : FS) (p data : Str) (perm : Nat) (e : GoError)
    (h : WriteFile fs p data perm = (some e, fs1)) : fs1 = fs := by
  unfold WriteFile at h
  split at h
  · simp only [Prod.mk.injEq] at h; exact h.2.symm
  · split at h
    · simp only [Prod.mk.injEq] at h; exact h.2.symm
    · split at h <;> simp only [Prod.mk.injEq] at h
      · exact absurd h.1 (by simp)
      · exact h.2.symm
    · split at h
      · split at h <;> simp only [Prod.mk.injEq] at h
        · exact absurd h.1 (by simp)
        · exact h.2.symm
      · simp only [Prod.mk.injEq] at h; exact h.2.symm
      · simp only [Prod.mk.injEq] at h; exact h.2.symm

/-- A write that succeeds puts a regular file with the data at the location of the path. -/
theorem WriteFile_ok (fs fs1 : FS) (p data : Str) (perm : Nat)
    (h : WriteFile fs p data perm = (none, fs1)) :
    ∃ l q, resolve fs p = some l ∧ fs1 = fs.insert l (.file q data) ∧
      (fs.get l = none → q = perm % 512 ∧ parentWritable fs l = true) ∧
      (∀ n, fs.get l = some n → n.isDir = false) := by
  unfold WriteFile at h
  split at h
  · simp at h
  · rename_i l hl
    split at h
    · simp at h
    · rename_i fperm d0 hg
      split at h <;> simp only [Prod.mk.injEq] at h
      · refine ⟨l, fperm, hl, h.2.symm, ?_, ?_⟩
        · intro hn; rw [hn] at hg; cases hg
        · intro n hn; rw [hn] at hg; cases hg; rfl
      · exact absurd h.1 (by simp)
    · rename_i hg
      split at h
      · rename_i dperm hp
        split at h <;> simp only [Prod.mk.injEq] at h
        · rename_i hc
          refine ⟨l, perm % 512, hl, h.2.symm, ?_, ?_⟩
          · intro _
            refine ⟨rfl, ?_⟩
            unfold parentWritable
            rw [hp]
            simp [hc.1, hc.2]
          · intro n hn; rw [hn] at hg; cases hg
        · exact absurd h.1 (by simp)
      · simp at h
      · simp at h

/-- A removal that succeeds erases the node at the location of the path, which held one. -/
theorem Remove_ok (fs fs1 : FS) (p : Str) (h : Remove fs p = (none, fs1)) :
    ∃ l n, resolve fs p = some l ∧ fs.get l = some n ∧ fs1 = fs.erase l ∧ l ≠ [] ∧
      parentWritable fs l = true ∧ (n.isDir = true → hasChildren fs l = false) := by
  unfold Remove at h
  split at h
  · simp at h
  · rename_i l hl
    split at h
    · simp at h
    · rename_i n hg
      split at h
      · simp at h
      · rename_i hne
        split at h
        · rename_i dperm hp
          split at h
          · simp at h
          · rename_i hw
            split at h
            · simp at h
            · rename_i hc
              simp only [Prod.mk.injEq, true_and] at h
              refine ⟨l, n, hl, hg, h.symm, hne, ?_, ?_⟩
              · unfold parentWritable
                rw [hp]
                simpa [hne] using hw
              · intro hd
                simpa [hd] using hc
        · simp at h

/-- A removal that reports an error leaves the state as it was. -/
theorem Remove_error (fs fs1 : FS) (p : Str) (e : GoError)
    (h : Remove fs p = (some e, fs1)) : fs1 = fs := by
  unfold Remove at h
  repeat' split at h
  all_goals first
    | (simp only [Prod.mk.injEq] at h; exact h.2.symm)
    | (simp at h)

/-! ### `os.Rename` -/

theorem Rename_ok (fs fs1 : FS) (old new : Str) (h : Rename fs old new = (none, fs1)) :
    ∃ s d n, resolve fs old = some s ∧ resolve fs new = some d ∧ fs.get s = some n ∧
      renameCheck fs (decide (old = new)) s d n = none ∧
      fs1 = (if s = d then fs else { fs with nodes := moveNodes fs.nodes s d }) := by
  unfold Rename at h
  split at h
  · rename_i s d hs hd
    split at h
    · simp at h
    · rename_i n hn
      split at h
      · simp at h
      · rename_i hc
        refine ⟨s, d, n, hs, hd, hn, hc, ?_⟩
        split at h <;> simp only [Prod.mk.injEq, true_and] at h
        · rename_i hsd; rw [if_pos hsd]; exact h.symm
        · rename_i hsd; rw [if_neg hsd]; exact h.symm
  · simp at h

theorem Rename_error (fs fs1 : FS) (old new : Str) (e : GoError)
    (h : Rename fs old new = (some e, fs1)) : fs1 = fs := by
  unfold Rename at h
  repeat' split at h
  all_goals first
    | (simp only [Prod.mk.injEq] at h; exact h.2.symm)
    | (simp at h)

theorem renameCheck_none (fs : FS) (b : Bool) (s d : Loc) (n : Node)
    (h : renameCheck fs b s d n = none) (hsd : s ≠ d) :
    ¬ s <+: d ∧ ¬ d <+: s ∧ parentWritable fs s = true := by
  unfold renameCheck at h
  split at h
  · simp [hsd] at h
  · rw [if_neg hsd] at h
    split at h
    · simp at h
    · split at h
      · simp at h
      · rename_i hp
        split at h
        · simp at h
        · rename_i hw
          simp only [Bool.or_eq_true, Bool.not_eq_true', not_or, Bool.not_eq_false] at hw
          exact ⟨fun e => hp (Or.inl e), fun e => hp (Or.inr e), hw.1⟩
  · split at h
    · simp at h
    · split at h
      · simp at h
      · rename_i hp
        split at h
        · simp at h
        · simp at h
        · split at h
          · simp at h
          · rename_i hw
            simp only [Bool.or_eq_true, Bool.not_eq_true', not_or, Bool.not_eq_false] at hw
            exact ⟨fun e => hp (Or.inl e), fun e => hp (Or.inr e), hw.1⟩

theorem get_moveNodes_src (fs : FS) (s d : Loc) (h1 : ¬ d <+: s) :
    ({ fs with nodes := moveNodes fs.nodes s d } : FS).get s = none := by
  unfold FS.get moveNodes
  simp only [Option.map_eq_none']
  rw [List.find?_eq_none]
  intro e he
  simp only [List.mem_map, List.mem_filter] at he
  obtain ⟨a, -, rfl⟩ := he
  simp only [decide_eq_true_eq]
  split
  · intro e2
    apply h1
    simp only at e2
    rw [← e2]
    exact List.prefix_append _ _
  · rename_i hns
    intro e2
    exact hns (by rw [e2])

theorem get_moveNodes_other (fs : FS) (s d q : Loc) (h1 : ¬ s <+: q) (h2 : ¬ d <+: q) :
    ({ fs with nodes := moveNodes fs.nodes s d } : FS).get q = fs.get q := by
  have hqd : q ≠ d := fun e => h2 (by rw [e])
  unfold FS.get moveNodes
  simp only
  rw [← find_filter_ne fs.nodes d q hqd]
  induction fs.nodes.filter (fun e => decide (e.1 ≠ d)) with
  | nil => rfl
  | cons a as ih =>
    simp only [List.map_cons, List.find?_cons]
    by_cases hsa : s <+: a.1
    · have ha : a.1 ≠ q := fun e => h1 (by rw [← e]; exact hsa)
      have hd : d ++ a.1.drop s.length ≠ q := fun e => h2 (by rw [← e]; exact List.prefix_append _ _)
      simp only [if_pos hsa, hd, decide_False, ha]
      exact ih
    · simp only [if_neg hsa]
      by_cases ha : a.1 = q
      · simp [ha]
      · simp only [ha, decide_False]
        exact ih

theorem get_moveNodes_dst (fs : FS) (s d : Loc) (n : Node) (hs : fs.get s = some n)
    (hsd : s ≠ d) : ({ fs with nodes := moveNodes fs.nodes s d } : FS).get d ≠ none := by
  have hmem : s ∈ fs.nodes.map Prod.fst := get_some_mem_keys fs s (by rw [hs]; simp)
  obtain ⟨a, ha, has⟩ := List.mem_map.1 hmem
  unfold FS.get moveNodes
  simp only [ne_eq, Option.map_eq_none']
  intro hnone
  rw [List.find?_eq_none] at hnone
  have := hnone (if s <+: a.1 then (d ++ a.1.drop s.length, a.2) else a) (by
    apply List.mem_map_of_mem
    simp only [List.mem_filter, decide_eq_true_eq]
    exact ⟨ha, by rw [has]; exact hsd⟩)
  rw [has] at this
  simp at this

/-! ### What the primitives leave alone -/

theorem WriteFile_cwd (fs fs1 : FS) (p data : Str) (perm : Nat) (r : Option GoError)
    (h : WriteFile fs p data perm = (r, fs1)) : fs1.cwd = fs.cwd := by
  cases r with
  | some e => rw [WriteFile_error fs fs1 p data perm e h]
  | none =>
    obtain ⟨l, q, -, hfs, -, -⟩ := WriteFile_ok fs fs1 p data perm h
    rw [hfs]; rfl

theorem Remove_cwd (fs fs1 : FS) (p : Str) (r : Option GoError)
    (h : Remove fs p = (r, fs1)) : fs1.cwd = fs.cwd := by
  cases r with
  | some e => rw [Remove_error fs fs1 p e h]
  | none =>
    obtain ⟨l, n, -, -, hfs, -, -, -⟩ := Remove_ok fs fs1 p h
    rw [hfs]; rfl

theorem Rename_cwd (fs fs1 : FS) (old new : Str) (r : Option GoError)
    (h : Rename fs old new = (r, fs1)) : fs1.cwd = fs.cwd := by
  cases r with
  | some e => rw [Rename_error fs fs1 old new e h]
  | none =>
    obtain ⟨s, d, n, -, -, -, -, hfs⟩ := Rename_ok fs fs1 old new h
    rw [hfs]
    split <;> rfl

/-- What `os.MkdirAll` does to the nodes, whatever its result: the working directory stays,
a node that exists stays as it is, and a node that appears is a directory at or above the
location asked for. -/
theorem mkdirAllFrom_spec (p : Str) (perm : Nat) (rest : List Str) :
    ∀ (fs : FS) (cur : Loc) (r : Option GoError) (fs1 : FS),
      mkdirAllFrom p perm fs cur rest = (r, fs1) →
      fs1.cwd = fs.cwd ∧
      (∀ l n, fs.get l = some n → fs1.get l = some n) ∧
      (∀ l, fs.get l = none → fs1.get l ≠ none →
        l <+: cur ++ rest ∧ fs1.get l = some (.dir (perm % 512))) := by
  induction rest with
  | nil =>
    intro fs cur r fs1 h
    simp only [mkdirAllFrom, Prod.mk.injEq] at h
    rw [← h.2]
    exact ⟨rfl, fun l n hl => hl, fun l h1 h2 => absurd h1 h2⟩
  | cons c rest ih =>
    intro fs cur r fs1 h
    simp only [mkdirAllFrom] at h
    have happ : cur ++ c :: rest = (cur ++ [c]) ++ rest := by simp
    split at h
    · obtain ⟨h1, h2, h3⟩ := ih fs (cur ++ [c]) r fs1 h
      exact ⟨h1, h2, fun l a b => by rw [happ]; exact h3 l a b⟩
    · simp only [Prod.mk.injEq] at h
      rw [← h.2]
      exact ⟨rfl, fun l n hl => hl, fun l h1 h2 => absurd h1 h2⟩
    · rename_i hnone
      split at h
      · split at h
        · obtain ⟨h1, h2, h3⟩ := ih _ (cur ++ [c]) r fs1 h
          refine ⟨h1, ?_, ?_⟩
          · intro l n hl
            apply h2
            rw [get_insert]
            split
            · rename_i e; rw [e, hnone] at hl; cases hl
            · exact hl
          · intro l hl1 hl2
            rw [happ]
            by_cases hl : l = cur ++ [c]
            · subst hl
              refine ⟨List.prefix_append _ _, ?_⟩
              exact h2 _ _ (by rw [get_insert, if_pos rfl])
            · exact h3 l (by rw [get_insert, if_neg hl]; exact hl1) hl2
        · simp only [Prod.mk.injEq] at h
          rw [← h.2]
          exact ⟨rfl, fun l n hl => hl, fun l h1 h2 => absurd h1 h2⟩
      · simp only [Prod.mk.injEq] at h
        rw [← h.2]
        exact ⟨rfl, fun l n hl => hl, fun l h1 h2 => absurd h1 h2⟩
      · simp only [Prod.mk.injEq] at h
        rw [← h.2]
        exact ⟨rfl, fun l n hl => hl, fun l h1 h2 => absurd h1 h2⟩

theorem MkdirAll_spec (fs fs1 : FS) (p : Str) (perm : Nat) (r : Option GoError)
    (h : MkdirAll fs p perm = (r, fs1)) :
    fs1.cwd = fs.cwd ∧
    (∀ l n, fs.get l = some n → fs1.get l = some n) ∧
    (∀ l, fs.get l = none → fs1.get l ≠ none →
      ∃ d, resolve fs p = some d ∧ l <+: d ∧ fs1.get l = some (.dir (perm % 512))) := by
  have same : ∀ e : Option GoError, (e, fs) = (r, fs1) →
      fs1.cwd = fs.cwd ∧ (∀ l n, fs.get l = some n → fs1.get l = some n) ∧
      (∀ l, fs.get l = none → fs1.get l ≠ none →
        ∃ d, resolve fs p = some d ∧ l <+: d ∧ fs1.get l = some (.dir (perm % 512))) := by
    intro e he
    simp only [Prod.mk.injEq] at he
    rw [← he.2]
    exact ⟨rfl, fun l n hl => hl, fun l h1 h2 => absurd h1 h2⟩
  unfold MkdirAll at h
  split at h
  · exact same _ h
  · split at h <;> exact same _ h
  · rename_i c rest hd
    obtain ⟨h1, h2, h3⟩ := mkdirAllFrom_spec p perm (c :: rest) fs [] r fs1 h
    refine ⟨h1, h2, ?_⟩
    intro l a b
    obtain ⟨h4, h5⟩ := h3 l a b
    exact ⟨c :: rest, hd, by simpa using h4, h5⟩

/-! ## The entry point -/

theorem invokeAll_paths (fuel : Nat) (env : Env) (args : List Str) :
    ∀ (fs : FS) (rs : List (Str × Option GoError)) (fs1 : FS),
      invokeAll fuel env fs args = some (rs, fs1) → rs.map Prod.fst = args := by
  induction args with
  | nil => intro fs rs fs1 h; simp [invokeAll] at h; simp [h.1.symm]
  | cons p ps ih =>
    intro fs rs fs1 h
    simp only [invokeAll] at h
    cases hm : moveToTrash fuel env fs p with
    | none => simp [hm] at h
    | some r =>
      obtain ⟨r1, fs2⟩ := r
      simp only [hm] at h
      cases hi : invokeAll fuel env fs2 ps with
      | none => simp [hi] at h
      | some q =>
        obtain ⟨rs2, fs3⟩ := q
        simp only [hi, Option.some.injEq, Prod.mk.injEq] at h
        rw [← h.1]
        simp [ih fs2 rs2 fs3 hi]

theorem mainLoop_eq (fuel : Nat) (env : Env) (args : List Str) :
    ∀ st : LoopState, mainLoop fuel env st args =
      (invokeAll fuel env st.fs args).map (fun r =>
        { fs := r.2, hasErrors := st.hasErrors || r.1.any (fun x => x.2.isSome),
          stdout := st.stdout ++ stdoutOf r.1, stderr := st.stderr ++ stderrOf r.1 }) := by
  induction args with
  | nil => intro st; simp [mainLoop, invokeAll, stdoutOf, stderrOf]
  | cons p ps ih =>
    intro st
    simp only [mainLoop, invokeAll, mainStep]
    cases hm : moveToTrash fuel env st.fs p with
    | none => simp
    | some r =>
      obtain ⟨r1, fs2⟩ := r
      cases r1 with
      | none =>
        simp only [ih]
        cases hi : invokeAll fuel env fs2 ps with
        | none => simp
        | some q => simp [stdoutOf, stderrOf]
      | some e =>
        simp only [ih]
        cases hi : invokeAll fuel env fs2 ps with
        | none => simp
        | some q => simp [stdoutOf, stderrOf]

theorem main_of_not_flag (fuel : Nat) (env : Env) (fs : FS) (a : Str) (rest : List Str)
    (h : isFlag a = false) :
    main fuel env fs (a :: rest) =
      (invokeAll fuel env fs (a :: rest)).map (fun r => outcomeOf r.1 r.2) := by
  simp only [isFlag, Bool.or_eq_false_iff, decide_eq_false_iff_not] at h
  obtain ⟨⟨⟨h1, h2⟩, h3⟩, h4⟩ := h
  simp only [main, h1, h2, h3, h4, or_self, if_false, mainLoop_eq]
  cases invokeAll fuel env fs (a :: rest) with
  | none => rfl
  | some r => simp [outcomeOf]

/-- C2: for a non-empty argument list whose first argument is none of the four flags, `main`
invokes `moveToTrash` on every argument once, in the order given, each on the file system
the invocation before left, whatever the results of the earlier invocations; it ends when
all of them return, with exit status 0 if every result is a success and 1 if some result is
an error. -/
theorem main_processes_every_path (fuel : Nat) (env : Env) (fs : FS) (a : Str)
    (rest : List Str) (h : isFlag a = false) :
    main fuel env fs (a :: rest) =
        (invokeAll fuel env fs (a :: rest)).map (fun r => outcomeOf r.1 r.2) ∧
      ∀ rs fs1, invokeAll fuel env fs (a :: rest) = some (rs, fs1) →
        rs.map Prod.fst = a :: rest ∧
        ((∀ r ∈ rs, r.2 = none) → (outcomeOf rs fs1).status = 0) ∧
        ((∃ r ∈ rs, r.2 ≠ none) → (outcomeOf rs fs1).status = 1) := by
  refine ⟨main_of_not_flag fuel env fs a rest h, ?_⟩
  intro rs fs1 hrs
  refine ⟨invokeAll_paths fuel env (a :: rest) fs rs fs1 hrs, ?_, ?_⟩
  · intro hall
    have : rs.any (fun r => r.2.isSome) = false := by
      rw [List.any_eq_false]
      intro r hr
      simp [hall r hr]
    simp [outcomeOf, this]
  · rintro ⟨r, hr, hne⟩
    have : rs.any (fun r => r.2.isSome) = true := by
      rw [List.any_eq_true]
      refine ⟨r, hr, ?_⟩
      cases h2 : r.2 with
      | none => exact absurd h2 hne
      | some e => rfl
    simp [outcomeOf, this]

/-- C2, at the arguments `a.txt /nx` in `/tmp` of the example: the first path is moved, the
second is reported as an error, and the exit status is 1. -/
theorem main_processes_every_path_witness :
    isFlag "a.txt".toList = false ∧
    (main 10 exampleEnv exampleFS ["a.txt".toList, "/nx".toList]).map
        (fun o => (o.stdout, o.stderr, o.status)) =
      some (["'a.txt' moved to trash\n".toList],
            ["trash: /nx: no such file or directory\n".toList], 1) ∧
    (invokeAll 10 exampleEnv exampleFS ["a.txt".toList, "/nx".toList]).map
        (fun r => r.1.map Prod.fst) = some ["a.txt".toList, "/nx".toList] :=
  ⟨by decide,
   by rw [(main_processes_every_path 10 exampleEnv exampleFS "a.txt".toList ["/nx".toList]
        (by decide)).1]; decide,
   by decide⟩

/-- C10: when the first argument is `--help`, `-h`, `--version` or `-v`, `main` ends with exit
status 0 whatever follows, with the file system untouched and nothing written to standard
error: no argument is given to `moveToTrash`.  Standard output is the usage banner for
`--help` and `-h`, and the line `trash v1.0.0` for `--version` and `-v`; the version is the
non-empty constant `1.0.0`.  When the first argument is not a flag, every argument, a flag
in a later position included, is given to `moveToTrash` as a path. -/
theorem main_flags_short_circuit (fuel : Nat) (env : Env) (fs : FS) (first : Str)
    (rest : List Str) :
    ((first = "--help".toList ∨ first = "-h".toList) →
      main fuel env fs (first :: rest) =
        some { stdout := [printUsage], stderr := [], status := 0, fs := fs }) ∧
    ((first = "--version".toList ∨ first = "-v".toList) →
      main fuel env fs (first :: rest) =
        some { stdout := ["trash v".toList ++ version ++ ['\n']], stderr := [], status := 0,
               fs := fs }) ∧
    "trash v".toList ++ version ++ ['\n'] = "trash v1.0.0\n".toList ∧
    version ≠ [] ∧
    (isFlag first = false → ∀ rs fs1, invokeAll fuel env fs (first :: rest) = some (rs, fs1) →
      main fuel env fs (first :: rest) = some (outcomeOf rs fs1) ∧
      rs.map Prod.fst = first :: rest) := by
  refine ⟨?_, ?_, by decide, by decide, ?_⟩
  · intro h
    simp only [main]
    rw [if_pos h]
  · intro h
    have h1 : ¬ (first = "--help".toList ∨ first = "-h".toList) := by
      rcases h with h | h <;> (subst h; decide)
    simp only [main]
    rw [if_neg h1, if_pos h]
  · intro h rs fs1 hrs
    refine ⟨?_, invokeAll_paths fuel env (first :: rest) fs rs fs1 hrs⟩
    rw [main_of_not_flag fuel env fs first rest h, hrs]
    rfl

/-- C10, at the arguments `--version a.txt` and `a.txt --help` of the example: the first run
prints the version and leaves `/tmp/a.txt` alone, the second gives `--help` to
`moveToTrash`, which reports that no such file exists. -/
theorem main_flags_short_circuit_witness :
    main 10 exampleEnv exampleFS ["--version".toList, "a.txt".toList] =
      some { stdout := ["trash v1.0.0\n".toList], stderr := [], status := 0,
             fs := exampleFS } ∧
    isFlag "a.txt".toList = false ∧
    (main 10 exampleEnv exampleFS ["a.txt".toList, "--help".toList]).map
        (fun o => (o.stderr, o.status)) =
      some (["trash: --help: no such file or directory\n".toList], 1) :=
  ⟨((main_flags_short_circuit 10 exampleEnv exampleFS "--version".toList
      ["a.txt".toList]).2.1 (Or.inl rfl)).trans (by decide),
   by decide, by decide⟩

/-! ## `moveToTrash` on a path that does not exist -/

/-- C4: when the status query on the absolute form of the path reports that nothing exists
there, `moveToTrash` returns the error whose message is exactly `no such file or directory`,
on every operating system identifier and for every environment, and the file system is left
as it was. -/
theorem moveToTrash_not_found (fuel : Nat) (env : Env) (fs : FS) (path absPath : Str)
    (e : GoError) (habs : Abs fs path = .ok absPath) (hst : Lstat fs absPath = .error e)
    (hne : IsNotExist e = true) :
    moveToTrash fuel env fs path = some (some (.text "no such file or directory".toList), fs) ∧
      (GoError.text "no such file or directory".toList).Error =
        "no such file or directory".toList := by
  refine ⟨?_, rfl⟩
  unfold moveToTrash
  rw [habs]
  simp only [hst, hne, if_true]

/-- C4, at the path `/nonexistent/path/file.txt` of the test, on an operating system that is
not supported. -/
theorem moveToTrash_not_found_witness :
    Abs exampleFS "/nonexistent/path/file.txt".toList = .ok "/nonexistent/path/file.txt".toList ∧
    Lstat exampleFS "/nonexistent/path/file.txt".toList =
      .error (.sys "lstat".toList "/nonexistent/path/file.txt".toList .ENOENT) ∧
    moveToTrash 0 { exampleEnv with goos := "windows".toList } exampleFS
        "/nonexistent/path/file.txt".toList =
      some (some (.text "no such file or directory".toList), exampleFS) :=
  ⟨by decide, by decide,
   (moveToTrash_not_found 0 { exampleEnv with goos := "windows".toList } exampleFS
      "/nonexistent/path/file.txt".toList "/nonexistent/path/file.txt".toList
      (.sys "lstat".toList "/nonexistent/path/file.txt".toList .ENOENT)
      (by decide) (by decide) (by decide)).1⟩

/-! ## `copyFileAndDelete` -/

theorem ReadFile_of_file (fs : FS) (p : Str) (l : Loc) (perm : Nat) (c d : Str)
    (hl : resolve fs p = some l) (hg : fs.get l = some (.file perm c))
    (hr : ReadFile fs p = .ok d) : d = c := by
  unfold ReadFile at hr
  simp only [hl, hg] at hr
  split at hr
  · simp only [Except.ok.injEq] at hr; exact hr.symm
  · cases hr

/-- C9: when reading the source fails, `copyFileAndDelete` returns that error and the file
system is as it was (nothing written, nothing removed); when the read succeeds and the write
of the destination fails, it returns that error, the source is not removed and still has its
content.  (A write that fails is modelled as leaving no partial file.) -/
theorem copyFileAndDelete_failure_atomic (fs : FS) (src dst : Str) (info : FileInfo) :
    (∀ e, ReadFile fs src = .error e → copyFileAndDelete fs src dst info = (some e, fs)) ∧
    (∀ c e fs1, ReadFile fs src = .ok c → WriteFile fs dst c info.perm = (some e, fs1) →
      copyFileAndDelete fs src dst info = (some e, fs1) ∧ ReadFile fs1 src = .ok c) := by
  constructor
  · intro e he
    simp [copyFileAndDelete, he]
  · intro c e fs1 hc hw
    have hfs : fs1 = fs := WriteFile_error fs fs1 dst c info.perm e hw
    refine ⟨?_, by rw [hfs]; exact hc⟩
    simp [copyFileAndDelete, hc, hw]

/-- C9, in the example: a source that does not exist (the read fails), and the source
`/tmp/a.txt` with the directory `/tmp/d` as destination (the write fails). -/
theorem copyFileAndDelete_failure_atomic_witness :
    copyFileAndDelete exampleFS "/tmp/nx".toList "/tmp/y".toList ⟨[], false, 420⟩ =
      (some (.sys "open".toList "/tmp/nx".toList .ENOENT), exampleFS) ∧
    (copyFileAndDelete exampleFS "/tmp/a.txt".toList "/tmp/d".toList ⟨[], false, 420⟩ =
      (some (.sys "open".toList "/tmp/d".toList .EISDIR), exampleFS) ∧
     ReadFile exampleFS "/tmp/a.txt".toList = .ok "hello".toList) :=
  ⟨(copyFileAndDelete_failure_atomic exampleFS "/tmp/nx".toList "/tmp/y".toList
      ⟨[], false, 420⟩).1 _ (by decide),
   (copyFileAndDelete_failure_atomic exampleFS "/tmp/a.txt".toList "/tmp/d".toList
      ⟨[], false, 420⟩).2 "hello".toList _ exampleFS (by decide) (by decide)⟩

/-- C5, as amended: for a source that is a regular file with content `c` and a destination
that does not name the location of the source, if `copyFileAndDelete` returns no error then
the destination holds a regular file with exactly the content `c` and nothing exists at the
source. -/
theorem copyFileAndDelete_moves_content (fs fs1 : FS) (src dst : Str) (info : FileInfo)
    (s : Loc) (perm : Nat) (c : Str)
    (hs : resolve fs src = some s) (hf : fs.get s = some (.file perm c))
    (hne : resolve fs dst ≠ some s)
    (h : copyFileAndDelete fs src dst info = (none, fs1)) :
    ∃ d q, resolve fs1 dst = some d ∧ fs1.get d = some (.file q c) ∧
      resolve fs1 src = some s ∧ fs1.get s = none := by
  unfold copyFileAndDelete at h
  cases hr : ReadFile fs src with
  | error e => simp [hr] at h
  | ok data =>
    have hdata : data = c := ReadFile_of_file fs src s perm c data hs hf hr
    subst hdata
    simp only [hr] at h
    cases hw : WriteFile fs dst data info.perm with
    | mk r fs2 =>
      cases r with
      | some e => simp [hw] at h
      | none =>
        simp only [hw] at h
        obtain ⟨d, q, hd, hfs2, -, -⟩ := WriteFile_ok fs fs2 dst data info.perm hw
        obtain ⟨l, n, hl, -, hfs1, -, -, -⟩ := Remove_ok fs2 fs1 src h
        have hls : l = s := by
          rw [hfs2, resolve_insert, hs] at hl
          exact (Option.some.inj hl).symm
        subst hls
        have hdl : d ≠ l := by
          intro hdl
          rw [hd, hdl] at hne
          exact hne rfl
        refine ⟨d, q, ?_, ?_, ?_, ?_⟩
        · rw [hfs1, hfs2]; exact hd
        · rw [hfs1, get_erase, if_neg hdl, hfs2, get_insert, if_pos rfl]
        · rw [hfs1, hfs2]; exact hs
        · rw [hfs1, get_erase, if_pos rfl]

/-- C5, as amended, at the file `/tmp/a.txt` of the example with destination
`/home/u/dest.txt`. -/
theorem copyFileAndDelete_moves_content_witness :
    ∃ fs1, copyFileAndDelete { exampleFS with nodes := exampleNodes.map (fun e =>
          if e.1 = ["home".toList, "u".toList] then (e.1, Node.dir 511) else e) }
        "/tmp/a.txt".toList "/home/u/dest.txt".toList ⟨[], false, 420⟩ = (none, fs1) ∧
      fs1.get ["home".toList, "u".toList, "dest.txt".toList] =
        some (.file 420 "hello".toList) ∧
      fs1.get ["tmp".toList, "a.txt".toList] = none :=
  ⟨_, rfl,
   by
    obtain ⟨d, q, hd, hg, -, hn⟩ := copyFileAndDelete_moves_content
      { exampleFS with nodes := exampleNodes.map (fun e =>
          if e.1 = ["home".toList, "u".toList] then (e.1, Node.dir 511) else e) } _
      "/tmp/a.txt".toList "/home/u/dest.txt".toList ⟨[], false, 420⟩
      ["tmp".toList, "a.txt".toList] 420 "hello".toList (by decide) (by decide) (by decide) rfl
    exact ⟨by decide, hn⟩⟩

/-- C5 fails as stated: `/tmp/./a.txt` is a path different from `/tmp/a.txt` that names the
same file; `copyFileAndDelete` from the one to the other reads the file, writes it onto
itself, removes it and returns no error, and then nothing exists at the destination. -/
theorem copyFileAndDelete_same_file :
    "/tmp/./a.txt".toList ≠ "/tmp/a.txt".toList ∧
    ReadFile exampleFS "/tmp/a.txt".toList = .ok "hello".toList ∧
    (copyFileAndDelete exampleFS "/tmp/a.txt".toList "/tmp/./a.txt".toList
      ⟨"a.txt".toList, false, 420⟩).1 = none ∧
    existsAt (copyFileAndDelete exampleFS "/tmp/a.txt".toList "/tmp/./a.txt".toList
      ⟨"a.txt".toList, false, 420⟩).2 "/tmp/./a.txt".toList = false := by
  decide

/-! ## `uniquePath` -/

theorem statNotExist_of_exists (fs : FS) (p : Str) (h : existsAt fs p = true) :
    statNotExist fs p = false := by
  unfold existsAt at h
  unfold statNotExist Stat statWith
  cases hr : resolve fs p with
  | none => simp [hr] at h
  | some l =>
    simp only [hr] at h ⊢
    cases hg : fs.get l with
    | none => simp [hg] at h
    | some n => rfl

theorem dropWhile_append_slash (A : Str) :
    ∃ S : Str, (A ++ ['/']).dropWhile (fun c => decide (c ≠ '/')) = S ++ ['/'] := by
  induction A with
  | nil => exact ⟨[], by simp [List.dropWhile]⟩
  | cons a A ih =>
    by_cases ha : a = '/'
    · exact ⟨a :: A, by simp [List.dropWhile, ha]⟩
    · obtain ⟨S, hS⟩ := ih
      exact ⟨S, by simp only [List.cons_append, List.dropWhile_cons, ne_eq, ha,
        not_false_eq_true, decide_True, if_true]; simpa using hS⟩

theorem IsAbs_dir_part (p : Str) (h : IsAbs p = true) :
    IsAbs ((p.reverse.dropWhile (fun c => decide (c ≠ '/'))).reverse) = true := by
  cases p with
  | nil => simp [IsAbs] at h
  | cons x xs =>
    rw [IsAbs_cons] at h
    simp only [decide_eq_true_eq] at h
    subst h
    obtain ⟨S, hS⟩ := dropWhile_append_slash xs.reverse
    rw [List.reverse_cons, hS]
    simp [IsAbs_cons]

/-- The directory of a path that names a location names a location. -/
theorem resolve_Dir (fs : FS) (path : Str) (l : Loc) (h : resolve fs path = some l) :
    ∃ dl, resolve fs (Dir path) = some dl := by
  have hp := resolve_ne_nil fs path l h
  unfold resolve at h
  rw [if_neg hp] at h
  unfold Dir resolve
  rw [if_neg (Clean_ne_nil _), IsAbs_Clean]
  cases hab : IsAbs path
  · simp only [hab, Bool.false_eq_true, if_false] at h
    cases hw : fs.cwd with
    | none => simp [hw] at h
    | some w =>
      split
      · exact ⟨_, rfl⟩
      · exact ⟨_, rfl⟩
  · have := IsAbs_dir_part path hab
    simp only [ne_eq, decide_not] at this
    simp only [ne_eq, decide_not, this, if_true]
    exact ⟨_, rfl⟩

theorem uniquePathLoop_found (fs : FS) (dir name ext : Str) (k : Nat)
    (hk : statNotExist fs (candidate dir name ext k) = true) :
    ∀ fuel i, i ≤ k → k < i + fuel →
      (∀ j, i ≤ j → j < k → statNotExist fs (candidate dir name ext j) = false) →
      uniquePathLoop fs dir name ext fuel i = some (candidate dir name ext k) := by
  intro fuel
  induction fuel with
  | zero => intro i h1 h2; omega
  | succ fuel ih =>
    intro i h1 h2 hbelow
    simp only [uniquePathLoop]
    by_cases hik : i = k
    · subst hik; rw [if_pos hk]
    · have hlt : i < k := by omega
      rw [hbelow i (le_refl i) hlt]
      simp only [Bool.false_eq_true, if_false]
      exact ih (i + 1) (by omega) (by omega) (fun j hj1 hj2 => hbelow j (by omega) hj2)

theorem uniquePathLoop_never (fs : FS) (dir name ext : Str) :
    ∀ fuel i, (∀ j, i ≤ j → statNotExist fs (candidate dir name ext j) = false) →
      uniquePathLoop fs dir name ext fuel i = none := by
  intro fuel
  induction fuel with
  | zero => intro i _; rfl
  | succ fuel ih =>
    intro i h
    simp only [uniquePathLoop]
    rw [h i (le_refl i)]
    simp only [Bool.false_eq_true, if_false]
    exact ih (i + 1) (fun j hj => h j (by omega))

theorem extScan_suffix (r : Str) : ∀ acc : Str,
    extScan r acc <:+ (r.takeWhile (fun c => decide (c ≠ '/'))).reverse ++ acc := by
  induction r with
  | nil => intro acc; simp [extScan]
  | cons c r ih =>
    intro acc
    simp only [extScan]
    by_cases hc : c = '/'
    · rw [if_pos hc]; exact List.nil_suffix
    · rw [if_neg hc]
      have htw : (c :: r).takeWhile (fun c => decide (c ≠ '/')) =
          c :: r.takeWhile (fun c => decide (c ≠ '/')) := by
        simp [List.takeWhile, hc]
      rw [htw, List.reverse_cons, List.append_assoc]
      by_cases hd : c = '.'
      · rw [if_pos hd]
        subst hd
        exact List.suffix_append _ _
      · rw [if_neg hd]
        exact ih (c :: acc)

/-- The extension is a suffix of the base name: `base[:len(base)-len(ext)]` is in range and
`name + ext` is the base name. -/
theorem nameOf_append_Ext (path : Str) : nameOf path ++ Ext path = Base path := by
  have hsuf : Ext path <:+ Base path := by
    unfold Ext Base
    by_cases hp : path = []
    · subst hp; simp [extScan]
    · rw [if_neg hp]
      cases hr : path.reverse with
      | nil => simp at hr; exact absurd hr hp
      | cons c r =>
        by_cases hc : c = '/'
        · simp only [extScan, hc, if_true]; exact List.nil_suffix
        · have h1 := extScan_suffix (c :: r) []
          have hst : stripTrailingSlashes path = path := by
            unfold stripTrailingSlashes
            rw [hr]
            simp only [List.dropWhile_cons, hc, decide_False, Bool.false_eq_true, if_false]
            rw [← hr, List.reverse_reverse]
          simp only [hst, lastElement, hr]
          simp only [List.append_nil] at h1
          have hne : ((c :: r).takeWhile (fun c => decide (c ≠ '/'))).reverse ≠ [] := by
            simp [List.takeWhile, hc]
          rw [if_neg hne]
          exact h1
  obtain ⟨t, ht⟩ := hsuf
  unfold nameOf
  rw [← ht]
  simp

theorem missingErr_in_dir (fs : FS) (dl : Loc) (e : Str) (perm : Nat)
    (hd : fs.get dl = some (.dir perm)) : missingErr fs (dl ++ [e]) = .ENOENT := by
  simp only [missingErr, List.reverse_append, List.reverse_cons, List.reverse_nil,
    List.nil_append, List.singleton_append, nearestAbove, List.reverse_reverse, hd]

theorem missingErr_under_file (fs : FS) (dl : Loc) (e : Str) (perm : Nat) (data : Str)
    (hd : fs.get dl = some (.file perm data)) : missingErr fs (dl ++ [e]) = .ENOTDIR := by
  simp only [missingErr, List.reverse_append, List.reverse_cons, List.reverse_nil,
    List.nil_append, List.singleton_append, nearestAbove, List.reverse_reverse, hd]

theorem statNotExist_in_dir (fs : FS) (p : Str) (dl : Loc) (e : Str) (perm : Nat)
    (hr : resolve fs p = some (dl ++ [e])) (hd : fs.get dl = some (.dir perm))
    (hx : existsAt fs p = false) : statNotExist fs p = true := by
  unfold existsAt at hx
  simp only [hr] at hx
  unfold statNotExist Stat statWith
  simp only [hr]
  cases hg : fs.get (dl ++ [e]) with
  | some n => simp [hg] at hx
  | none =>
    simp only [missingErr_in_dir fs dl e perm hd]
    rfl

theorem statNotExist_under_file (fs : FS) (p : Str) (dl : Loc) (e : Str) (perm : Nat)
    (data : Str) (hr : resolve fs p = some (dl ++ [e]))
    (hd : fs.get dl = some (.file perm data)) : statNotExist fs p = false := by
  unfold statNotExist Stat statWith
  simp only [hr]
  cases hg : fs.get (dl ++ [e]) with
  | some n => rfl
  | none =>
    simp only [missingErr_under_file fs dl e perm data hd]
    rfl

/-- The location of a path tried by `uniquePath` when the base name has no separator. -/
theorem candidate_loc_plain (fs : FS) (dir name ext : Str) (dl : Loc) (i : Nat) (hi : 0 < i)
    (hres : resolve fs dir = some dl) (hname : '/' ∉ name) (hext : '/' ∉ ext) :
    resolve fs (candidate dir name ext i) = some (dl ++ [name ++ ' ' :: (Itoa i ++ ext)]) := by
  have he : name ++ " ".toList ++ Itoa i ++ ext = name ++ ' ' :: (Itoa i ++ ext) := by
    simp
  have hns : '/' ∉ name ++ ' ' :: (Itoa i ++ ext) := by
    have := counter_suffix_no_slash i hi ext hext
    simp only [List.mem_append, not_or]
    exact ⟨hname, this⟩
  unfold candidate
  rw [he, resolve_Join fs dir _ dl (resolve_ne_nil fs dir dl hres) hres,
    splitSlash_of_no_slash _ hns]
  simp only [List.foldl_cons, List.foldl_nil]
  rw [resolveStep_kept _ _ (with_space_kept name _).1 (with_space_kept name _).2]
  simp

theorem not_exists_of_get_none (fs : FS) (p : Str) (l : Loc) (hr : resolve fs p = some l)
    (hg : fs.get l = none) : existsAt fs p = false := by
  unfold existsAt
  simp [hr, hg]

/-- What `uniquePath` does where the status query fails only with not-exist: for a clean
path, provided the query reports not-exist for the path and for every constructed path at
which nothing exists (it does when the directory of the path exists), `uniquePath` ends and
returns the path itself when nothing exists at it, and otherwise
`filepath.Join(dir, name + " " + k + ext)` for the least `k >= 1` at which nothing exists,
where `ext` is the extension and `name + ext` the base name; `k` is at most the number of
nodes of the file system plus one, and `k` rounds of the loop are enough. -/
theorem uniquePath_spec (fs : FS) (path : Str) (hclean : Clean path = path)
    (H : ∀ p, (p = path ∨ ∃ i, 0 < i ∧ p = candidate (Dir path) (nameOf path) (Ext path) i) →
      existsAt fs p = false → statNotExist fs p = true) :
    nameOf path ++ Ext path = Base path ∧
    (existsAt fs path = false → ∀ fuel, uniquePath fuel fs path = some path) ∧
    (existsAt fs path = true → ∃ k, 1 ≤ k ∧ k ≤ fs.nodes.length + 1 ∧
      (∀ fuel, k ≤ fuel →
        uniquePath fuel fs path = some (candidate (Dir path) (nameOf path) (Ext path) k)) ∧
      existsAt fs (candidate (Dir path) (nameOf path) (Ext path) k) = false ∧
      ∀ j, 1 ≤ j → j < k →
        existsAt fs (candidate (Dir path) (nameOf path) (Ext path) j) = true) := by
  refine ⟨nameOf_append_Ext path, ?_, ?_⟩
  · intro hx fuel
    unfold uniquePath
    rw [if_pos (H path (Or.inl rfl) hx)]
  · intro hx
    have hst : statNotExist fs path = false := statNotExist_of_exists fs path hx
    obtain ⟨l, hl⟩ : ∃ l, resolve fs path = some l := by
      unfold existsAt at hx
      cases hr : resolve fs path with
      | none => simp [hr] at hx
      | some l => exact ⟨l, rfl⟩
    obtain ⟨dl, hdl⟩ := resolve_Dir fs path l hl
    obtain ⟨base, lst, hloc⟩ := candidate_loc fs (Dir path) (nameOf path) (Ext path) dl
      (Clean_ne_nil _) hdl (Ext_no_slash path)
    have hinj : ∀ i j, 0 < i → 0 < j →
        base ++ [lst ++ ' ' :: (Itoa i ++ Ext path)] = base ++ [lst ++ ' ' :: (Itoa j ++ Ext path)] →
        i = j := by
      intro i j hi hj h
      have h1 := List.append_cancel_left h
      simp only [List.cons.injEq, and_true] at h1
      have h2 := List.append_cancel_left h1
      simp only [List.cons.injEq, true_and] at h2
      exact Itoa_injective i j hi hj (List.append_cancel_right h2)
    obtain ⟨k0, hk0, hk0le, hk0free⟩ := exists_free_loc fs _ hinj
    have hex : ∃ k, 0 < k ∧ existsAt fs (candidate (Dir path) (nameOf path) (Ext path) k) = false :=
      ⟨k0, hk0, not_exists_of_get_none fs _ _ (hloc k0 hk0) hk0free⟩
    refine ⟨Nat.find hex, (Nat.find_spec hex).1, ?_, ?_, (Nat.find_spec hex).2, ?_⟩
    · exact le_trans (Nat.find_min' hex ⟨hk0, not_exists_of_get_none fs _ _ (hloc k0 hk0) hk0free⟩)
        hk0le
    · intro fuel hfuel
      unfold uniquePath
      rw [hst]
      simp only [Bool.false_eq_true, if_false]
      apply uniquePathLoop_found fs (Dir path) _ (Ext path) (Nat.find hex)
      · exact H _ (Or.inr ⟨_, (Nat.find_spec hex).1, rfl⟩) (Nat.find_spec hex).2
      · exact (Nat.find_spec hex).1
      · omega
      · intro j hj1 hj2
        apply statNotExist_of_exists
        have := Nat.find_min hex hj2
        simp only [not_and, Bool.not_eq_false] at this
        exact this (by omega)
    · intro j hj1 hj2
      have := Nat.find_min hex hj2
      simp only [not_and, Bool.not_eq_false] at this
      exact this (by omega)

/-- The directory of the test of `uniquePath`: with `multi.txt`, `multi 1.txt` and
`multi 2.txt` present the result for `/t/multi.txt` is `/t/multi 3.txt`, the result for the
existing `noextension` is `noextension 1`, and a path at which nothing exists is returned
as it is. -/
theorem uniquePath_spec_witness :
    uniquePath 3 multiFS "/t/multi.txt".toList = some "/t/multi 3.txt".toList ∧
    uniquePath 1 multiFS "/t/noextension".toList = some "/t/noextension 1".toList ∧
    uniquePath 0 multiFS "/t/newfile.txt".toList = some "/t/newfile.txt".toList ∧
    ∃ k, 1 ≤ k ∧ k ≤ multiFS.nodes.length + 1 ∧
      (∀ fuel, k ≤ fuel → uniquePath fuel multiFS "/t/multi.txt".toList =
        some (candidate (Dir "/t/multi.txt".toList) (nameOf "/t/multi.txt".toList)
          (Ext "/t/multi.txt".toList) k)) ∧
      existsAt multiFS (candidate (Dir "/t/multi.txt".toList) (nameOf "/t/multi.txt".toList)
          (Ext "/t/multi.txt".toList) k) = false ∧
      ∀ j, 1 ≤ j → j < k →
        existsAt multiFS (candidate (Dir "/t/multi.txt".toList) (nameOf "/t/multi.txt".toList)
          (Ext "/t/multi.txt".toList) j) = true :=
  ⟨by decide, by decide, by decide,
   (uniquePath_spec multiFS "/t/multi.txt".toList (by decide) (by
      intro p hp hx
      rcases hp with rfl | ⟨i, hi, rfl⟩
      · exact absurd hx (by decide)
      · exact statNotExist_in_dir multiFS _ ["t".toList] _ 493
          (candidate_loc_plain multiFS _ _ _ ["t".toList] i hi (by decide) (by decide)
            (by decide)) (by decide) hx)).2.2 (by decide)⟩

/-- C3 is not met by the code at `/tmp/a.txt/x` in the example file system, which has
finitely many nodes: nothing exists at the path, because the regular file `/tmp/a.txt` is
on the way, so that `uniquePath` is to return it unchanged; but the status query fails with
`ENOTDIR`, which `os.IsNotExist` does not take for not-exist, at the path and at every
constructed path, and the loop `for i := 1; ; i++` does not end: whatever the number of
rounds, `uniquePath` has not returned. -/
theorem uniquePath_not_terminating :
    existsAt exampleFS "/tmp/a.txt/x".toList = false ∧
    Stat exampleFS "/tmp/a.txt/x".toList =
      .error (.sys "stat".toList "/tmp/a.txt/x".toList .ENOTDIR) ∧
    ∀ fuel, uniquePath fuel exampleFS "/tmp/a.txt/x".toList = none := by
  refine ⟨by decide, by decide, ?_⟩
  intro fuel
  unfold uniquePath
  have h0 : statNotExist exampleFS "/tmp/a.txt/x".toList = false := by decide
  rw [h0]
  simp only [Bool.false_eq_true, if_false]
  apply uniquePathLoop_never
  intro j hj
  exact statNotExist_under_file exampleFS _ ["tmp".toList, "a.txt".toList] _ 420 "hello".toList
    (candidate_loc_plain exampleFS _ _ _ ["tmp".toList, "a.txt".toList] j (by omega)
      (by decide) (by decide) (by decide)) (by decide)

/-! ## `moveToTrash` removes the source -/

theorem parentWritable_dir (fs : FS) (l : Loc) (h : parentWritable fs l = true) :
    l ≠ [] ∧ ∃ perm, fs.get l.dropLast = some (.dir perm) ∧ canWrite perm = true := by
  unfold parentWritable at h
  split at h
  · rename_i dperm hp
    simp only [Bool.and_eq_true, decide_eq_true_eq] at h
    exact ⟨h.1, dperm, hp, h.2⟩
  · cases h

theorem statNotExist_of_parent (fs : FS) (p : Str) (l : Loc) (perm : Nat)
    (hr : resolve fs p = some l) (hl : l ≠ []) (hg : fs.get l = none)
    (hd : fs.get l.dropLast = some (.dir perm)) : statNotExist fs p = true := by
  have hsplit : l = l.dropLast ++ [l.getLast hl] := (List.dropLast_append_getLast hl).symm
  apply statNotExist_in_dir fs p l.dropLast (l.getLast hl) perm (by rw [← hsplit]; exact hr) hd
  exact not_exists_of_get_none fs p l hr hg

/-- After a removal that succeeds the status query on the path reports not-exist. -/
theorem Remove_ok_stat (fs fs1 : FS) (p : Str) (h : Remove fs p = (none, fs1)) :
    statNotExist fs1 p = true ∧ existsAt fs1 p = false := by
  obtain ⟨l, n, hl, -, hfs, hne, hpw, -⟩ := Remove_ok fs fs1 p h
  obtain ⟨-, perm, hd, -⟩ := parentWritable_dir fs l hpw
  have hr : resolve fs1 p = some l := by rw [hfs]; exact hl
  have hg : fs1.get l = none := by rw [hfs, get_erase, if_pos rfl]
  have hdl : l.dropLast ≠ l := by
    intro e
    have := congrArg List.length e
    rw [List.length_dropLast] at this
    have : 0 < l.length := List.length_pos.2 hne
    omega
  refine ⟨statNotExist_of_parent fs1 p l perm hr hne hg ?_, not_exists_of_get_none fs1 p l hr hg⟩
  rw [hfs, get_erase, if_neg hdl]
  exact hd

/-- After a rename that succeeds, to a path that names another location, the status query on
the old path reports not-exist, and a node exists at the new path. -/
theorem Rename_ok_stat (fs fs1 : FS) (old new : Str) (h : Rename fs old new = (none, fs1))
    (hne : resolve fs old ≠ resolve fs new) :
    statNotExist fs1 old = true ∧ existsAt fs1 old = false ∧ existsAt fs1 new = true := by
  obtain ⟨s, d, n, hs, hd, hn, hc, hfs⟩ := Rename_ok fs fs1 old new h
  have hsd : s ≠ d := by
    intro e; apply hne; rw [hs, hd, e]
  rw [if_neg hsd] at hfs
  obtain ⟨h1, h2, hpw⟩ := renameCheck_none fs _ s d n hc hsd
  obtain ⟨hsn, perm, hdir, -⟩ := parentWritable_dir fs s hpw
  have hr : resolve fs1 old = some s := by rw [hfs]; exact hs
  have hr2 : resolve fs1 new = some d := by rw [hfs]; exact hd
  have hg : fs1.get s = none := by rw [hfs]; exact get_moveNodes_src fs s d h2
  have hlen : s.dropLast.length < s.length := by
    rw [List.length_dropLast]
    have : 0 < s.length := List.length_pos.2 hsn
    omega
  have hp1 : ¬ s <+: s.dropLast := fun e => by
    have := e.length_le; omega
  have hp2 : ¬ d <+: s.dropLast := fun e => h2 (e.trans (List.dropLast_prefix s))
  refine ⟨statNotExist_of_parent fs1 old s perm hr hsn hg ?_,
    not_exists_of_get_none fs1 old s hr hg, ?_⟩
  · rw [hfs, get_moveNodes_other fs s d _ hp1 hp2]
    exact hdir
  · unfold existsAt
    rw [hr2]
    have := get_moveNodes_dst fs s d n hn hsd
    rw [← hfs] at this
    cases hgd : fs1.get d with
    | none => exact absurd hgd this
    | some m => simp [hgd]

theorem uniquePathLoop_result (fs : FS) (dir name ext : Str) :
    ∀ fuel i q, uniquePathLoop fs dir name ext fuel i = some q → statNotExist fs q = true := by
  intro fuel
  induction fuel with
  | zero => intro i q h; simp [uniquePathLoop] at h
  | succ fuel ih =>
    intro i q h
    simp only [uniquePathLoop] at h
    split at h
    · rename_i hc
      simp only [Option.some.injEq] at h
      rw [← h]; exact hc
    · exact ih (i + 1) q h

/-- The path `uniquePath` returns is one for which the status query reports not-exist. -/
theorem uniquePath_result (fuel : Nat) (fs : FS) (path q : Str)
    (h : uniquePath fuel fs path = some q) : statNotExist fs q = true := by
  unfold uniquePath at h
  split at h
  · rename_i hc
    simp only [Option.some.injEq] at h
    rw [← h]; exact hc
  · exact uniquePathLoop_result fs _ _ _ fuel 1 q h

theorem not_exists_of_statNotExist (fs : FS) (p : Str) (h : statNotExist fs p = true) :
    existsAt fs p = false := by
  cases hx : existsAt fs p with
  | false => rfl
  | true => rw [statNotExist_of_exists fs p hx] at h; cases h

theorem exists_of_Lstat (fs : FS) (p : Str) (info : FileInfo) (h : Lstat fs p = .ok info) :
    existsAt fs p = true := by
  unfold Lstat statWith at h
  unfold existsAt
  split at h
  · cases h
  · rename_i l hl
    rw [hl]
    split at h
    · rename_i n hn; simp [hn]
    · cases h

theorem exists_preserved (fs fs1 : FS) (p : Str) (hcwd : fs1.cwd = fs.cwd)
    (hkeep : ∀ l n, fs.get l = some n → fs1.get l = some n) (h : existsAt fs p = true) :
    existsAt fs1 p = true := by
  unfold existsAt at h ⊢
  rw [resolve_cwd fs1 fs p hcwd]
  cases hr : resolve fs p with
  | none => simp [hr] at h
  | some l =>
    simp only [hr] at h ⊢
    cases hg : fs.get l with
    | none => simp [hg] at h
    | some n => simp [hkeep l n hg]

theorem resolve_ne_of_exists (fs : FS) (p q : Str) (hp : existsAt fs p = true)
    (hq : existsAt fs q = false) : resolve fs p ≠ resolve fs q := by
  intro e
  unfold existsAt at hp hq
  rw [e] at hp
  rw [hp] at hq
  cases hq

theorem copyDirAndDelete_ok_last (fuel : Nat) (fs fs1 : FS) (src dst : Str)
    (h : copyDirAndDelete fuel fs src dst = some (none, fs1)) :
    ∃ fs2, Remove fs2 src = (none, fs1) := by
  cases fuel with
  | zero => simp [copyDirAndDelete] at h
  | succ fuel =>
    simp only [copyDirAndDelete] at h
    split at h
    · simp at h
    · split at h
      · simp at h
      · split at h
        · simp at h
        · split at h
          · simp at h
          · simp at h
          · rename_i fs2 _
            simp only [Option.some.injEq] at h
            exact ⟨fs2, h⟩

theorem copyAndDelete_ok_last (fuel : Nat) (fs fs1 : FS) (src dst : Str) (info : FileInfo)
    (h : copyAndDelete fuel fs src dst info = some (none, fs1)) :
    ∃ fs2, Remove fs2 src = (none, fs1) := by
  unfold copyAndDelete at h
  split at h
  · exact copyDirAndDelete_ok_last fuel fs fs1 src dst h
  · simp only [Option.some.injEq] at h
    unfold copyFileAndDelete at h
    split at h
    · simp at h
    · split at h
      · simp at h
      · rename_i fs2 _
        exact ⟨fs2, h⟩

/-- The end of both trash strategies: after the rename or, when it fails, the copy and
delete, a result without error means that the source is gone. -/
theorem move_ok_stat (fuel : Nat) (fs fs1 : FS) (absPath destPath : Str) (info : FileInfo)
    (onError : GoError → FS → Option GoError × FS)
    (hne : resolve fs absPath ≠ resolve fs destPath)
    (herr : ∀ e st, (onError e st).1 ≠ none)
    (h : (match Rename fs absPath destPath with
          | (none, fs2) => some (none, fs2)
          | (some _, fs2) =>
            match copyAndDelete fuel fs2 absPath destPath info with
            | none => none
            | some (none, fs3) => some (none, fs3)
            | some (some e, fs3) => some (onError e fs3)) = some (none, fs1)) :
    statNotExist fs1 absPath = true ∧ existsAt fs1 absPath = false := by
  split at h
  · rename_i fs2 hren
    simp only [Option.some.injEq, Prod.mk.injEq, true_and] at h
    subst h
    have := Rename_ok_stat fs fs2 absPath destPath hren hne
    exact ⟨this.1, this.2.1⟩
  · rename_i e0 fs2 hren
    split at h
    · cases h
    · rename_i fs3 hcp
      simp only [Option.some.injEq, Prod.mk.injEq, true_and] at h
      subst h
      obtain ⟨fs4, hrm⟩ := copyAndDelete_ok_last fuel fs2 fs3 absPath destPath info hcp
      exact Remove_ok_stat fs4 fs3 absPath hrm
    · rename_i e fs3 hcp
      simp only [Option.some.injEq] at h
      exact absurd (congrArg Prod.fst h) (herr e fs3)

/-- C1: on `darwin` and on `linux`, for a path at which a regular file or a directory exists,
if `moveToTrash` returns no error then nothing exists at the absolute path any more and the
status query on it reports not-exist, whether the move was done by the rename or by the copy
and delete. -/
theorem moveToTrash_removes_source (fuel : Nat) (env : Env) (fs fs1 : FS)
    (path absPath : Str) (info : FileInfo)
    (hos : env.goos = "darwin".toList ∨ env.goos = "linux".toList)
    (habs : Abs fs path = .ok absPath) (hst : Lstat fs absPath = .ok info)
    (h : moveToTrash fuel env fs path = some (none, fs1)) :
    statNotExist fs1 absPath = true ∧ existsAt fs1 absPath = false := by
  have hex : existsAt fs absPath = true := exists_of_Lstat fs absPath info hst
  unfold moveToTrash at h
  rw [habs] at h
  simp only [hst] at h
  by_cases hd : env.goos = "darwin".toList
  · rw [if_pos hd] at h
    unfold trashMacOS at h
    split at h
    · simp at h
    · rename_i homeDir _
      simp only at h
      split at h
      · simp at h
      · rename_i fs2 hmk
        obtain ⟨hcwd, hkeep, -⟩ := MkdirAll_spec fs fs2 _ _ _ hmk
        split at h
        · cases h
        · rename_i destPath hu
          have hne : resolve fs2 absPath ≠ resolve fs2 destPath :=
            resolve_ne_of_exists fs2 _ _ (exists_preserved fs fs2 absPath hcwd hkeep hex)
              (not_exists_of_statNotExist fs2 _ (uniquePath_result _ _ _ _ hu))
          exact move_ok_stat fuel fs2 fs1 absPath destPath info
            (fun e st => (some (.wrap "cannot move to trash".toList e), st)) hne
            (fun e st => by simp) h
  · have hl : env.goos = "linux".toList := hos.resolve_left hd
    rw [if_neg hd, if_pos hl] at h
    unfold trashLinux at h
    split at h
    · simp at h
    · rename_i homeDir _
      split at h
      · cases h
      · simp at h
      · rename_i fs2 destPath hprep
        unfold trashLinuxPrepare at hprep
        split at hprep
        · simp at hprep
        · rename_i fsa hmk1
          split at hprep
          · simp at hprep
          · rename_i fsb hmk2
            split at hprep
            · cases hprep
            · rename_i dp hu
              simp only [Option.some.injEq, Prod.mk.injEq, Except.ok.injEq] at hprep
              obtain ⟨hfs2, hdp⟩ := hprep
              subst hfs2
              subst hdp
              obtain ⟨hcwd1, hkeep1, -⟩ := MkdirAll_spec fs fsa _ _ _ hmk1
              obtain ⟨hcwd2, hkeep2, -⟩ := MkdirAll_spec fsa fsb _ _ _ hmk2
              have hex2 : existsAt fsb absPath = true :=
                exists_preserved fsa fsb absPath hcwd2 hkeep2
                  (exists_preserved fs fsa absPath hcwd1 hkeep1 hex)
              have hne : resolve fsb absPath ≠ resolve fsb dp :=
                resolve_ne_of_exists fsb _ _ hex2
                  (not_exists_of_statNotExist fsb _ (uniquePath_result _ _ _ _ hu))
              unfold trashLinuxMove at h
              simp only at h
              split at h
              · simp at h
              · rename_i fsc hw
                have hcwd3 := WriteFile_cwd fsb fsc _ _ _ _ hw
                have hne2 : resolve fsc absPath ≠ resolve fsc dp := by
                  rw [resolve_cwd fsc fsb _ hcwd3, resolve_cwd fsc fsb _ hcwd3]
                  exact hne
                exact move_ok_stat fuel fsc fs1 absPath dp info
                  (fun e st => (some (.wrap "cannot move to trash".toList e),
                    (Remove st (trashInfoPathOf env homeDir dp)).2)) hne2
                  (fun e st => by simp) h

/-- C1, in the example with `/tmp` on a device of its own, so that the rename fails and the
directory `/tmp/d` is moved by copy and delete; on a single device the file `a.txt` is
moved by the rename. -/
theorem moveToTrash_removes_source_witness :
    (Rename (MkdirAll (MkdirAll exampleFS "/home/u/.local/share/Trash/files".toList 448).2
        "/home/u/.local/share/Trash/info".toList 448).2 "/tmp/a.txt".toList
      "/home/u/.local/share/Trash/files/a.txt".toList).1 = none ∧
    resultError (moveToTrash 10 exampleEnv exampleFS "a.txt".toList) = none ∧
    statNotExist (resultFS (moveToTrash 10 exampleEnv exampleFS "a.txt".toList) exampleFS)
      "/tmp/a.txt".toList = true ∧
    moveToTrash 10 exampleEnv exampleFSMounted "/tmp/d".toList =
      some (none, resultFS (moveToTrash 10 exampleEnv exampleFSMounted "/tmp/d".toList)
        exampleFS) ∧
    (Rename exampleFSMounted "/tmp/d".toList
      "/home/u/.local/share/Trash/files/d".toList).1 ≠ none ∧
    statNotExist (resultFS (moveToTrash 10 exampleEnv exampleFSMounted "/tmp/d".toList)
      exampleFS) "/tmp/d".toList = true ∧
    existsAt (resultFS (moveToTrash 10 exampleEnv exampleFSMounted "/tmp/d".toList)
      exampleFS) "/tmp/d".toList = false :=
  ⟨by decide, by decide, by decide, by decide, by decide,
   moveToTrash_removes_source 10 exampleEnv exampleFSMounted _ "/tmp/d".toList
     "/tmp/d".toList ⟨"d".toList, true, 493⟩ (Or.inr rfl) (by decide) (by decide) (by decide)⟩

/-! ## The footprint of copy and delete -/

theorem WriteFile_frame (fs fs1 : FS) (p data : Str) (perm : Nat) (r : Option GoError)
    (h : WriteFile fs p data perm = (r, fs1)) (l : Loc) (hl : resolve fs p ≠ some l) :
    fs1.get l = fs.get l := by
  cases r with
  | some e => rw [WriteFile_error fs fs1 p data perm e h]
  | none =>
    obtain ⟨d, q, hd, hfs, -, -⟩ := WriteFile_ok fs fs1 p data perm h
    have : l ≠ d := fun e => hl (by rw [hd, e])
    rw [hfs, get_insert, if_neg this]

theorem Remove_frame (fs fs1 : FS) (p : Str) (r : Option GoError)
    (h : Remove fs p = (r, fs1)) (l : Loc) (hl : resolve fs p ≠ some l) :
    fs1.get l = fs.get l := by
  cases r with
  | some e => rw [Remove_error fs fs1 p e h]
  | none =>
    obtain ⟨d, n, hd, -, hfs, -, -, -⟩ := Remove_ok fs fs1 p h
    have : l ≠ d := fun e => hl (by rw [hd, e])
    rw [hfs, get_erase, if_neg this]

/-- `copyFileAndDelete` keeps the working directory and touches at most the locations of the
source and of the destination. -/
theorem copyFileAndDelete_frame (fs fs1 : FS) (src dst : Str) (info : FileInfo)
    (r : Option GoError) (h : copyFileAndDelete fs src dst info = (r, fs1)) :
    fs1.cwd = fs.cwd ∧
    ∀ l, resolve fs src ≠ some l → resolve fs dst ≠ some l → fs1.get l = fs.get l := by
  unfold copyFileAndDelete at h
  split at h
  · simp only [Prod.mk.injEq] at h
    rw [← h.2]
    exact ⟨rfl, fun _ _ _ => rfl⟩
  · split at h
    · rename_i e fs2 hw
      simp only [Prod.mk.injEq] at h
      rw [← h.2]
      exact ⟨WriteFile_cwd _ _ _ _ _ _ hw, fun l _ hd => WriteFile_frame _ _ _ _ _ _ hw l hd⟩
    · rename_i fs2 hw
      have hc := WriteFile_cwd _ _ _ _ _ _ hw
      refine ⟨(Remove_cwd _ _ _ _ h).trans hc, ?_⟩
      intro l hs hd
      rw [Remove_frame _ _ _ _ h l (by rw [resolve_cwd fs2 fs src hc]; exact hs)]
      exact WriteFile_frame _ _ _ _ _ _ hw l hd

theorem hasChildren_false (fs : FS) (l q : Loc) (h : hasChildren fs l = false)
    (hq : l <+: q) (hne : q ≠ l) : fs.get q = none := by
  by_contra hcon
  have hmem := get_some_mem_keys fs q hcon
  obtain ⟨a, ha, haq⟩ := List.mem_map.1 hmem
  unfold hasChildren at h
  rw [List.any_eq_false] at h
  have := h a ha
  rw [haq] at this
  simp [hq, hne] at this

theorem ReadDir_ok (fs : FS) (p : Str) (entries : List FileInfo)
    (h : ReadDir fs p = .ok entries) :
    ∃ l perm, resolve fs p = some l ∧ fs.get l = some (.dir perm) ∧
      entries = (childNames fs l).filterMap (fun n => (fs.get (l ++ [n])).map (Node.info n)) := by
  unfold ReadDir at h
  split at h
  · cases h
  · rename_i l hl
    split at h
    · cases h
    · cases h
    · rename_i perm hg
      simp only [Except.ok.injEq] at h
      exact ⟨l, perm, hl, hg, h.symm⟩

theorem Node_info_name (n : Str) (x : Node) : (x.info n).name = n := by
  cases x <;> rfl

theorem entries_names (fs : FS) (l : Loc) :
    ((childNames fs l).filterMap (fun n => (fs.get (l ++ [n])).map (Node.info n))).map
      (fun e => e.name) =
    (childNames fs l).filter (fun n => (fs.get (l ++ [n])).isSome) := by
  induction childNames fs l with
  | nil => rfl
  | cons n ns ih =>
    cases hg : fs.get (l ++ [n]) with
    | none => simp [List.filterMap_cons, List.filter_cons, hg, ih]
    | some x => simp [List.filterMap_cons, List.filter_cons, hg, ih, Node_info_name]

theorem childNames_nodup (fs : FS) (l : Loc) : (childNames fs l).Nodup :=
  (List.perm_insertionSort _ _).nodup_iff.2 (List.nodup_dedup _)

theorem childNames_valid (fs : FS) (l : Loc) (n : Str) (h : n ∈ childNames fs l) :
    validName n = true := by
  unfold childNames at h
  rw [(List.perm_insertionSort _ _).mem_iff, List.mem_dedup, List.mem_filter] at h
  exact h.2

theorem mem_childNames (fs : FS) (l : Loc) (n : Str) (hv : validName n = true)
    (hg : fs.get (l ++ [n]) ≠ none) : n ∈ childNames fs l := by
  have hmem := get_some_mem_keys fs (l ++ [n]) hg
  obtain ⟨a, ha, han⟩ := List.mem_map.1 hmem
  unfold childNames
  rw [(List.perm_insertionSort _ _).mem_iff, List.mem_dedup, List.mem_filter]
  refine ⟨?_, hv⟩
  rw [List.mem_filterMap]
  refine ⟨a, ha, ?_⟩
  rw [han]
  simp

/-- What a directory listing holds: one entry for each valid name that exists in the
directory, each once. -/
theorem ReadDir_entries (fs : FS) (p : Str) (entries : List FileInfo)
    (h : ReadDir fs p = .ok entries) :
    ∃ l perm, resolve fs p = some l ∧ fs.get l = some (.dir perm) ∧
      (entries.map (fun e => e.name)).Nodup ∧
      (∀ e ∈ entries, validName e.name = true) ∧
      (∀ n, validName n = true → fs.get (l ++ [n]) ≠ none → ∃ e ∈ entries, e.name = n) := by
  obtain ⟨l, perm, hl, hg, he⟩ := ReadDir_ok fs p entries h
  refine ⟨l, perm, hl, hg, ?_, ?_, ?_⟩
  · rw [he, entries_names]
    exact (childNames_nodup fs l).filter _
  · intro e hmem
    have : e.name ∈ entries.map (fun e => e.name) := List.mem_map_of_mem _ hmem
    rw [he, entries_names, List.mem_filter] at this
    exact childNames_valid fs l _ this.1
  · intro n hv hgn
    have h1 := mem_childNames fs l n hv hgn
    have : n ∈ entries.map (fun e => e.name) := by
      rw [he, entries_names, List.mem_filter]
      refine ⟨h1, ?_⟩
      cases hx : fs.get (l ++ [n]) with
      | none => exact absurd hx hgn
      | some x => rfl
    obtain ⟨e, he1, he2⟩ := List.mem_map.1 this
    exact ⟨e, he1, he2⟩

theorem forEntries_frame (body : FS → FileInfo → Option (Option GoError × FS))
    (c0 : Option Loc) (Out : FileInfo → Loc → Prop) (entries : List FileInfo)
    (hbody : ∀ st e r st1, e ∈ entries → st.cwd = c0 → body st e = some (r, st1) →
      st1.cwd = c0 ∧ ∀ l, Out e l → ∀ n, st.get l = some n → st1.get l = some n) :
    ∀ st r st2, st.cwd = c0 → forEntries body st entries = some (r, st2) →
      st2.cwd = c0 ∧
      ∀ l, (∀ e ∈ entries, Out e l) → ∀ n, st.get l = some n → st2.get l = some n := by
  induction entries with
  | nil =>
    intro st r st2 hc h
    simp only [forEntries, Option.some.injEq, Prod.mk.injEq] at h
    rw [← h.2]
    exact ⟨hc, fun l _ n hn => hn⟩
  | cons e es ih =>
    intro st r st2 hc h
    simp only [forEntries] at h
    split at h
    · cases h
    · rename_i err st1 hb
      simp only [Option.some.injEq, Prod.mk.injEq] at h
      rw [← h.2]
      obtain ⟨h1, h2⟩ := hbody st e _ st1 (by simp) hc hb
      exact ⟨h1, fun l hl n hn => h2 l (hl e (by simp)) n hn⟩
    · rename_i st1 hb
      obtain ⟨h1, h2⟩ := hbody st e _ st1 (by simp) hc hb
      obtain ⟨h3, h4⟩ := ih (fun st e r st1 he => hbody st e r st1 (by simp [he])) st1 r st2 h1 h
      exact ⟨h3, fun l hl n hn =>
        h4 l (fun e he => hl e (by simp [he])) n (h2 l (hl e (by simp)) n hn)⟩

theorem snoc_prefix_below (s l : Loc) (x : Str) (h : (s ++ [x]) <+: l) : s <+: l :=
  (List.prefix_append s [x]).trans h

/-- The footprint of `copyDirAndDelete`, whatever its result: the working directory stays,
and every node outside the source tree and outside the destination tree stays as it is. -/
theorem copyDirAndDelete_frame (fuel : Nat) :
    ∀ (fs : FS) (src dst : Str) (r : Option GoError) (fs1 : FS) (s d : Loc),
      resolve fs src = some s → resolve fs dst = some d →
      copyDirAndDelete fuel fs src dst = some (r, fs1) →
      fs1.cwd = fs.cwd ∧
      ∀ l, ¬ s <+: l → ¬ d <+: l → ∀ n, fs.get l = some n → fs1.get l = some n := by
  induction fuel with
  | zero => intro fs src dst r fs1 s d _ _ h; simp [copyDirAndDelete] at h
  | succ fuel ih =>
    intro fs src dst r fs1 s d hs hd h
    simp only [copyDirAndDelete] at h
    split at h
    · simp only [Option.some.injEq, Prod.mk.injEq] at h
      rw [← h.2]
      exact ⟨rfl, fun l _ _ n hn => hn⟩
    · split at h
      · rename_i e fsa hmk
        simp only [Option.some.injEq, Prod.mk.injEq] at h
        rw [← h.2]
        obtain ⟨h1, h2, -⟩ := MkdirAll_spec _ _ _ _ _ hmk
        exact ⟨h1, fun l _ _ n hn => h2 l n hn⟩
      · rename_i fsa hmk
        obtain ⟨hca, hka, -⟩ := MkdirAll_spec _ _ _ _ _ hmk
        split at h
        · simp only [Option.some.injEq, Prod.mk.injEq] at h
          rw [← h.2]
          exact ⟨hca, fun l _ _ n hn => hka l n hn⟩
        · rename_i entries hrd
          obtain ⟨l0, perm, -, -, -, hvalid, -⟩ := ReadDir_entries _ _ _ hrd
          have hloop := forEntries_frame (copyEntry (copyDirAndDelete fuel) src dst) fs.cwd
            (fun e l => ¬ (s ++ [e.name]) <+: l ∧ ¬ (d ++ [e.name]) <+: l) entries
            (fun st e r st1 he hc hb => by
              have hrs : resolve st src = some s := by rw [resolve_cwd st fs src hc]; exact hs
              have hrd2 : resolve st dst = some d := by rw [resolve_cwd st fs dst hc]; exact hd
              have hjs := resolve_Join_child st src e.name s (resolve_ne_nil _ _ _ hrs) hrs
                (hvalid e he)
              have hjd := resolve_Join_child st dst e.name d (resolve_ne_nil _ _ _ hrd2) hrd2
                (hvalid e he)
              unfold copyEntry at hb
              split at hb
              · obtain ⟨h1, h2⟩ := ih st _ _ r st1 _ _ hjs hjd hb
                exact ⟨h1.trans hc, fun l hl n hn => h2 l hl.1 hl.2 n hn⟩
              · simp only [Option.some.injEq] at hb
                obtain ⟨h1, h2⟩ := copyFileAndDelete_frame _ _ _ _ _ _ hb
                refine ⟨h1.trans hc, fun l hl n hn => ?_⟩
                rw [h2 l (by rw [hjs]; intro e2; exact hl.1 (by rw [Option.some.inj e2]))
                  (by rw [hjd]; intro e2; exact hl.2 (by rw [Option.some.inj e2]))]
                exact hn)
          have hout : ∀ l, ¬ s <+: l → ¬ d <+: l → ∀ e ∈ entries,
              ¬ (s ++ [e.name]) <+: l ∧ ¬ (d ++ [e.name]) <+: l :=
            fun l h1 h2 e _ => ⟨fun c => h1 (snoc_prefix_below _ _ _ c),
              fun c => h2 (snoc_prefix_below _ _ _ c)⟩
          split at h
          · cases h
          · rename_i e fsb hfe
            simp only [Option.some.injEq, Prod.mk.injEq] at h
            rw [← h.2]
            obtain ⟨h1, h2⟩ := hloop fsa _ fsb hca hfe
            exact ⟨h1, fun l hl1 hl2 n hn => h2 l (hout l hl1 hl2) n (hka l n hn)⟩
          · rename_i fsb hfe
            simp only [Option.some.injEq] at h
            obtain ⟨h1, h2⟩ := hloop fsa _ fsb hca hfe
            refine ⟨(Remove_cwd _ _ _ _ h).trans h1, fun l hl1 hl2 n hn => ?_⟩
            rw [Remove_frame _ _ _ _ h l (by
              rw [resolve_cwd fsb fs src h1, hs]
              intro e2
              exact hl1 (by rw [Option.some.inj e2]))]
            exact h2 l (hout l hl1 hl2) n (hka l n hn)

theorem copyEntry_frame (fuel : Nat) (fs st st1 : FS) (src dst : Str) (s d : Loc)
    (e : FileInfo) (r : Option GoError)
    (hs : resolve fs src = some s) (hd : resolve fs dst = some d) (hc : st.cwd = fs.cwd)
    (hv : validName e.name = true)
    (hb : copyEntry (copyDirAndDelete fuel) src dst st e = some (r, st1)) :
    st1.cwd = fs.cwd ∧
    ∀ l, ¬ (s ++ [e.name]) <+: l → ¬ (d ++ [e.name]) <+: l →
      ∀ n, st.get l = some n → st1.get l = some n := by
  have hrs : resolve st src = some s := by rw [resolve_cwd st fs src hc]; exact hs
  have hrd2 : resolve st dst = some d := by rw [resolve_cwd st fs dst hc]; exact hd
  have hjs := resolve_Join_child st src e.name s (resolve_ne_nil _ _ _ hrs) hrs hv
  have hjd := resolve_Join_child st dst e.name d (resolve_ne_nil _ _ _ hrd2) hrd2 hv
  unfold copyEntry at hb
  split at hb
  · obtain ⟨h1, h2⟩ := copyDirAndDelete_frame fuel st _ _ r st1 _ _ hjs hjd hb
    exact ⟨h1.trans hc, h2⟩
  · simp only [Option.some.injEq] at hb
    obtain ⟨h1, h2⟩ := copyFileAndDelete_frame _ _ _ _ _ _ hb
    refine ⟨h1.trans hc, fun l hl1 hl2 n hn => ?_⟩
    rw [h2 l (by rw [hjs]; intro e2; exact hl1 (by rw [Option.some.inj e2]))
      (by rw [hjd]; intro e2; exact hl2 (by rw [Option.some.inj e2]))]
    exact hn

theorem copyLoop_frame (fuel : Nat) (fs : FS) (src dst : Str) (s d : Loc)
    (entries : List FileInfo)
    (hs : resolve fs src = some s) (hd : resolve fs dst = some d)
    (hv : ∀ e ∈ entries, validName e.name = true) :
    ∀ st r st2, st.cwd = fs.cwd →
      forEntries (copyEntry (copyDirAndDelete fuel) src dst) st entries = some (r, st2) →
      st2.cwd = fs.cwd ∧
      ∀ l, (∀ e ∈ entries, ¬ (s ++ [e.name]) <+: l ∧ ¬ (d ++ [e.name]) <+: l) →
        ∀ n, st.get l = some n → st2.get l = some n :=
  forEntries_frame _ fs.cwd (fun e l => ¬ (s ++ [e.name]) <+: l ∧ ¬ (d ++ [e.name]) <+: l)
    entries (fun st e r st1 he hc hb => by
      obtain ⟨h1, h2⟩ := copyEntry_frame fuel fs st st1 src dst s d e r hs hd hc (hv e he) hb
      exact ⟨h1, fun l hl n hn => h2 l hl.1 hl.2 n hn⟩)

theorem snoc_prefix_same (s : Loc) (x y : Str) (rel : Loc)
    (h : (s ++ [x]) <+: (s ++ y :: rel)) : x = y := by
  rw [List.prefix_append_right_inj] at h
  obtain ⟨t, ht⟩ := h
  simp only [List.singleton_append, List.cons.injEq] at ht
  exact ht.1

theorem snoc_prefix_comparable (s d : Loc) (x : Str) (rel : Loc)
    (h : (s ++ [x]) <+: (d ++ rel)) : s <+: d ∨ d <+: s :=
  List.prefix_or_prefix_of_prefix (snoc_prefix_below _ _ _ h) (List.prefix_append d rel)

theorem not_snoc_prefix_self (s : Loc) (x : Str) : ¬ (s ++ [x]) <+: s := by
  intro h
  have := h.length_le
  simp at this

theorem mkdirAllFrom_ok_dir (p : Str) (perm : Nat) (rest : List Str) :
    ∀ (fs : FS) (cur : Loc) (fs1 : FS), rest ≠ [] →
      mkdirAllFrom p perm fs cur rest = (none, fs1) →
      ∃ q, fs1.get (cur ++ rest) = some (.dir q) := by
  induction rest with
  | nil => intro fs cur fs1 h; exact absurd rfl h
  | cons c rest ih =>
    intro fs cur fs1 _ h
    have happ : cur ++ c :: rest = (cur ++ [c]) ++ rest := by simp
    simp only [mkdirAllFrom] at h
    split at h
    · rename_i q hq
      by_cases hr : rest = []
      · subst hr
        simp only [mkdirAllFrom, Prod.mk.injEq, true_and] at h
        rw [← h]
        exact ⟨q, hq⟩
      · rw [happ]; exact ih fs _ fs1 hr h
    · simp at h
    · split at h
      · split at h
        · by_cases hr : rest = []
          · subst hr
            simp only [mkdirAllFrom, Prod.mk.injEq, true_and] at h
            rw [← h]
            exact ⟨perm % 512, by rw [get_insert, if_pos rfl]⟩
          · rw [happ]; exact ih _ _ fs1 hr h
        · simp at h
      · simp at h
      · simp at h

theorem MkdirAll_ok_dir (fs fs1 : FS) (p : Str) (perm : Nat) (d : Loc)
    (hd : resolve fs p = some d)
    (h : MkdirAll fs p perm = (none, fs1)) : ∃ q, fs1.get d = some (.dir q) := by
  unfold MkdirAll at h
  rw [hd] at h
  cases d with
  | nil =>
    simp only at h
    split at h
    · rename_i q hq
      simp only [Prod.mk.injEq, true_and] at h
      rw [← h]; exact ⟨q, hq⟩
    · simp at h
    · simp at h
  | cons c rest =>
    simp only at h
    simpa using mkdirAllFrom_ok_dir p perm (c :: rest) fs [] fs1 (by simp) h

theorem copiedTo_keep (n : Node) (fs fs1 : FS) (l : Loc)
    (hk : ∀ m, fs.get l = some m → fs1.get l = some m)
    (h : copiedTo n (fs.get l) = true) : copiedTo n (fs1.get l) = true := by
  cases hg : fs.get l with
  | none => rw [hg] at h; cases n <;> simp [copiedTo] at h
  | some m => rw [hk m hg]; rw [hg] at h; exact h

theorem copyFileAndDelete_copied (st st1 : FS) (srcp dstp : Str) (info : FileInfo)
    (a b : Loc) (n : Node) (ha : resolve st srcp = some a) (hb : resolve st dstp = some b)
    (hab : a ≠ b) (hn : st.get a = some n)
    (h : copyFileAndDelete st srcp dstp info = (none, st1)) :
    copiedTo n (st1.get b) = true := by
  unfold copyFileAndDelete at h
  cases hr : ReadFile st srcp with
  | error e => simp [hr] at h
  | ok data =>
    simp only [hr] at h
    have hfile : ∃ p, n = .file p data := by
      unfold ReadFile at hr
      simp only [ha, hn] at hr
      cases n with
      | dir q => simp at hr
      | file q c =>
        simp only at hr
        split at hr
        · simp only [Except.ok.injEq] at hr; exact ⟨q, by rw [hr]⟩
        · cases hr
    obtain ⟨p, rfl⟩ := hfile
    cases hw : WriteFile st dstp data info.perm with
    | mk r fs2 =>
      cases r with
      | some e => simp [hw] at h
      | none =>
        simp only [hw] at h
        obtain ⟨d, q, hd, hfs2, -, -⟩ := WriteFile_ok st fs2 dstp data info.perm hw
        obtain ⟨l, m, hl, -, hfs1, -, -, -⟩ := Remove_ok fs2 st1 srcp h
        have hdb : d = b := by rw [hb] at hd; exact (Option.some.inj hd).symm
        have hla : l = a := by
          rw [hfs2, resolve_insert, ha] at hl; exact (Option.some.inj hl).symm
        subst hdb; subst hla
        rw [hfs1, get_erase, if_neg (Ne.symm hab), hfs2, get_insert, if_pos rfl]
        simp [copiedTo]

/-- The loop of `copyDirAndDelete`, when it ends without error: whatever was below an entry
of the listing is then copied below the destination, or is still where it was (which is
the case below an entry that is not a directory). -/
theorem copyLoop_copied (fuel : Nat) (fs : FS) (src dst : Str) (s d : Loc)
    (hs : resolve fs src = some s) (hd : resolve fs dst = some d)
    (hi1 : ¬ s <+: d) (hi2 : ¬ d <+: s)
    (IH : ∀ (st : FS) (src dst : Str) (st1 : FS) (s d : Loc),
      resolve st src = some s → resolve st dst = some d → ¬ s <+: d → ¬ d <+: s →
      copyDirAndDelete fuel st src dst = some (none, st1) →
      ∀ rel n, st.get (s ++ rel) = some n → copiedTo n (st1.get (d ++ rel)) = true)
    (entries : List FileInfo) :
    (entries.map (fun e => e.name)).Nodup → (∀ e ∈ entries, validName e.name = true) →
    ∀ st st2, st.cwd = fs.cwd →
      forEntries (copyEntry (copyDirAndDelete fuel) src dst) st entries = some (none, st2) →
      ∀ e ∈ entries, ∀ rel n, st.get (s ++ e.name :: rel) = some n →
        copiedTo n (st2.get (d ++ e.name :: rel)) = true ∨
        st2.get (s ++ e.name :: rel) = some n := by
  induction entries with
  | nil => intro _ _ st st2 _ _ e he; simp at he
  | cons e es ih =>
    intro hnd hv st st2 hc h
    simp only [List.map_cons, List.nodup_cons, List.mem_map, not_exists, not_and] at hnd
    obtain ⟨hnotin, hnd2⟩ := hnd
    have hne : ∀ x ∈ es, x.name ≠ e.name := fun x hx => hnotin x hx
    have hv2 : ∀ x ∈ es, validName x.name = true := fun x hx => hv x (by simp [hx])
    simp only [forEntries] at h
    split at h
    · cases h
    · simp at h
    · rename_i st1 hb
      obtain ⟨hc1, hk1⟩ := copyEntry_frame fuel fs st st1 src dst s d e none hs hd hc
        (hv e (by simp)) hb
      obtain ⟨-, hk2⟩ := copyLoop_frame fuel fs src dst s d es hs hd hv2 st1 none st2 hc1 h
      have hrs : resolve st src = some s := by rw [resolve_cwd st fs src hc]; exact hs
      have hrd2 : resolve st dst = some d := by rw [resolve_cwd st fs dst hc]; exact hd
      have hjs := resolve_Join_child st src e.name s (resolve_ne_nil _ _ _ hrs) hrs
        (hv e (by simp))
      have hjd := resolve_Join_child st dst e.name d (resolve_ne_nil _ _ _ hrd2) hrd2
        (hv e (by simp))
      have houtD : ∀ rel, ∀ x ∈ es,
          ¬ (s ++ [x.name]) <+: (d ++ e.name :: rel) ∧ ¬ (d ++ [x.name]) <+: (d ++ e.name :: rel) :=
        fun rel x hx => ⟨fun c => (snoc_prefix_comparable _ _ _ _ c).elim hi1 hi2,
          fun c => hne x hx (snoc_prefix_same _ _ _ _ c)⟩
      have houtS : ∀ rel, ∀ x ∈ es,
          ¬ (s ++ [x.name]) <+: (s ++ e.name :: rel) ∧ ¬ (d ++ [x.name]) <+: (s ++ e.name :: rel) :=
        fun rel x hx => ⟨fun c => hne x hx (snoc_prefix_same _ _ _ _ c),
          fun c => (snoc_prefix_comparable _ _ _ _ c).elim hi2 hi1⟩
      intro e1 he1 rel n hn
      rcases List.mem_cons.1 he1 with rfl | he1
      · unfold copyEntry at hb
        split at hb
        · left
          have hci1 : ¬ (s ++ [e1.name]) <+: (d ++ [e1.name]) :=
            fun c => (snoc_prefix_comparable _ _ _ _ c).elim hi1 hi2
          have hci2 : ¬ (d ++ [e1.name]) <+: (s ++ [e1.name]) :=
            fun c => (snoc_prefix_comparable _ _ _ _ c).elim hi2 hi1
          have := IH st _ _ st1 _ _ hjs hjd hci1 hci2 hb rel n (by simpa using hn)
          simp only [List.append_assoc, List.singleton_append] at this
          exact copiedTo_keep n st1 st2 _ (fun m hm => hk2 _ (houtD rel) m hm) this
        · simp only [Option.some.injEq] at hb
          by_cases hrel : rel = []
          · subst hrel
            left
            have hab : s ++ [e1.name] ≠ d ++ [e1.name] := by
              intro c
              have : (s ++ [e1.name]) <+: (d ++ [e1.name]) := by rw [c]
              exact (snoc_prefix_comparable _ _ _ _ this).elim hi1 hi2
            have := copyFileAndDelete_copied st st1 _ _ e1 _ _ n hjs hjd hab hn hb
            exact copiedTo_keep n st1 st2 _ (fun m hm => hk2 _ (houtD []) m hm) this
          · right
            obtain ⟨-, hfr⟩ := copyFileAndDelete_frame _ _ _ _ _ _ hb
            have h1 : st1.get (s ++ e1.name :: rel) = some n := by
              rw [hfr _ (by
                  rw [hjs]; intro c
                  have := Option.some.inj c
                  simp at this
                  exact hrel this)
                (by
                  rw [hjd]; intro c
                  have c2 := Option.some.inj c
                  have : (d ++ [e1.name]) <+: (s ++ e1.name :: rel) := by rw [c2]
                  exact (snoc_prefix_comparable _ _ _ _ this).elim hi2 hi1)]
              exact hn
            exact hk2 _ (houtS rel) n h1
      · have h1 : st1.get (s ++ e1.name :: rel) = some n :=
          hk1 _ (fun c => hne e1 he1 (snoc_prefix_same _ _ _ _ c).symm)
            (fun c => (snoc_prefix_comparable _ _ _ _ c).elim hi2 hi1) n hn
        exact ih hnd2 hv2 st1 st2 hc1 h e1 he1 rel n h1

theorem append_ne_self (s rel : Loc) (h : rel ≠ []) : s ++ rel ≠ s := by
  intro c
  have := congrArg List.length c
  simp only [List.length_append] at this
  have : 0 < rel.length := List.length_pos.2 h
  omega

/-- What `copyDirAndDelete` has done when it returns no error, for a source and a
destination neither of which lies inside the other: every node of the source tree has a
copy at the same relative path below the destination, and nothing is left of the source
tree. -/
theorem copyDirAndDelete_copies (fuel : Nat) :
    ∀ (fs : FS) (src dst : Str) (fs1 : FS) (s d : Loc),
      resolve fs src = some s → resolve fs dst = some d → ¬ s <+: d → ¬ d <+: s →
      copyDirAndDelete fuel fs src dst = some (none, fs1) →
      (∀ rel n, fs.get (s ++ rel) = some n → copiedTo n (fs1.get (d ++ rel)) = true) ∧
      (∀ rel, fs1.get (s ++ rel) = none) := by
  induction fuel with
  | zero => intro fs src dst fs1 s d _ _ _ _ h; simp [copyDirAndDelete] at h
  | succ fuel ih =>
    intro fs src dst fs1 s d hs hd hi1 hi2 h
    simp only [copyDirAndDelete] at h
    split at h
    · simp at h
    · split at h
      · simp at h
      · rename_i fsa hmk
        split at h
        · simp at h
        · rename_i entries hrd
          split at h
          · cases h
          · simp at h
          · rename_i fsb hfe
            simp only [Option.some.injEq] at h
            obtain ⟨hca, hka, -⟩ := MkdirAll_spec _ _ _ _ _ hmk
            obtain ⟨q, hdq⟩ := MkdirAll_ok_dir fs fsa dst _ d hd hmk
            obtain ⟨l, perm, hl, hg, hnd, hvalid, -⟩ := ReadDir_entries _ _ _ hrd
            have hls : l = s := by
              rw [resolve_cwd fsa fs src hca, hs] at hl; exact (Option.some.inj hl).symm
            subst hls
            obtain ⟨hcb, hkb⟩ := copyLoop_frame fuel fs src dst l d entries hs hd hvalid
              fsa none fsb hca hfe
            obtain ⟨l2, n2, hl2, hn2, hfs1, -, -, hch⟩ := Remove_ok fsb fs1 src h
            have hl2s : l2 = l := by
              rw [resolve_cwd fsb fs src hcb, hs] at hl2; exact (Option.some.inj hl2).symm
            subst hl2s
            have hsb : fsb.get l2 = some (.dir perm) :=
              hkb l2 (fun e _ => ⟨not_snoc_prefix_self _ _,
                fun c => hi2 (snoc_prefix_below _ _ _ c)⟩) _ hg
            have hnoch : hasChildren fsb l2 = false := by
              rw [hsb] at hn2
              rw [← Option.some.inj hn2] at hch
              exact hch rfl
            have hdl : d ≠ l2 := fun c => hi2 (by rw [c])
            have hrelne : ∀ (x : Str) (rel : Loc), d ++ x :: rel ≠ l2 := by
              intro x rel c
              exact hi2 (by rw [← c]; exact List.prefix_append _ _)
            constructor
            · intro rel n hn
              cases rel with
              | nil =>
                simp only [List.append_nil] at hn ⊢
                have := hka _ _ hn
                rw [hg] at this
                rw [← Option.some.inj this, hfs1, get_erase, if_neg hdl,
                  hkb d (fun e _ => ⟨fun c => hi1 (snoc_prefix_below _ _ _ c),
                    not_snoc_prefix_self _ _⟩) _ hdq]
                rfl
              | cons n0 rel1 =>
                have hna := hka _ _ hn
                by_cases hex : ∃ e ∈ entries, e.name = n0
                · obtain ⟨e, he, rfl⟩ := hex
                  rcases copyLoop_copied fuel fs src dst l2 d hs hd hi1 hi2
                    (fun st src dst st1 s d a b c1 c2 c3 =>
                      (ih st src dst st1 s d a b c1 c2 c3).1)
                    entries hnd hvalid fsa fsb hca hfe e he rel1 n hna with hc | hc
                  · rw [hfs1, get_erase, if_neg (hrelne _ _)]
                    exact hc
                  · rw [hasChildren_false fsb l2 _ hnoch (List.prefix_append _ _)
                      (append_ne_self _ _ (by simp))] at hc
                    cases hc
                · have hsurv := hkb (l2 ++ n0 :: rel1) (fun e he =>
                    ⟨fun c => hex ⟨e, he, snoc_prefix_same _ _ _ _ c⟩,
                     fun c => (snoc_prefix_comparable _ _ _ _ c).elim hi2 hi1⟩) n hna
                  rw [hasChildren_false fsb l2 _ hnoch (List.prefix_append _ _)
                    (append_ne_self _ _ (by simp))] at hsurv
                  cases hsurv
            · intro rel
              rw [hfs1, get_erase]
              split
              · rfl
              · rename_i hne
                have hrel : rel ≠ [] := fun c => hne (by rw [c]; simp)
                exact hasChildren_false fsb l2 _ hnoch (List.prefix_append _ _)
                  (append_ne_self _ _ hrel)

/-! ## `copyDirAndDelete` moves the tree -/

theorem isTree_parent (fs : FS) (h : fs.isTree = true) (l : Loc) (hl : fs.get l ≠ none)
    (hne : l ≠ []) : ∃ p, fs.get l.dropLast = some (.dir p) := by
  obtain ⟨a, ha, hal⟩ := List.mem_map.1 (get_some_mem_keys fs l hl)
  unfold FS.isTree at h
  rw [List.all_eq_true] at h
  have := h a ha
  rw [hal] at this
  simp only [hne, decide_False, Bool.false_or] at this
  split at this
  · rename_i p hp; exact ⟨p, hp⟩
  · cases this

theorem isTree_above (fs : FS) (h : fs.isTree = true) :
    ∀ (k : Nat) (l q : Loc), l.length = k → fs.get l ≠ none → q <+: l → fs.get q ≠ none := by
  intro k
  induction k with
  | zero =>
    intro l q hk hl hq
    have : l = [] := List.length_eq_zero.1 hk
    subst this
    rw [List.prefix_nil] at hq
    subst hq
    exact hl
  | succ k ih =>
    intro l q hk hl hq
    by_cases hql : q = l
    · rw [hql]; exact hl
    · have hne : l ≠ [] := by intro c; rw [c] at hk; simp at hk
      obtain ⟨p, hp⟩ := isTree_parent fs h l hl hne
      have hq2 : q <+: l.dropLast := by
        obtain ⟨t, ht⟩ := hq
        have htne : t ≠ [] := by
          intro c; rw [c, List.append_nil] at ht; exact hql ht
        rw [← ht, List.dropLast_append_of_ne_nil _ htne]
        exact List.prefix_append _ _
      exact ih l.dropLast q (by rw [List.length_dropLast, hk]; rfl) (by rw [hp]; simp) hq2

theorem exists_of_Stat (fs : FS) (p : Str) (info : FileInfo) (h : Stat fs p = .ok info) :
    existsAt fs p = true := by
  unfold Stat statWith at h
  unfold existsAt
  split at h
  · cases h
  · rename_i l hl
    rw [hl]
    split at h
    · rename_i n hn; simp [hn]
    · cases h

theorem copyDirAndDelete_ok_src (fuel : Nat) (fs fs1 : FS) (src dst : Str)
    (h : copyDirAndDelete fuel fs src dst = some (none, fs1)) : existsAt fs src = true := by
  cases fuel with
  | zero => simp [copyDirAndDelete] at h
  | succ fuel =>
    cases hst : Stat fs src with
    | error e => simp [copyDirAndDelete, hst] at h
    | ok info => exact exists_of_Stat fs src info hst

theorem copiedTo_file (p : Nat) (c : Str) (m : Option Node)
    (h : copiedTo (.file p c) m = true) : ∃ q, m = some (.file q c) := by
  cases m with
  | none => simp [copiedTo] at h
  | some x =>
    cases x with
    | dir q => simp [copiedTo] at h
    | file q c2 =>
      simp only [copiedTo, decide_eq_true_eq] at h
      exact ⟨q, by rw [h]⟩

theorem copiedTo_dir (p : Nat) (m : Option Node)
    (h : copiedTo (.dir p) m = true) : ∃ q, m = some (.dir q) := by
  cases m with
  | none => simp [copiedTo] at h
  | some x =>
    cases x with
    | dir q => exact ⟨q, rfl⟩
    | file q c2 => simp [copiedTo] at h

/-- C6: in a file tree, for a destination at which nothing exists and which does not lie
inside the source tree, if `copyDirAndDelete` returns no error then every regular file of
the source tree is at the same relative path below the destination with the same content,
every directory of the source tree (the source itself included) is a directory at the same
relative path below the destination, nothing of the source tree is left, and the status
query on the source reports not-exist. -/
theorem copyDirAndDelete_moves_tree (fuel : Nat) (fs fs1 : FS) (src dst : Str) (s d : Loc)
    (htree : fs.isTree = true) (hs : resolve fs src = some s) (hd : resolve fs dst = some d)
    (hfree : fs.get d = none) (hout : ¬ s <+: d)
    (h : copyDirAndDelete fuel fs src dst = some (none, fs1)) :
    (∀ rel perm c, fs.get (s ++ rel) = some (.file perm c) →
      ∃ q, fs1.get (d ++ rel) = some (.file q c)) ∧
    (∀ rel perm, fs.get (s ++ rel) = some (.dir perm) →
      ∃ q, fs1.get (d ++ rel) = some (.dir q)) ∧
    (∀ rel, fs1.get (s ++ rel) = none) ∧
    statNotExist fs1 src = true := by
  have hsrc : fs.get s ≠ none := by
    have hx := copyDirAndDelete_ok_src fuel fs fs1 src dst h
    unfold existsAt at hx
    simp only [hs] at hx
    intro c
    rw [c] at hx
    cases hx
  have hi2 : ¬ d <+: s := fun c => isTree_above fs htree s.length s d rfl hsrc c hfree
  obtain ⟨h1, h2⟩ := copyDirAndDelete_copies fuel fs src dst fs1 s d hs hd hout hi2 h
  obtain ⟨fs2, hrm⟩ := copyDirAndDelete_ok_last fuel fs fs1 src dst h
  exact ⟨fun rel perm c hg => copiedTo_file perm c _ (h1 rel _ hg),
    fun rel perm hg => copiedTo_dir perm _ (h1 rel _ hg), h2,
    (Remove_ok_stat fs2 fs1 src hrm).1⟩

/-- C6, on the directory `/tmp/d` of the example, which holds `f1.txt` and `sub/f2.txt`,
with the destination `/home/u/copied`. -/
theorem copyDirAndDelete_moves_tree_witness :
    copyDirAndDelete 3 exampleFS "/tmp/d".toList "/home/u/copied".toList =
      some (none, resultFS (copyDirAndDelete 3 exampleFS "/tmp/d".toList
        "/home/u/copied".toList) exampleFS) ∧
    (∃ q, (resultFS (copyDirAndDelete 3 exampleFS "/tmp/d".toList "/home/u/copied".toList)
        exampleFS).get (["home".toList, "u".toList, "copied".toList] ++
          ["sub".toList, "f2.txt".toList]) = some (.file q "file2".toList)) ∧
    (∃ q, (resultFS (copyDirAndDelete 3 exampleFS "/tmp/d".toList "/home/u/copied".toList)
        exampleFS).get (["home".toList, "u".toList, "copied".toList] ++
          ["sub".toList]) = some (.dir q)) ∧
    statNotExist (resultFS (copyDirAndDelete 3 exampleFS "/tmp/d".toList
      "/home/u/copied".toList) exampleFS) "/tmp/d".toList = true ∧
    ReadFile (resultFS (copyDirAndDelete 3 exampleFS "/tmp/d".toList
      "/home/u/copied".toList) exampleFS) "/home/u/copied/f1.txt".toList =
        .ok "file1".toList ∧
    ReadFile (resultFS (copyDirAndDelete 3 exampleFS "/tmp/d".toList
      "/home/u/copied".toList) exampleFS) "/home/u/copied/sub/f2.txt".toList =
        .ok "file2".toList :=
  have key := copyDirAndDelete_moves_tree 3 exampleFS _ "/tmp/d".toList
    "/home/u/copied".toList ["tmp".toList, "d".toList]
    ["home".toList, "u".toList, "copied".toList] (by decide) (by decide) (by decide)
    (by decide) (by decide)
    (show copyDirAndDelete 3 exampleFS "/tmp/d".toList "/home/u/copied".toList =
      some (none, resultFS (copyDirAndDelete 3 exampleFS "/tmp/d".toList
        "/home/u/copied".toList) exampleFS) by decide)
  ⟨by decide, key.1 ["sub".toList, "f2.txt".toList] 420 "file2".toList (by decide),
   key.2.1 ["sub".toList] 493 (by decide), key.2.2.2, by decide, by decide⟩

/-! ## The entry and its record after `trashLinux` -/

theorem WriteFile_keeps (fs fs1 : FS) (p data : Str) (perm : Nat) (r : Option GoError)
    (h : WriteFile fs p data perm = (r, fs1)) (l : Loc) (hl : fs.get l ≠ none) :
    fs1.get l ≠ none := by
  cases r with
  | some e => rw [WriteFile_error fs fs1 p data perm e h]; exact hl
  | none =>
    obtain ⟨d, q, -, hfs, -, -⟩ := WriteFile_ok fs fs1 p data perm h
    rw [hfs, get_insert]
    split
    · simp
    · exact hl

theorem copyFileAndDelete_keeps (fs fs1 : FS) (src dst : Str) (info : FileInfo)
    (r : Option GoError) (h : copyFileAndDelete fs src dst info = (r, fs1)) (l : Loc)
    (hs : resolve fs src ≠ some l) (hl : fs.get l ≠ none) : fs1.get l ≠ none := by
  unfold copyFileAndDelete at h
  split at h
  · simp only [Prod.mk.injEq] at h
    rw [← h.2]; exact hl
  · split at h
    · rename_i e fs2 hw
      simp only [Prod.mk.injEq] at h
      rw [← h.2]
      exact WriteFile_keeps _ _ _ _ _ _ hw l hl
    · rename_i fs2 hw
      rw [Remove_frame _ _ _ _ h l (by
        rw [resolve_cwd fs2 fs src (WriteFile_cwd _ _ _ _ _ _ hw)]; exact hs)]
      exact WriteFile_keeps _ _ _ _ _ _ hw l hl

theorem forEntries_keeps (body : FS → FileInfo → Option (Option GoError × FS))
    (c0 : Option Loc) (Out : FileInfo → Loc → Prop) (entries : List FileInfo)
    (hbody : ∀ st e r st1, e ∈ entries → st.cwd = c0 → body st e = some (r, st1) →
      st1.cwd = c0 ∧ ∀ l, Out e l → st.get l ≠ none → st1.get l ≠ none) :
    ∀ st r st2, st.cwd = c0 → forEntries body st entries = some (r, st2) →
      st2.cwd = c0 ∧
      ∀ l, (∀ e ∈ entries, Out e l) → st.get l ≠ none → st2.get l ≠ none := by
  induction entries with
  | nil =>
    intro st r st2 hc h
    simp only [forEntries, Option.some.injEq, Prod.mk.injEq] at h
    rw [← h.2]
    exact ⟨hc, fun l _ hn => hn⟩
  | cons e es ih =>
    intro st r st2 hc h
    simp only [forEntries] at h
    split at h
    · cases h
    · rename_i err st1 hb
      simp only [Option.some.injEq, Prod.mk.injEq] at h
      rw [← h.2]
      obtain ⟨h1, h2⟩ := hbody st e _ st1 (by simp) hc hb
      exact ⟨h1, fun l hl hn => h2 l (hl e (by simp)) hn⟩
    · rename_i st1 hb
      obtain ⟨h1, h2⟩ := hbody st e _ st1 (by simp) hc hb
      obtain ⟨h3, h4⟩ := ih (fun st e r st1 he => hbody st e r st1 (by simp [he])) st1 r st2 h1 h
      exact ⟨h3, fun l hl hn =>
        h4 l (fun e he => hl e (by simp [he])) (h2 l (hl e (by simp)) hn)⟩

/-- Whatever its result, `copyDirAndDelete` removes nothing outside the source tree: a
location outside it that holds a node before holds one after. -/
theorem copyDirAndDelete_keeps (fuel : Nat) :
    ∀ (fs : FS) (src dst : Str) (r : Option GoError) (fs1 : FS) (s : Loc),
      resolve fs src = some s → copyDirAndDelete fuel fs src dst = some (r, fs1) →
      fs1.cwd = fs.cwd ∧ ∀ l, ¬ s <+: l → fs.get l ≠ none → fs1.get l ≠ none := by
  induction fuel with
  | zero => intro fs src dst r fs1 s _ h; simp [copyDirAndDelete] at h
  | succ fuel ih =>
    intro fs src dst r fs1 s hs h
    have hkeepMk : ∀ (a b : FS), (∀ l n, a.get l = some n → b.get l = some n) →
        ∀ l, a.get l ≠ none → b.get l ≠ none := by
      intro a b hk l hl
      cases hg : a.get l with
      | none => exact absurd hg hl
      | some n => rw [hk l n hg]; simp
    simp only [copyDirAndDelete] at h
    split at h
    · simp only [Option.some.injEq, Prod.mk.injEq] at h
      rw [← h.2]
      exact ⟨rfl, fun l _ hn => hn⟩
    · split at h
      · rename_i e fsa hmk
        simp only [Option.some.injEq, Prod.mk.injEq] at h
        rw [← h.2]
        obtain ⟨h1, h2, -⟩ := MkdirAll_spec _ _ _ _ _ hmk
        exact ⟨h1, fun l _ hn => hkeepMk fs fsa h2 l hn⟩
      · rename_i fsa hmk
        obtain ⟨hca, hka, -⟩ := MkdirAll_spec _ _ _ _ _ hmk
        split at h
        · simp only [Option.some.injEq, Prod.mk.injEq] at h
          rw [← h.2]
          exact ⟨hca, fun l _ hn => hkeepMk fs fsa hka l hn⟩
        · rename_i entries hrd
          obtain ⟨l0, perm, -, -, -, hvalid, -⟩ := ReadDir_entries _ _ _ hrd
          have hloop := forEntries_keeps (copyEntry (copyDirAndDelete fuel) src dst) fs.cwd
            (fun e l => ¬ (s ++ [e.name]) <+: l) entries
            (fun st e r st1 he hc hb => by
              have hrs : resolve st src = some s := by rw [resolve_cwd st fs src hc]; exact hs
              have hjs := resolve_Join_child st src e.name s (resolve_ne_nil _ _ _ hrs) hrs
                (hvalid e he)
              unfold copyEntry at hb
              split at hb
              · obtain ⟨h1, h2⟩ := ih st _ _ r st1 _ hjs hb
                exact ⟨h1.trans hc, h2⟩
              · simp only [Option.some.injEq] at hb
                refine ⟨(copyFileAndDelete_frame _ _ _ _ _ _ hb).1.trans hc, fun l hl hn => ?_⟩
                exact copyFileAndDelete_keeps _ _ _ _ _ _ hb l
                  (by rw [hjs]; intro e2; exact hl (by rw [Option.some.inj e2])) hn)
          have hout : ∀ l, ¬ s <+: l → ∀ e ∈ entries, ¬ (s ++ [e.name]) <+: l :=
            fun l h1 e _ c => h1 (snoc_prefix_below _ _ _ c)
          split at h
          · cases h
          · rename_i e fsb hfe
            simp only [Option.some.injEq, Prod.mk.injEq] at h
            rw [← h.2]
            obtain ⟨h1, h2⟩ := hloop fsa _ fsb hca hfe
            exact ⟨h1, fun l hl1 hn => h2 l (hout l hl1) (hkeepMk fs fsa hka l hn)⟩
          · rename_i fsb hfe
            simp only [Option.some.injEq] at h
            obtain ⟨h1, h2⟩ := hloop fsa _ fsb hca hfe
            refine ⟨(Remove_cwd _ _ _ _ h).trans h1, fun l hl1 hn => ?_⟩
            rw [Remove_frame _ _ _ _ h l (by
              rw [resolve_cwd fsb fs src h1, hs]
              intro e2
              exact hl1 (by rw [Option.some.inj e2]))]
            exact h2 l (hout l hl1) (hkeepMk fs fsa hka l hn)

theorem mkdirAllFrom_ok_chain (p : Str) (perm : Nat) (rest : List Str) :
    ∀ (fs : FS) (cur : Loc) (fs1 : FS) (a b : List Str), rest = a ++ b → a ≠ [] →
      mkdirAllFrom p perm fs cur rest = (none, fs1) →
      ∃ q, fs1.get (cur ++ a) = some (.dir q) := by
  induction rest with
  | nil =>
    intro fs cur fs1 a b hab ha
    cases a with
    | nil => exact absurd rfl ha
    | cons x xs => simp at hab
  | cons c rest ih =>
    intro fs cur fs1 a b hab ha h
    cases a with
    | nil => exact absurd rfl ha
    | cons x a1 =>
      simp only [List.cons_append, List.cons.injEq] at hab
      obtain ⟨hcx, hrest⟩ := hab
      subst hcx
      have happ : cur ++ c :: a1 = (cur ++ [c]) ++ a1 := by simp
      have step : ∀ fs2 : FS, (∃ q, fs2.get (cur ++ [c]) = some (.dir q)) →
          mkdirAllFrom p perm fs2 (cur ++ [c]) rest = (none, fs1) →
          ∃ q, fs1.get (cur ++ c :: a1) = some (.dir q) := by
        intro fs2 hq hrec
        by_cases ha1 : a1 = []
        · subst ha1
          obtain ⟨q, hq⟩ := hq
          exact ⟨q, (mkdirAllFrom_spec p perm rest fs2 _ none fs1 hrec).2.1 _ _ hq⟩
        · rw [happ]
          exact ih fs2 _ fs1 a1 b hrest ha1 hrec
      simp only [mkdirAllFrom] at h
      split at h
      · rename_i q hq
        exact step fs ⟨q, hq⟩ h
      · simp at h
      · split at h
        · split at h
          · exact step _ ⟨perm % 512, by rw [get_insert, if_pos rfl]⟩ h
          · simp at h
        · simp at h
        · simp at h

theorem MkdirAll_ok_chain (fs fs1 : FS) (p : Str) (perm : Nat) (d a b : Loc)
    (hd : resolve fs p = some d) (hab : d = a ++ b) (ha : a ≠ [])
    (h : MkdirAll fs p perm = (none, fs1)) : ∃ q, fs1.get a = some (.dir q) := by
  unfold MkdirAll at h
  rw [hd] at h
  cases d with
  | nil =>
    exfalso
    cases a with
    | nil => exact ha rfl
    | cons x xs => simp at hab
  | cons c rest =>
    simp only at h
    simpa using mkdirAllFrom_ok_chain p perm (c :: rest) fs [] fs1 a b hab ha h

theorem ReadDir_entry (fs : FS) (p : Str) (entries : List FileInfo) (l : Loc)
    (hl : resolve fs p = some l) (h : ReadDir fs p = .ok entries) (e : FileInfo)
    (he : e ∈ entries) : ∃ x, fs.get (l ++ [e.name]) = some x ∧ e.isDir = x.isDir := by
  obtain ⟨l2, perm, hl2, -, hent⟩ := ReadDir_ok fs p entries h
  rw [hl] at hl2
  have := Option.some.inj hl2
  subst this
  rw [hent, List.mem_filterMap] at he
  obtain ⟨n, -, hn⟩ := he
  cases hg : fs.get (l ++ [n]) with
  | none => simp [hg] at hn
  | some x =>
    simp only [hg, Option.map_some', Option.some.injEq] at hn
    rw [← hn, Node_info_name]
    refine ⟨x, hg, ?_⟩
    cases x <;> rfl

theorem forEntries_ok_each (body : FS → FileInfo → Option (Option GoError × FS))
    (c0 : Option Loc) (entries : List FileInfo)
    (hcwd : ∀ st e r st1, e ∈ entries → st.cwd = c0 → body st e = some (r, st1) →
      st1.cwd = c0) :
    ∀ st st2, st.cwd = c0 → forEntries body st entries = some (none, st2) →
      ∀ e ∈ entries, ∃ sa sb, sa.cwd = c0 ∧ body sa e = some (none, sb) := by
  induction entries with
  | nil => intro st st2 _ _ e he; simp at he
  | cons e es ih =>
    intro st st2 hc h
    simp only [forEntries] at h
    split at h
    · cases h
    · simp at h
    · rename_i st1 hb
      intro e1 he1
      rcases List.mem_cons.1 he1 with rfl | he1
      · exact ⟨st, st1, hc, hb⟩
      · exact ih (fun st e r st1 he => hcwd st e r st1 (by simp [he])) st1 st2
          (hcwd st e _ st1 (by simp) hc hb) h e1 he1

/-- `copyDirAndDelete` into a destination inside the source tree never returns without
error: the destination directory it makes is an entry of the tree it then has to copy. -/
theorem copyDirAndDelete_into_itself (fuel : Nat) :
    ∀ (fs : FS) (src dst : Str) (fs1 : FS) (s d : Loc),
      resolve fs src = some s → resolve fs dst = some d → s <+: d → s ≠ d →
      copyDirAndDelete fuel fs src dst ≠ some (none, fs1) := by
  induction fuel with
  | zero => intro fs src dst fs1 s d _ _ _ _ h; simp [copyDirAndDelete] at h
  | succ fuel ih =>
    intro fs src dst fs1 s d hs hd hpre hne h
    obtain ⟨t, ht⟩ := hpre
    cases t with
    | nil => rw [List.append_nil] at ht; exact hne ht
    | cons n0 rest =>
      simp only [copyDirAndDelete] at h
      split at h
      · simp at h
      · split at h
        · simp at h
        · rename_i fsa hmk
          split at h
          · simp at h
          · rename_i entries hrd
            split at h
            · cases h
            · simp at h
            · rename_i fsb hfe
              simp only [Option.some.injEq] at h
              obtain ⟨hca, hka, -⟩ := MkdirAll_spec _ _ _ _ _ hmk
              have hrsa : resolve fsa src = some s := by
                rw [resolve_cwd fsa fs src hca]; exact hs
              obtain ⟨qd, hn0⟩ : ∃ q, fsa.get (s ++ [n0]) = some (.dir q) :=
                MkdirAll_ok_chain fs fsa dst _ d (s ++ [n0]) rest hd (by rw [← ht]; simp)
                  (by simp) hmk
              obtain ⟨l, perm, hl, hg, -, hvalid, -⟩ := ReadDir_entries _ _ _ hrd
              have hls : l = s := by rw [hrsa] at hl; exact (Option.some.inj hl).symm
              subst hls
              obtain ⟨hcb, hkb⟩ := copyLoop_frame fuel fs src dst l d entries hs hd hvalid
                fsa none fsb hca hfe
              have hlen : ∀ x : Str, ¬ (d ++ [x]) <+: (l ++ [n0]) := by
                intro x c
                have := c.length_le
                rw [← ht] at this
                simp at this
              have hlen2 : ∀ x : Str, ¬ (d ++ [x]) <+: l := by
                intro x c
                have := c.length_le
                rw [← ht] at this
                simp at this
              by_cases hex : ∃ e ∈ entries, e.name = n0
              · obtain ⟨e, he, hen⟩ := hex
                obtain ⟨x, hx, hxd⟩ := ReadDir_entry fsa src entries l hrsa hrd e he
                rw [hen, hn0] at hx
                have hisdir : e.isDir = true := by
                  rw [hxd, ← Option.some.inj hx]; rfl
                obtain ⟨sa, sb, hsa, hbody⟩ := forEntries_ok_each
                  (copyEntry (copyDirAndDelete fuel) src dst) fs.cwd entries
                  (fun st e r st1 he hc hb =>
                    (copyEntry_frame fuel fs st st1 src dst l d e r hs hd hc (hvalid e he) hb).1)
                  fsa fsb hca hfe e he
                have hrs : resolve sa src = some l := by rw [resolve_cwd sa fs src hsa]; exact hs
                have hrd2 : resolve sa dst = some d := by
                  rw [resolve_cwd sa fs dst hsa]; exact hd
                have hjs := resolve_Join_child sa src e.name l (resolve_ne_nil _ _ _ hrs) hrs
                  (hvalid e he)
                have hjd := resolve_Join_child sa dst e.name d (resolve_ne_nil _ _ _ hrd2) hrd2
                  (hvalid e he)
                unfold copyEntry at hbody
                rw [if_pos hisdir] at hbody
                refine ih sa _ _ sb _ _ hjs hjd ?_ ?_ hbody
                · rw [hen, ← ht]
                  exact ⟨rest ++ [n0], by simp⟩
                · intro c
                  have := congrArg List.length c
                  rw [← ht] at this
                  simp at this
              · have hsurv := hkb (l ++ [n0]) (fun e he =>
                  ⟨fun c => hex ⟨e, he, snoc_prefix_same _ _ _ [] c⟩, hlen _⟩) _ hn0
                have hsb : fsb.get l = some (.dir perm) :=
                  hkb l (fun e _ => ⟨not_snoc_prefix_self _ _, hlen2 _⟩) _ hg
                obtain ⟨l2, n2, hl2, hn2, -, -, -, hch⟩ := Remove_ok fsb fs1 src h
                have hl2s : l2 = l := by
                  rw [resolve_cwd fsb fs src hcb, hs] at hl2; exact (Option.some.inj hl2).symm
                subst hl2s
                rw [hsb] at hn2
                rw [← Option.some.inj hn2] at hch
                have := hasChildren_false fsb l2 (l2 ++ [n0]) (hch rfl)
                  (List.prefix_append _ _) (append_ne_self _ _ (by simp))
                rw [this] at hsurv
                cases hsurv

theorem copyLoop_keeps (fuel : Nat) (fs : FS) (src dst : Str) (s : Loc)
    (entries : List FileInfo) (hs : resolve fs src = some s)
    (hv : ∀ e ∈ entries, validName e.name = true) :
    ∀ st r st2, st.cwd = fs.cwd →
      forEntries (copyEntry (copyDirAndDelete fuel) src dst) st entries = some (r, st2) →
      st2.cwd = fs.cwd ∧ ∀ l, ¬ s <+: l → st.get l ≠ none → st2.get l ≠ none := by
  intro st r st2 hc h
  obtain ⟨h1, h2⟩ := forEntries_keeps (copyEntry (copyDirAndDelete fuel) src dst) fs.cwd
    (fun e l => ¬ (s ++ [e.name]) <+: l) entries
    (fun st e r st1 he hc hb => by
      have hrs : resolve st src = some s := by rw [resolve_cwd st fs src hc]; exact hs
      have hjs := resolve_Join_child st src e.name s (resolve_ne_nil _ _ _ hrs) hrs (hv e he)
      unfold copyEntry at hb
      split at hb
      · obtain ⟨h1, h2⟩ := copyDirAndDelete_keeps fuel st _ _ r st1 _ hjs hb
        exact ⟨h1.trans hc, h2⟩
      · simp only [Option.some.injEq] at hb
        refine ⟨(copyFileAndDelete_frame _ _ _ _ _ _ hb).1.trans hc, fun l hl hn => ?_⟩
        exact copyFileAndDelete_keeps _ _ _ _ _ _ hb l
          (by rw [hjs]; intro e2; exact hl (by rw [Option.some.inj e2])) hn)
    st r st2 hc h
  exact ⟨h1, fun l hl hn => h2 l (fun e _ c => hl (snoc_prefix_below _ _ _ c)) hn⟩

/-- After `copyDirAndDelete` has returned without error, for a source and a destination
that name different locations, the destination exists. -/
theorem copyDirAndDelete_ok_dst (fuel : Nat) (fs fs1 : FS) (src dst : Str) (s : Loc)
    (hs : resolve fs src = some s) (hne : resolve fs dst ≠ some s)
    (h : copyDirAndDelete fuel fs src dst = some (none, fs1)) : existsAt fs1 dst = true := by
  cases fuel with
  | zero => simp [copyDirAndDelete] at h
  | succ fuel =>
    have h0 := h
    simp only [copyDirAndDelete] at h
    split at h
    · simp at h
    · split at h
      · simp at h
      · rename_i fsa hmk
        split at h
        · simp at h
        · rename_i entries hrd
          split at h
          · cases h
          · simp at h
          · rename_i fsb hfe
            simp only [Option.some.injEq] at h
            obtain ⟨hca, -, -⟩ := MkdirAll_spec _ _ _ _ _ hmk
            cases hd : resolve fs dst with
            | none =>
              unfold MkdirAll at hmk
              simp [hd] at hmk
            | some d =>
              have hsd : s ≠ d := fun c => hne (by rw [hd, c])
              have hns : ¬ s <+: d := fun c =>
                copyDirAndDelete_into_itself (fuel + 1) fs src dst fs1 s d hs hd c hsd h0
              obtain ⟨q, hq⟩ := MkdirAll_ok_dir fs fsa dst _ d hd hmk
              obtain ⟨-, -, -, -, -, hvalid, -⟩ := ReadDir_entries _ _ _ hrd
              obtain ⟨hcb, hkb⟩ := copyLoop_keeps fuel fs src dst s entries hs hvalid
                fsa none fsb hca hfe
              have h1 : fsb.get d ≠ none := hkb d hns (by rw [hq]; simp)
              have h2 : fs1.get d = fsb.get d :=
                Remove_frame _ _ _ _ h d (by
                  rw [resolve_cwd fsb fs src hcb, hs]
                  intro c
                  exact hsd (Option.some.inj c))
              have hc1 : fs1.cwd = fs.cwd := (Remove_cwd _ _ _ _ h).trans hcb
              unfold existsAt
              rw [resolve_cwd fs1 fs dst hc1, hd]
              simp only
              rw [h2]
              cases hg : fsb.get d with
              | none => exact absurd hg h1
              | some n => rfl

/-- After `copyAndDelete` has returned without error, for a source that exists and a
destination that names another location, the destination exists. -/
theorem copyAndDelete_ok_dst (fuel : Nat) (fs fs1 : FS) (src dst : Str) (info : FileInfo)
    (hex : existsAt fs src = true) (hne : resolve fs src ≠ resolve fs dst)
    (h : copyAndDelete fuel fs src dst info = some (none, fs1)) : existsAt fs1 dst = true := by
  unfold existsAt at hex
  cases hs : resolve fs src with
  | none => simp [hs] at hex
  | some s =>
    simp only [hs] at hex
    have hne2 : resolve fs dst ≠ some s := fun c => hne (by rw [hs, c])
    unfold copyAndDelete at h
    split at h
    · exact copyDirAndDelete_ok_dst fuel fs fs1 src dst s hs hne2 h
    · simp only [Option.some.injEq] at h
      cases hd : resolve fs dst with
      | none =>
        exfalso
        unfold copyFileAndDelete at h
        split at h
        · simp at h
        · rename_i data _
          have : ∃ e, WriteFile fs dst data info.perm = (some e, fs) := by
            unfold WriteFile
            rw [hd]
            exact ⟨_, rfl⟩
          obtain ⟨e, he⟩ := this
          rw [he] at h
          simp at h
      | some d =>
        cases hg : fs.get s with
        | none => simp [hg] at hex
        | some n =>
          have hsd : s ≠ d := fun c => hne2 (by rw [hd, c])
          have hcp := copyFileAndDelete_copied fs fs1 src dst info s d n hs hd hsd hg h
          have hc1 := (copyFileAndDelete_frame _ _ _ _ _ _ h).1
          unfold existsAt
          rw [resolve_cwd fs1 fs dst hc1, hd]
          simp only
          cases hg1 : fs1.get d with
          | none => rw [hg1] at hcp; cases n <;> simp [copiedTo] at hcp
          | some m => rfl

theorem trashLinuxPrepare_ok (fuel : Nat) (env : Env) (fs fs2 : FS) (absPath homeDir dp : Str)
    (h : trashLinuxPrepare fuel env fs absPath homeDir = some (fs2, .ok dp)) :
    fs2.cwd = fs.cwd ∧ (∀ l n, fs.get l = some n → fs2.get l = some n) ∧
      statNotExist fs2 dp = true := by
  unfold trashLinuxPrepare at h
  split at h
  · simp at h
  · rename_i fsa hmk1
    split at h
    · simp at h
    · rename_i fsb hmk2
      split at h
      · cases h
      · rename_i q hu
        simp only [Option.some.injEq, Prod.mk.injEq, Except.ok.injEq] at h
        obtain ⟨h1, h2⟩ := h
        subst h1; subst h2
        obtain ⟨hc1, hk1, -⟩ := MkdirAll_spec _ _ _ _ _ hmk1
        obtain ⟨hc2, hk2, -⟩ := MkdirAll_spec _ _ _ _ _ hmk2
        exact ⟨hc2.trans hc1, fun l n hl => hk2 l n (hk1 l n hl), uniquePath_result _ _ _ _ hu⟩

theorem Base_shape (p : Str) : Base p = ['/'] ∨ '/' ∉ Base p := by
  unfold Base
  by_cases hp : p = []
  · rw [if_pos hp]
    exact Or.inr (by decide)
  · rw [if_neg hp]
    simp only
    by_cases hq : lastElement (stripTrailingSlashes p) = []
    · rw [if_pos hq]
      exact Or.inl rfl
    · rw [if_neg hq]
      refine Or.inr ?_
      unfold lastElement
      intro hmem
      rw [List.mem_reverse] at hmem
      have := List.mem_takeWhile_imp hmem
      simp at this

/-- The record of a trash entry lies directly in the `info` directory. -/
theorem record_loc (fs : FS) (env : Env) (homeDir dp : Str) (I : Loc)
    (hI : resolve fs (linuxInfoDir env homeDir) = some I) :
    ∃ x, resolve fs (trashInfoPathOf env homeDir dp) = some (I ++ [x]) := by
  unfold trashInfoPathOf
  rcases Base_shape dp with hb | hb
  · rw [hb, resolve_Join fs _ _ I (resolve_ne_nil fs _ I hI) hI]
    refine ⟨".trashinfo".toList, ?_⟩
    have hsp : splitSlash (['/'] ++ ".trashinfo".toList) = [[], ".trashinfo".toList] := by decide
    rw [hsp]
    simp [resolveStep]
  · refine ⟨Base dp ++ ".trashinfo".toList, ?_⟩
    apply resolve_Join_child fs _ _ I (resolve_ne_nil fs _ I hI) hI
    rw [validName_iff]
    refine ⟨?_, ?_, ?_, ?_⟩
    · simp
    · intro c
      have := congrArg List.length c
      simp at this
    · intro c
      have := congrArg List.length c
      simp at this
    · simp [hb]

theorem MkdirAll_ok_resolve (fs fs1 : FS) (p : Str) (perm : Nat)
    (h : MkdirAll fs p perm = (none, fs1)) : ∃ d, resolve fs p = some d := by
  cases hr : resolve fs p with
  | none =>
    unfold MkdirAll at h
    simp [hr] at h
  | some d => exact ⟨d, rfl⟩

theorem MkdirAll_ok_root (fs fs1 : FS) (p : Str) (perm : Nat)
    (hr : resolve fs p = some []) (h : MkdirAll fs p perm = (none, fs1)) :
    fs.get [] ≠ none := by
  unfold MkdirAll at h
  simp only [hr] at h
  intro c
  simp [c] at h

/-- After the trash directories are made, every directory on the way to the `info`
directory exists. -/
theorem trashLinuxPrepare_info (fuel : Nat) (env : Env) (fs fs2 : FS)
    (absPath homeDir dp : Str)
    (h : trashLinuxPrepare fuel env fs absPath homeDir = some (fs2, .ok dp)) :
    ∃ I, resolve fs (linuxInfoDir env homeDir) = some I ∧
      ∀ a b, I = a ++ b → a ≠ [] → ∃ q, fs2.get a = some (.dir q) := by
  unfold trashLinuxPrepare at h
  split at h
  · simp at h
  · rename_i fsa hmk1
    split at h
    · simp at h
    · rename_i fsb hmk2
      split at h
      · cases h
      · rename_i q hu
        simp only [Option.some.injEq, Prod.mk.injEq, Except.ok.injEq] at h
        obtain ⟨h1, h2⟩ := h
        subst h1; subst h2
        obtain ⟨hc1, -, -⟩ := MkdirAll_spec _ _ _ _ _ hmk1
        obtain ⟨I, hI⟩ := MkdirAll_ok_resolve _ _ _ _ hmk2
        refine ⟨I, ?_, ?_⟩
        · rw [← resolve_cwd fsa fs _ hc1]
          exact hI
        · intro a b hab ha
          exact MkdirAll_ok_chain fsa fsb _ _ I a b hI hab ha hmk2

theorem copyDirAndDelete_ok_mkdir (fuel : Nat) (fs fs1 : FS) (src dst : Str)
    (h : copyDirAndDelete fuel fs src dst = some (none, fs1)) :
    ∃ perm fsm, MkdirAll fs dst perm = (none, fsm) := by
  cases fuel with
  | zero => simp [copyDirAndDelete] at h
  | succ fuel =>
    simp only [copyDirAndDelete] at h
    split at h
    · simp at h
    · split at h
      · simp at h
      · rename_i fsm hmk
        exact ⟨_, fsm, hmk⟩

/-- A copy and delete that succeeds has a destination that exists already or can be made:
it is not a root directory that is missing. -/
theorem copyAndDelete_ok_dst_ne_root (fuel : Nat) (fs fs1 : FS) (src dst : Str)
    (info : FileInfo) (hd : resolve fs dst = some []) (hg : fs.get [] = none)
    (h : copyAndDelete fuel fs src dst info = some (none, fs1)) : False := by
  unfold copyAndDelete at h
  split at h
  · obtain ⟨perm, fsm, hmk⟩ := copyDirAndDelete_ok_mkdir fuel fs fs1 src dst h
    exact MkdirAll_ok_root fs fsm dst perm hd hmk hg
  · simp only [Option.some.injEq] at h
    unfold copyFileAndDelete at h
    split at h
    · simp at h
    · split at h
      · simp at h
      · rename_i fsw hw
        obtain ⟨l, q, hl, -, hnew, -⟩ := WriteFile_ok _ _ _ _ _ hw
        rw [hd] at hl
        cases hl
        exact (parentWritable_dir fs [] (hnew hg).2).1 rfl

/-- What a successful move leaves alone: a node that lies neither at or below the source nor
at or below the destination. -/
theorem move_ok_keeps (fuel : Nat) (fs fs1 : FS) (absPath destPath : Str) (info : FileInfo)
    (s d S : Loc) (n : Node)
    (hs : resolve fs absPath = some s) (hd : resolve fs destPath = some d) (hsd : s ≠ d)
    (h1 : ¬ s <+: S) (h2 : ¬ d <+: S) (hg : fs.get S = some n)
    (hmove : (Rename fs absPath destPath).1 = none ∧ fs1 = (Rename fs absPath destPath).2 ∨
      (Rename fs absPath destPath).1 ≠ none ∧
        copyAndDelete fuel fs absPath destPath info = some (none, fs1)) :
    fs1.get S = some n := by
  rcases hmove with ⟨hok, hfs⟩ | ⟨-, hcp⟩
  · have hren : Rename fs absPath destPath = (none, fs1) := by
      rw [hfs, ← hok]
    obtain ⟨s2, d2, m, hs2, hd2, -, -, hfs1⟩ := Rename_ok fs fs1 absPath destPath hren
    rw [hs] at hs2
    rw [hd] at hd2
    cases hs2
    cases hd2
    rw [if_neg hsd] at hfs1
    rw [hfs1, get_moveNodes_other fs s d S h1 h2]
    exact hg
  · unfold copyAndDelete at hcp
    split at hcp
    · exact (copyDirAndDelete_frame fuel fs absPath destPath none fs1 s d hs hd hcp).2 S h1 h2 n hg
    · simp only [Option.some.injEq] at hcp
      rw [(copyFileAndDelete_frame fs fs1 absPath destPath info none hcp).2 S
        (by rw [hs]; intro c; exact h1 (by cases c; exact List.prefix_refl _))
        (by rw [hd]; intro c; exact h2 (by cases c; exact List.prefix_refl _))]
      exact hg

theorem move_ok_cwd (fuel : Nat) (fs fs1 : FS) (absPath destPath : Str) (info : FileInfo)
    (s : Loc) (hs : resolve fs absPath = some s)
    (hmove : (Rename fs absPath destPath).1 = none ∧ fs1 = (Rename fs absPath destPath).2 ∨
      (Rename fs absPath destPath).1 ≠ none ∧
        copyAndDelete fuel fs absPath destPath info = some (none, fs1)) :
    fs1.cwd = fs.cwd := by
  rcases hmove with ⟨-, hfs⟩ | ⟨-, hcp⟩
  · rw [hfs]
    exact Rename_cwd fs _ absPath destPath (Rename fs absPath destPath).1 rfl
  · unfold copyAndDelete at hcp
    split at hcp
    · exact (copyDirAndDelete_keeps fuel fs absPath destPath none fs1 s hs hcp).1
    · simp only [Option.some.injEq] at hcp
      exact (copyFileAndDelete_frame fs fs1 absPath destPath info none hcp).1

/-! ## The metadata record of a Linux trash entry -/

/-- C7 fails as stated, in two ways.  After a call that returns an error: for `/ro/a.txt`,
a readable file in a directory that cannot be changed, the rename fails, the copy is written
to `files/a.txt`, the removal of the source fails, and the clean-up removes the record
`info/a.txt.trashinfo`, so that the call leaves a trash entry without its record.  After a
call that returns no error: when the source is the `info` directory of the trash, the record
`info/info.trashinfo` is written into it and moves with it to `files/info`, so that the
entry exists and nothing exists at the path of its record. -/
theorem trashLinux_entry_without_record :
    (resultError (moveToTrash 10 exampleEnv readOnlyDirFS "/ro/a.txt".toList) =
      some (.wrap "cannot move to trash".toList
        (.sys "remove".toList "/ro/a.txt".toList .EACCES)) ∧
    uniquePath 10 readOnlyPrepared "/home/u/.local/share/Trash/files/a.txt".toList =
      some "/home/u/.local/share/Trash/files/a.txt".toList ∧
    existsAt (resultFS (moveToTrash 10 exampleEnv readOnlyDirFS "/ro/a.txt".toList)
      readOnlyDirFS) "/home/u/.local/share/Trash/files/a.txt".toList = true ∧
    existsAt (resultFS (moveToTrash 10 exampleEnv readOnlyDirFS "/ro/a.txt".toList)
      readOnlyDirFS) "/home/u/.local/share/Trash/info/a.txt.trashinfo".toList = false) ∧
    (moveToTrash 10 exampleEnv trashInUseFS "/home/u/.local/share/Trash/info".toList =
      some (none, resultFS (moveToTrash 10 exampleEnv trashInUseFS
        "/home/u/.local/share/Trash/info".toList) trashInUseFS) ∧
    uniquePath 10 trashInUseFS "/home/u/.local/share/Trash/files/info".toList =
      some "/home/u/.local/share/Trash/files/info".toList ∧
    trashInfoPathOf exampleEnv "/home/u".toList "/home/u/.local/share/Trash/files/info".toList =
      "/home/u/.local/share/Trash/info/info.trashinfo".toList ∧
    existsAt (resultFS (moveToTrash 10 exampleEnv trashInUseFS
      "/home/u/.local/share/Trash/info".toList) trashInUseFS)
      "/home/u/.local/share/Trash/files/info".toList = true ∧
    existsAt (resultFS (moveToTrash 10 exampleEnv trashInUseFS
      "/home/u/.local/share/Trash/info".toList) trashInUseFS)
      "/home/u/.local/share/Trash/info/info.trashinfo".toList = false ∧
    existsAt (resultFS (moveToTrash 10 exampleEnv trashInUseFS
      "/home/u/.local/share/Trash/info".toList) trashInUseFS)
      "/home/u/.local/share/Trash/files/info/info.trashinfo".toList = true) := by
  decide

/-- C7, as amended: for a call of `trashLinux` as `moveToTrash` makes it (on the absolute
path and the status record of an existing source) that has chosen the destination `dp`, so
that the trash name is `Base dp` and the record is `<info dir>/<trash name>.trashinfo`: if
the record does not lie at or below the source, that is, the source is not the `info`
directory or a directory above it, and the call returns no error, then in the state after
the call the entry exists at the destination and its record exists. -/
theorem trashLinux_entry_has_record (fuel : Nat) (env : Env) (fs fs2 fs1 : FS)
    (path absPath homeDir dp : Str) (info : FileInfo) (s S : Loc)
    (habs : Abs fs path = .ok absPath) (hinfo : Lstat fs absPath = .ok info)
    (hhome : UserHomeDir env = .ok homeDir)
    (hprep : trashLinuxPrepare fuel env fs absPath homeDir = some (fs2, .ok dp))
    (hs : resolve fs absPath = some s)
    (hS : resolve fs (trashInfoPathOf env homeDir dp) = some S)
    (hout : ¬ s <+: S)
    (h : trashLinux fuel env fs absPath info = some (none, fs1)) :
    existsAt fs1 dp = true ∧ existsAt fs1 (trashInfoPathOf env homeDir dp) = true := by
  have hsrc : existsAt fs absPath = true := exists_of_Lstat fs absPath info hinfo
  obtain ⟨hc2, hk2, hfree⟩ := trashLinuxPrepare_ok fuel env fs fs2 absPath homeDir dp hprep
  obtain ⟨I, hI, hchain⟩ := trashLinuxPrepare_info fuel env fs fs2 absPath homeDir dp hprep
  obtain ⟨x, hx⟩ := record_loc fs env homeDir dp I hI
  rw [hS] at hx
  have hSI : S = I ++ [x] := Option.some.inj hx
  have hex2 : existsAt fs2 absPath = true := exists_preserved fs fs2 absPath hc2 hk2 hsrc
  have hnx2 : existsAt fs2 dp = false := not_exists_of_statNotExist fs2 _ hfree
  have hne2 : resolve fs2 absPath ≠ resolve fs2 dp := resolve_ne_of_exists fs2 _ _ hex2 hnx2
  unfold trashLinux at h
  rw [hhome] at h
  simp only [hprep] at h
  unfold trashLinuxMove at h
  simp only at h
  split at h
  · simp at h
  · rename_i fsw hw
    have hcc := WriteFile_cwd _ _ _ _ _ _ hw
    have hcw : fsw.cwd = fs.cwd := hcc.trans hc2
    obtain ⟨S2, q, hS2, hfsw, -, -⟩ := WriteFile_ok _ _ _ _ _ hw
    rw [resolve_cwd fs2 fs _ hc2, hS] at hS2
    have hS2e : S = S2 := Option.some.inj hS2
    subst hS2e
    have hgS : fsw.get S = some (.file q (trashInfoContent env absPath)) := by
      rw [hfsw, get_insert, if_pos rfl]
    have hexc : existsAt fsw absPath = true := by
      unfold existsAt at hex2 ⊢
      rw [resolve_cwd fsw fs2 _ hcc]
      cases hr : resolve fs2 absPath with
      | none => simp [hr] at hex2
      | some l =>
        simp only [hr] at hex2 ⊢
        cases hg : fsw.get l with
        | none =>
          exfalso
          exact WriteFile_keeps _ _ _ _ _ _ hw l (by
            intro c; rw [c] at hex2; cases hex2) hg
        | some n => rfl
    have hnec : resolve fsw absPath ≠ resolve fsw dp := by
      rw [resolve_cwd fsw fs2 _ hcc, resolve_cwd fsw fs2 _ hcc]; exact hne2
    have hmove : (Rename fsw absPath dp).1 = none ∧ fs1 = (Rename fsw absPath dp).2 ∨
        (Rename fsw absPath dp).1 ≠ none ∧
          copyAndDelete fuel fsw absPath dp info = some (none, fs1) := by
      split at h
      · rename_i fsd hren
        simp only [Option.some.injEq, Prod.mk.injEq, true_and] at h
        rw [hren]
        exact Or.inl ⟨rfl, h.symm⟩
      · rename_i e0 fsd hren
        have hfd : fsd = fsw := Rename_error _ _ _ _ _ hren
        subst hfd
        rw [hren]
        refine Or.inr ⟨by simp, ?_⟩
        split at h
        · cases h
        · rename_i fs3 hcp
          simp only [Option.some.injEq, Prod.mk.injEq, true_and] at h
          rw [hcp, h]
        · simp at h
    have hentry : existsAt fs1 dp = true := by
      rcases hmove with ⟨hok, hfs⟩ | ⟨-, hcp⟩
      · exact (Rename_ok_stat fsw fs1 absPath dp (by rw [hfs, ← hok]) hnec).2.2
      · exact copyAndDelete_ok_dst fuel fsw fs1 absPath dp info hexc hnec hcp
    have hsw : resolve fsw absPath = some s := by rw [resolve_cwd fsw fs _ hcw]; exact hs
    have hc1 : fs1.cwd = fsw.cwd := move_ok_cwd fuel fsw fs1 absPath dp info s hsw hmove
    refine ⟨hentry, ?_⟩
    have hS1 : resolve fs1 (trashInfoPathOf env homeDir dp) = some S := by
      rw [resolve_cwd fs1 fs _ (hc1.trans hcw)]; exact hS
    cases hd1 : resolve fs1 dp with
    | none =>
      unfold existsAt at hentry
      simp [hd1] at hentry
    | some d =>
      have hdw : resolve fsw dp = some d := by rw [← resolve_cwd fs1 fsw _ hc1]; exact hd1
      have hd2 : resolve fs2 dp = some d := by rw [← resolve_cwd fsw fs2 _ hcc]; exact hdw
      have hsd : s ≠ d := by
        intro c
        apply hnec
        rw [hsw, hdw, c]
      have hfree2 : fs2.get d = none := by
        unfold existsAt at hnx2
        rw [hd2] at hnx2
        cases hg : fs2.get d with
        | none => rfl
        | some n => simp [hg] at hnx2
      by_cases hdS : d = S
      · unfold existsAt at hentry ⊢
        rw [hS1]
        rw [hd1, hdS] at hentry
        exact hentry
      · have hnd : ¬ d <+: S := by
          intro hp
          rw [hSI, List.prefix_concat_iff] at hp
          rcases hp with hp | hp
          · exact hdS (hp.trans hSI.symm)
          · obtain ⟨b, hb⟩ := hp
            by_cases hd0 : d = []
            · subst hd0
              have hgw : fsw.get [] = none := by
                rw [hfsw, get_insert, if_neg hdS]
                exact hfree2
              rcases hmove with ⟨hok, hfs⟩ | ⟨-, hcp⟩
              · have hren : Rename fsw absPath dp = (none, fs1) := by rw [hfs, ← hok]
                obtain ⟨s3, d3, m, hs3, hd3, -, hck, -⟩ := Rename_ok fsw fs1 absPath dp hren
                rw [hsw] at hs3
                rw [hdw] at hd3
                cases hs3
                cases hd3
                exact (renameCheck_none fsw _ s [] m hck hsd).2.1 List.nil_prefix
              · exact copyAndDelete_ok_dst_ne_root fuel fsw fs1 absPath dp info hdw hgw hcp
            · obtain ⟨q2, hq2⟩ := hchain d b hb.symm hd0
              rw [hfree2] at hq2
              cases hq2
        have hkeep := move_ok_keeps fuel fsw fs1 absPath dp info s d S _ hsw hdw hsd hout hnd
          hgS hmove
        unfold existsAt
        simp only [hS1, hkeep, Option.isSome_some]

/-- C7, as amended, on the directory `/tmp/d` of the example with `/tmp` on a device of its
own: the rename fails, the directory is moved by copy and delete, the call returns no
error, and the entry `files/d` and its record `info/d.trashinfo` exist afterwards. -/
theorem trashLinux_entry_has_record_witness :
    trashInfoPathOf exampleEnv "/home/u".toList "/home/u/.local/share/Trash/files/d".toList =
      "/home/u/.local/share/Trash/info/d.trashinfo".toList ∧
    trashLinux 10 exampleEnv exampleFSMounted "/tmp/d".toList ⟨"d".toList, true, 493⟩ =
      some (none, resultFS (trashLinux 10 exampleEnv exampleFSMounted "/tmp/d".toList
        ⟨"d".toList, true, 493⟩) exampleFSMounted) ∧
    existsAt (resultFS (trashLinux 10 exampleEnv exampleFSMounted "/tmp/d".toList
        ⟨"d".toList, true, 493⟩) exampleFSMounted)
      "/home/u/.local/share/Trash/files/d".toList = true ∧
    existsAt (resultFS (trashLinux 10 exampleEnv exampleFSMounted "/tmp/d".toList
        ⟨"d".toList, true, 493⟩) exampleFSMounted)
      (trashInfoPathOf exampleEnv "/home/u".toList
        "/home/u/.local/share/Trash/files/d".toList) = true :=
  ⟨by decide, by decide,
   trashLinux_entry_has_record 10 exampleEnv exampleFSMounted
     (MkdirAll (MkdirAll exampleFSMounted "/home/u/.local/share/Trash/files".toList 448).2
       "/home/u/.local/share/Trash/info".toList 448).2
     (resultFS (trashLinux 10 exampleEnv exampleFSMounted "/tmp/d".toList
       ⟨"d".toList, true, 493⟩) exampleFSMounted)
     "/tmp/d".toList "/tmp/d".toList "/home/u".toList
     "/home/u/.local/share/Trash/files/d".toList ⟨"d".toList, true, 493⟩
     ["tmp".toList, "d".toList]
     ["home".toList, "u".toList, ".local".toList, "share".toList, "Trash".toList,
       "info".toList, "d.trashinfo".toList]
     (by decide) (by decide) (by decide) (by decide) (by decide) (by decide) (by decide)
     (by decide)⟩

/-- C8 fails as stated: with a record `info/a.txt.trashinfo` left over in an `info` directory
that cannot be changed, and a source `/ro/a.txt` that can be neither renamed nor read, the
record is written, the rename and the copy fail, the removal of the record fails too, and
the call returns `cannot move to trash: ...` with the record written by the call in place
and no entry `files/a.txt`. -/
theorem trashLinux_record_without_entry :
    resultError (moveToTrash 10 exampleEnv staleRecordFS "/ro/a.txt".toList) =
      some (.wrap "cannot move to trash".toList
        (.sys "open".toList "/ro/a.txt".toList .EACCES)) ∧
    ReadFile (resultFS (moveToTrash 10 exampleEnv staleRecordFS "/ro/a.txt".toList)
        staleRecordFS) "/home/u/.local/share/Trash/info/a.txt.trashinfo".toList =
      .ok (trashInfoContent exampleEnv "/ro/a.txt".toList) ∧
    existsAt (resultFS (moveToTrash 10 exampleEnv staleRecordFS "/ro/a.txt".toList)
      staleRecordFS) "/home/u/.local/share/Trash/files/a.txt".toList = false := by
  decide

/-- The steps of `trashLinux` after the destination `dp` is chosen, each with the result of
the call that it leads to: the record cannot be written; the rename succeeds; the rename
fails and the copy and delete runs out, succeeds or fails. -/
theorem trashLinux_steps (fuel : Nat) (env : Env) (fs fs2 : FS)
    (absPath homeDir dp : Str) (info : FileInfo)
    (hsrc : existsAt fs absPath = true)
    (hhome : UserHomeDir env = .ok homeDir)
    (hprep : trashLinuxPrepare fuel env fs absPath homeDir = some (fs2, .ok dp)) :
    (∀ e fsw, WriteFile fs2 (trashInfoPathOf env homeDir dp) (trashInfoContent env absPath) 384 =
        (some e, fsw) →
      trashLinux fuel env fs absPath info =
        some (some (.wrap "cannot create trash info file".toList e), fs2)) ∧
    (∀ fsw, WriteFile fs2 (trashInfoPathOf env homeDir dp) (trashInfoContent env absPath) 384 =
        (none, fsw) →
      (∀ fsd, Rename fsw absPath dp = (none, fsd) →
        trashLinux fuel env fs absPath info = some (none, fsd) ∧ existsAt fsd dp = true) ∧
      (∀ e0 fsd, Rename fsw absPath dp = (some e0, fsd) →
        (copyAndDelete fuel fsd absPath dp info = none →
          trashLinux fuel env fs absPath info = none) ∧
        (∀ fs3, copyAndDelete fuel fsd absPath dp info = some (none, fs3) →
          trashLinux fuel env fs absPath info = some (none, fs3) ∧ existsAt fs3 dp = true) ∧
        (∀ cause fs3, copyAndDelete fuel fsd absPath dp info = some (some cause, fs3) →
          trashLinux fuel env fs absPath info =
            some (some (.wrap "cannot move to trash".toList cause),
              (Remove fs3 (trashInfoPathOf env homeDir dp)).2) ∧
          (GoError.wrap "cannot move to trash".toList cause).Error =
            "cannot move to trash: ".toList ++ cause.Error ∧
          ((Remove fs3 (trashInfoPathOf env homeDir dp)).1 = none →
            existsAt (Remove fs3 (trashInfoPathOf env homeDir dp)).2
              (trashInfoPathOf env homeDir dp) = false)))) := by
  obtain ⟨hc2, hk2, hfree⟩ := trashLinuxPrepare_ok fuel env fs fs2 absPath homeDir dp hprep
  have hex2 : existsAt fs2 absPath = true := exists_preserved fs fs2 absPath hc2 hk2 hsrc
  have hne2 : resolve fs2 absPath ≠ resolve fs2 dp :=
    resolve_ne_of_exists fs2 _ _ hex2 (not_exists_of_statNotExist fs2 _ hfree)
  have hT : trashLinux fuel env fs absPath info =
      trashLinuxMove fuel env fs2 absPath info homeDir dp := by
    unfold trashLinux
    rw [hhome]
    simp only [hprep]
  refine ⟨?_, ?_⟩
  · intro e fsw hw
    rw [hT]
    unfold trashLinuxMove
    simp only [hw]
    rw [WriteFile_error _ _ _ _ _ _ hw]
  · intro fsw hw
    have hcc := WriteFile_cwd _ _ _ _ _ _ hw
    have hexc : existsAt fsw absPath = true := by
      unfold existsAt at hex2 ⊢
      rw [resolve_cwd fsw fs2 _ hcc]
      cases hr : resolve fs2 absPath with
      | none => simp [hr] at hex2
      | some l =>
        simp only [hr] at hex2 ⊢
        cases hg : fsw.get l with
        | none =>
          exfalso
          exact WriteFile_keeps _ _ _ _ _ _ hw l (by
            intro c; rw [c] at hex2; cases hex2) hg
        | some n => rfl
    have hnec : resolve fsw absPath ≠ resolve fsw dp := by
      rw [resolve_cwd fsw fs2 _ hcc, resolve_cwd fsw fs2 _ hcc]; exact hne2
    refine ⟨?_, ?_⟩
    · intro fsd hren
      refine ⟨?_, (Rename_ok_stat fsw fsd absPath dp hren hnec).2.2⟩
      rw [hT]
      unfold trashLinuxMove
      simp only [hw, hren]
    · intro e0 fsd hren
      have hfd : fsd = fsw := Rename_error _ _ _ _ _ hren
      subst hfd
      refine ⟨?_, ?_, ?_⟩
      · intro hcp
        rw [hT]
        unfold trashLinuxMove
        simp only [hw, hren, hcp]
      · intro fs3 hcp
        refine ⟨?_, copyAndDelete_ok_dst fuel fsd fs3 absPath dp info hexc hnec hcp⟩
        rw [hT]
        unfold trashLinuxMove
        simp only [hw, hren, hcp]
      · intro cause fs3 hcp
        refine ⟨?_, ?_, ?_⟩
        · rw [hT]
          unfold trashLinuxMove
          simp only [hw, hren, hcp]
        · simp [GoError.Error]
        · intro hok
          cases hrm : Remove fs3 (trashInfoPathOf env homeDir dp) with
          | mk r3 fs4 =>
            rw [hrm] at hok
            simp only at hok
            subst hok
            exact (Remove_ok_stat fs3 fs4 _ hrm).2

/-- C8, as amended: for a call of `trashLinux` as `moveToTrash` makes it (on the absolute
path and the status record of an existing source) that has chosen the destination `dp`, so
that the trash name is `Base dp` and the record is `<info dir>/<trash name>.trashinfo`.
When the record cannot be written, the call returns `cannot create trash info file:
<cause>` and changes nothing more.  When the record is written and the rename succeeds, or
the rename fails and the copy and delete succeeds, the call returns no error and an entry
exists at the destination.  When the rename and the copy and delete both fail, the call
attempts to remove the record and returns `cannot move to trash: <cause>`, with the cause
that the copy and delete gave, in the state that the attempt left, and the record is gone
unless the removal has failed.  So in the state after a call that has written the record
and has returned, if the record exists then an entry exists at the destination, unless the
copy and delete has failed and the removal of the record has failed too. -/
theorem trashLinux_record_has_entry (fuel : Nat) (env : Env) (fs fs2 : FS)
    (path absPath homeDir dp : Str) (info : FileInfo)
    (habs : Abs fs path = .ok absPath) (hinfo : Lstat fs absPath = .ok info)
    (hhome : UserHomeDir env = .ok homeDir)
    (hprep : trashLinuxPrepare fuel env fs absPath homeDir = some (fs2, .ok dp)) :
    (∀ e fsw, WriteFile fs2 (trashInfoPathOf env homeDir dp) (trashInfoContent env absPath) 384 =
        (some e, fsw) →
      trashLinux fuel env fs absPath info =
        some (some (.wrap "cannot create trash info file".toList e), fs2)) ∧
    (∀ fsw, WriteFile fs2 (trashInfoPathOf env homeDir dp) (trashInfoContent env absPath) 384 =
        (none, fsw) →
      (∀ fsd, Rename fsw absPath dp = (none, fsd) →
        trashLinux fuel env fs absPath info = some (none, fsd) ∧ existsAt fsd dp = true) ∧
      (∀ e0 fsd, Rename fsw absPath dp = (some e0, fsd) →
        (copyAndDelete fuel fsd absPath dp info = none →
          trashLinux fuel env fs absPath info = none) ∧
        (∀ fs3, copyAndDelete fuel fsd absPath dp info = some (none, fs3) →
          trashLinux fuel env fs absPath info = some (none, fs3) ∧ existsAt fs3 dp = true) ∧
        (∀ cause fs3, copyAndDelete fuel fsd absPath dp info = some (some cause, fs3) →
          trashLinux fuel env fs absPath info =
            some (some (.wrap "cannot move to trash".toList cause),
              (Remove fs3 (trashInfoPathOf env homeDir dp)).2) ∧
          (GoError.wrap "cannot move to trash".toList cause).Error =
            "cannot move to trash: ".toList ++ cause.Error ∧
          ((Remove fs3 (trashInfoPathOf env homeDir dp)).1 = none →
            existsAt (Remove fs3 (trashInfoPathOf env homeDir dp)).2
              (trashInfoPathOf env homeDir dp) = false)))) ∧
    (∀ r fs1 fsw,
      WriteFile fs2 (trashInfoPathOf env homeDir dp) (trashInfoContent env absPath) 384 =
        (none, fsw) →
      trashLinux fuel env fs absPath info = some (r, fs1) →
      existsAt fs1 (trashInfoPathOf env homeDir dp) = true →
      existsAt fs1 dp = true ∨
        ∃ cause fs3, copyAndDelete fuel fsw absPath dp info = some (some cause, fs3) ∧
          (Remove fs3 (trashInfoPathOf env homeDir dp)).1 ≠ none) := by
  have hsteps := trashLinux_steps fuel env fs fs2 absPath homeDir dp info
    (exists_of_Lstat fs absPath info hinfo) hhome hprep
  refine ⟨hsteps.1, hsteps.2, ?_⟩
  intro r fs1 fsw hw h hex
  obtain ⟨hB1, hB2⟩ := hsteps.2 fsw hw
  cases hren : Rename fsw absPath dp with
  | mk r1 fsd =>
    cases r1 with
    | none =>
      obtain ⟨ht, hent⟩ := hB1 fsd hren
      rw [ht] at h
      simp only [Option.some.injEq, Prod.mk.injEq] at h
      rw [← h.2]
      exact Or.inl hent
    | some e0 =>
      obtain ⟨hn, hok, hfail⟩ := hB2 e0 fsd hren
      have hfd : fsd = fsw := Rename_error _ _ _ _ _ hren
      subst hfd
      cases hcp : copyAndDelete fuel fsd absPath dp info with
      | none =>
        rw [hn hcp] at h
        cases h
      | some res =>
        obtain ⟨r3, fs3⟩ := res
        cases r3 with
        | none =>
          obtain ⟨ht, hent⟩ := hok fs3 hcp
          rw [ht] at h
          simp only [Option.some.injEq, Prod.mk.injEq] at h
          rw [← h.2]
          exact Or.inl hent
        | some cause =>
          obtain ⟨ht, -, hgone⟩ := hfail cause fs3 hcp
          rw [ht] at h
          simp only [Option.some.injEq, Prod.mk.injEq] at h
          refine Or.inr ⟨cause, fs3, rfl, ?_⟩
          intro hrm
          have hno := hgone hrm
          rw [h.2, hex] at hno
          cases hno

/-- C8, as amended, on the file `/ro/a.txt` of the example, which can be neither renamed nor
removed: the record is written, the rename fails, the copy and delete fails when it removes
the source, the record is removed, and the call returns the error
`cannot move to trash: remove /ro/a.txt: permission denied`. -/
theorem trashLinux_record_has_entry_witness :
    Rename readOnlyWritten "/ro/a.txt".toList "/home/u/.local/share/Trash/files/a.txt".toList =
      (some (.sys "rename".toList "/ro/a.txt".toList .EACCES), readOnlyWritten) ∧
    (Remove readOnlyCopied (trashInfoPathOf exampleEnv "/home/u".toList
      "/home/u/.local/share/Trash/files/a.txt".toList)).1 = none ∧
    trashLinux 10 exampleEnv readOnlyDirFS "/ro/a.txt".toList ⟨"a.txt".toList, false, 420⟩ =
      some (some (.wrap "cannot move to trash".toList
          (.sys "remove".toList "/ro/a.txt".toList .EACCES)),
        (Remove readOnlyCopied (trashInfoPathOf exampleEnv "/home/u".toList
          "/home/u/.local/share/Trash/files/a.txt".toList)).2) ∧
    (GoError.wrap "cannot move to trash".toList
        (.sys "remove".toList "/ro/a.txt".toList .EACCES)).Error =
      "cannot move to trash: ".toList ++
        (GoError.sys "remove".toList "/ro/a.txt".toList .EACCES).Error ∧
    ((Remove readOnlyCopied (trashInfoPathOf exampleEnv "/home/u".toList
        "/home/u/.local/share/Trash/files/a.txt".toList)).1 = none →
      existsAt (Remove readOnlyCopied (trashInfoPathOf exampleEnv "/home/u".toList
          "/home/u/.local/share/Trash/files/a.txt".toList)).2
        (trashInfoPathOf exampleEnv "/home/u".toList
          "/home/u/.local/share/Trash/files/a.txt".toList) = false) :=
  ⟨by decide, by decide,
   ((((trashLinux_record_has_entry 10 exampleEnv readOnlyDirFS readOnlyPrepared
      "/ro/a.txt".toList "/ro/a.txt".toList "/home/u".toList
      "/home/u/.local/share/Trash/files/a.txt".toList ⟨"a.txt".toList, false, 420⟩
      (by decide) (by decide) (by decide) (by decide)).2.1 readOnlyWritten (by decide)).2
      (.sys "rename".toList "/ro/a.txt".toList .EACCES) readOnlyWritten (by decide)).2.2
      (.sys "remove".toList "/ro/a.txt".toList .EACCES) readOnlyCopied (by decide))⟩

end TrashGuard
